import Mathlib

/-!
# kamal-parvez/memory-allocator: the four placement strategies of allocator.c

Shallow embedding of `src/allocator.c` and `src/block_meta.h` for an LP64 target.

* The memory is an array of bytes indexed by addresses; `0` is the C `NULL`.  A header
  `block_meta` is stored in memory as its three fields, at the offsets that block_meta.h gives
  them: `size_t size` in bytes 0..7, `int free` in bytes 8..11, `block_meta *next` in bytes
  16..23, little endian.  A field access reads or writes exactly the bytes of that field, so
  headers that overlap share bytes.
* Arithmetic on `size_t` and on pointers is taken modulo `2 ^ 64`; the argument of `sbrk` is an
  `intptr_t`, so a `size_t` of `2 ^ 63` or more is passed as a negative number.
* An access outside the memory that the operating system has mapped for the arena is
  `Res.fault`.
* Every C loop is a function with a fuel argument counting loop iterations; running out of fuel
  is `Res.timeout`.
* `H` stands for `sizeof(block_meta)` (24 on LP64).
-/

namespace MemoryAllocator

/-- Modulus of the C type `size_t` and of pointers. -/
def SIZE_MOD : Nat := 2 ^ 64

/-- Size of a page; the operating system maps the memory below the break page by page. -/
def PAGE_SIZE : Nat := 4096

/-- The memory: the byte stored at each address. -/
abbrev Mem := Nat → Nat

/-- Outcome of running a piece of C code. -/
inductive Res (α : Type) where
  | ok (a : α)
  | fault
  | timeout
deriving DecidableEq

/-- Sequencing of outcomes. -/
def Res.bind {α β : Type} : Res α → (α → Res β) → Res β
  | .ok a, f => f a
  | .fault, _ => .fault
  | .timeout, _ => .timeout

/-- The globals of allocator.c (`global_base`, `last_alloc`), the memory, and the state of the
operating system's program break: the lowest value it may take (`heap_start`), its current value
(`brk`), and the highest value the operating system will grant (`limit`). -/
structure State where
  global_base : Nat
  last_alloc : Nat
  mem : Mem
  heap_start : Nat
  brk : Nat
  limit : Nat

/-- Unsigned subtraction on `size_t`, and subtraction of a byte count from a pointer. -/
def sub64 (a b : Nat) : Nat := (a + SIZE_MOD - b % SIZE_MOD) % SIZE_MOD

/-- Value of the `n` bytes at address `a`, little endian. -/
def rd (m : Mem) (a : Nat) : Nat → Nat
  | 0 => 0
  | n + 1 => m a % 256 + 256 * rd m (a + 1) n

/-- Memory after the `n` low bytes of `v` are written at address `a`, little endian. -/
def wr (m : Mem) (a n v : Nat) : Mem :=
  fun x => if a ≤ x ∧ x < a + n then v / 256 ^ (x - a) % 256 else m x

/-- End of the page that holds the last byte below `a`: the break rounded up to a page. -/
def page_align (a : Nat) : Nat := (a + (PAGE_SIZE - 1)) / PAGE_SIZE * PAGE_SIZE

/-- The `n` bytes at address `a` belong to the memory of the arena: they lie in the pages between
`heap_start` and the break (the page of the break included), not in the page of `NULL`, and
inside the address space. -/
def mapped (s : State) (a n : Nat) : Prop :=
  PAGE_SIZE ≤ a ∧ s.heap_start ≤ a ∧ a + n ≤ page_align s.brk ∧ a + n ≤ SIZE_MOD

instance (s : State) (a n : Nat) : Decidable (mapped s a n) :=
  inferInstanceAs
    (Decidable (PAGE_SIZE ≤ a ∧ s.heap_start ≤ a ∧ a + n ≤ page_align s.brk ∧ a + n ≤ SIZE_MOD))

/-- Reading `n` bytes at address `a`. -/
def load (s : State) (a n : Nat) : Res Nat :=
  if mapped s a n then .ok (rd s.mem a n) else .fault

/-- Writing the `n` low bytes of `v` at address `a`. -/
def store (s : State) (a n v : Nat) : Res State :=
  if mapped s a n then .ok { s with mem := wr s.mem a n v } else .fault

/-- Reading `p->size` (bytes 0..7 of the header). -/
def get_size (s : State) (p : Nat) : Res Nat := load s p 8

/-- Reading `p->free` (bytes 8..11 of the header); the result is the stored 32-bit pattern, which
the code only tests against zero. -/
def get_free (s : State) (p : Nat) : Res Nat := load s (p + 8) 4

/-- Reading `p->next` (bytes 16..23 of the header). -/
def get_next (s : State) (p : Nat) : Res Nat := load s (p + 16) 8

/-- Writing `p->size = v`. -/
def set_size (s : State) (p v : Nat) : Res State := store s p 8 v

/-- Writing `p->free = v`. -/
def set_free (s : State) (p v : Nat) : Res State := store s (p + 8) 4 v

/-- Writing `p->next = v`. -/
def set_next (s : State) (p v : Nat) : Res State := store s (p + 16) 8 v

/-- Conversion of a `size_t` value to `intptr_t`, the parameter type of `sbrk`. -/
def to_intptr (v : Nat) : Int :=
  if v < 2 ^ 63 then (v : Int) else (v : Int) - ((SIZE_MOD : Nat) : Int)

/-- Modelled from the spec: the growth primitive `sbrk(intptr_t increment)` of the C library,
which is not part of src/.  It moves the break by `increment` bytes (down when `increment` is
negative) and returns the old break, which is the start of the new region; it fails, changing
nothing, when the operating system denies the new break.  Pages that the break newly reaches
are handed out filled with zeros. -/
def sbrk (s : State) (increment : Int) : Option Nat × State :=
  if (s.heap_start : Int) ≤ (s.brk : Int) + increment ∧ (s.brk : Int) + increment ≤ (s.limit : Int) ∧
      (s.brk : Int) + increment < ((SIZE_MOD : Nat) : Int) then
    (some s.brk,
      ⟨s.global_base, s.last_alloc,
        fun x =>
          if page_align s.brk ≤ x ∧ x < page_align ((s.brk : Int) + increment).toNat then 0
          else s.mem x,
        s.heap_start, ((s.brk : Int) + increment).toNat, s.limit⟩)
  else (none, s)

/-- The test `current->free && current->size >= size`; `size` is read only when `free` is not
zero. -/
def is_fit (s : State) (current size : Nat) : Res Bool :=
  (get_free s current).bind fun free =>
    if free ≠ 0 then (get_size s current).bind fun csize => .ok (decide (csize ≥ size))
    else .ok false

/-! ## Accounting -/

/-- The `while (current != NULL)` loop of `calculate_usable_memory`. -/
def calculate_usable_memory_loop (s : State) : Nat → Nat → Nat → Res Nat
  | 0, current, total_free_memory => if current = 0 then .ok total_free_memory else .timeout
  | fuel + 1, current, total_free_memory =>
    if current = 0 then .ok total_free_memory
    else
      (get_free s current).bind fun free =>
        (if free ≠ 0 then
            (get_size s current).bind fun csize => .ok ((total_free_memory + csize) % SIZE_MOD)
          else .ok total_free_memory).bind fun total1 =>
          (get_next s current).bind fun next => calculate_usable_memory_loop s fuel next total1

/-- Source function `calculate_usable_memory()` (allocator.c:22). -/
def calculate_usable_memory (fuel : Nat) (s : State) : Res Nat :=
  calculate_usable_memory_loop s fuel s.global_base 0

/-- Source function `reset_memory_tracking()` (allocator.c:36). -/
def reset_memory_tracking (s : State) : State :=
  { s with global_base := 0, last_alloc := 0 }

/-! ## First fit -/

/-- The loop of `find_first_fit`. -/
def find_first_fit_loop (s : State) (size : Nat) : Nat → Nat → Res Nat
  | 0, current => if current = 0 then .ok 0 else .timeout
  | fuel + 1, current =>
    if current = 0 then .ok 0
    else
      (is_fit s current size).bind fun fit =>
        if fit then .ok current
        else (get_next s current).bind fun next => find_first_fit_loop s size fuel next

/-- Source function `find_first_fit(size)` (allocator.c:47). -/
def find_first_fit (fuel : Nat) (s : State) (size : Nat) : Res Nat :=
  find_first_fit_loop s size fuel s.global_base

/-- Source function `request_space_first_fit(last, size)` (allocator.c:58). -/
def request_space_first_fit (H : Nat) (s : State) (last size : Nat) : Res (Nat × State) :=
  match sbrk s (to_intptr ((size + H) % SIZE_MOD)) with
  | (none, s1) => .ok (0, s1)
  | (some block, s1) =>
    (set_size s1 block size).bind fun s2 =>
      (set_free s2 block 0).bind fun s3 =>
        (set_next s3 block 0).bind fun s4 =>
          if last ≠ 0 then (set_next s4 last block).bind fun s5 => .ok (block, s5)
          else .ok (block, s4)

/-- Source function `first_fit_alloc(size)` (allocator.c:75). -/
def first_fit_alloc (H fuel : Nat) (s : State) (size : Nat) : Res (Nat × State) :=
  if size ≤ 0 then .ok (0, s)
  else
    (find_first_fit fuel s size).bind fun block =>
      if block = 0 then
        (request_space_first_fit H s 0 size).bind fun r =>
          if r.1 = 0 then .ok (0, r.2) else .ok ((r.1 + H) % SIZE_MOD, r.2)
      else (set_free s block 0).bind fun s1 => .ok ((block + H) % SIZE_MOD, s1)

/-- Source function `first_fit_free(ptr)` (allocator.c:93). -/
def first_fit_free (H : Nat) (s : State) (ptr : Nat) : Res State :=
  if ptr = 0 then .ok s
  else set_free s (sub64 ptr H) 1

/-! ## Worst fit -/

/-- The loop of `find_worst_fit`. -/
def find_worst_fit_loop (s : State) (size : Nat) : Nat → Nat → Nat → Res Nat
  | 0, current, worst_fit => if current = 0 then .ok worst_fit else .timeout
  | fuel + 1, current, worst_fit =>
    if current = 0 then .ok worst_fit
    else
      (is_fit s current size).bind fun fit =>
        (if fit then
            if worst_fit = 0 then .ok current
            else
              (get_size s current).bind fun csize =>
                (get_size s worst_fit).bind fun wsize =>
                  .ok (if csize > wsize then current else worst_fit)
          else .ok worst_fit).bind fun worst_fit1 =>
          (get_next s current).bind fun next => find_worst_fit_loop s size fuel next worst_fit1

/-- Source function `find_worst_fit(size)` (allocator.c:110). -/
def find_worst_fit (fuel : Nat) (s : State) (size : Nat) : Res Nat :=
  find_worst_fit_loop s size fuel s.global_base 0

/-- Source function `request_space_worst_fit(last, size)` (allocator.c:125). -/
def request_space_worst_fit (H : Nat) (s : State) (last size : Nat) : Res (Nat × State) :=
  match sbrk s (to_intptr ((size + H) % SIZE_MOD)) with
  | (none, s1) => .ok (0, s1)
  | (some block, s1) =>
    (set_size s1 block size).bind fun s2 =>
      (set_free s2 block 0).bind fun s3 =>
        (set_next s3 block 0).bind fun s4 =>
          if last ≠ 0 then (set_next s4 last block).bind fun s5 => .ok (block, s5)
          else .ok (block, s4)

/-- Source function `worst_fit_alloc(size)` (allocator.c:143). -/
def worst_fit_alloc (H fuel : Nat) (s : State) (size : Nat) : Res (Nat × State) :=
  if size ≤ 0 then .ok (0, s)
  else
    (find_worst_fit fuel s size).bind fun block =>
      if block = 0 then
        (request_space_worst_fit H s 0 size).bind fun r =>
          if r.1 = 0 then .ok (0, r.2) else .ok ((r.1 + H) % SIZE_MOD, r.2)
      else (set_free s block 0).bind fun s1 => .ok ((block + H) % SIZE_MOD, s1)

/-- Source function `worst_fit_free(ptr)` (allocator.c:161). -/
def worst_fit_free (H : Nat) (s : State) (ptr : Nat) : Res State :=
  if ptr = 0 then .ok s
  else set_free s (sub64 ptr H) 1

/-! ## Next fit -/

/-- The `do ... while (current != start)` loop of `find_next_fit`; the result is the block found,
or `NULL`. -/
def find_next_fit_loop (s : State) (start size : Nat) : Nat → Nat → Res Nat
  | 0, _ => .timeout
  | fuel + 1, current =>
    (is_fit s (if current = 0 then s.global_base else current) size).bind fun fit =>
      if fit then .ok (if current = 0 then s.global_base else current)
      else
        (get_next s (if current = 0 then s.global_base else current)).bind fun next =>
          if next ≠ start then find_next_fit_loop s start size fuel next else .ok 0

/-- Source function `find_next_fit(size)` (allocator.c:177); a hit moves `last_alloc` to the block
found. -/
def find_next_fit (fuel : Nat) (s : State) (size : Nat) : Res (Nat × State) :=
  (if s.last_alloc ≠ 0 then get_next s s.last_alloc else .ok s.global_base).bind fun start =>
    (find_next_fit_loop s start size fuel start).bind fun found =>
      if found = 0 then .ok (0, s) else .ok (found, { s with last_alloc := found })

/-- Source function `request_space_next_fit(last, size)` (allocator.c:196). -/
def request_space_next_fit (H : Nat) (s : State) (last size : Nat) : Res (Nat × State) :=
  match sbrk s (to_intptr ((size + H) % SIZE_MOD)) with
  | (none, s1) => .ok (0, s1)
  | (some block, s1) =>
    (set_size s1 block size).bind fun s2 =>
      (set_free s2 block 0).bind fun s3 =>
        (set_next s3 block 0).bind fun s4 =>
          if last ≠ 0 then
            (set_next s4 last block).bind fun s5 => .ok (block, { s5 with last_alloc := block })
          else .ok (block, { s4 with global_base := block, last_alloc := block })

/-- Source function `next_fit_alloc(size)` (allocator.c:217). -/
def next_fit_alloc (H fuel : Nat) (s : State) (size : Nat) : Res (Nat × State) :=
  if size ≤ 0 then .ok (0, s)
  else
    (find_next_fit fuel s size).bind fun f =>
      if f.1 = 0 then
        (request_space_next_fit H f.2 f.2.last_alloc size).bind fun r =>
          if r.1 = 0 then .ok (0, r.2) else .ok ((r.1 + H) % SIZE_MOD, r.2)
      else (set_free f.2 f.1 0).bind fun s1 => .ok ((f.1 + H) % SIZE_MOD, s1)

/-- Source function `next_fit_free(ptr)` (allocator.c:235). -/
def next_fit_free (H : Nat) (s : State) (ptr : Nat) : Res State :=
  if ptr = 0 then .ok s
  else set_free s (sub64 ptr H) 1

/-! ## Best fit -/

/-- The loop of `find_best_fit`; the result is `(best_fit, *last)`. -/
def find_best_fit_loop (s : State) (size : Nat) : Nat → Nat → Nat → Nat → Res (Nat × Nat)
  | 0, current, best_fit, last => if current = 0 then .ok (best_fit, last) else .timeout
  | fuel + 1, current, best_fit, last =>
    if current = 0 then .ok (best_fit, last)
    else
      (is_fit s current size).bind fun fit =>
        (if fit then
            if best_fit = 0 then .ok current
            else
              (get_size s current).bind fun csize =>
                (get_size s best_fit).bind fun bsize =>
                  .ok (if csize < bsize then current else best_fit)
          else .ok best_fit).bind fun best_fit1 =>
          (get_next s current).bind fun next =>
            find_best_fit_loop s size fuel next best_fit1 current

/-- Source function `find_best_fit(&last, size)` (allocator.c:251); the result is
`(best_fit, *last)`. -/
def find_best_fit (fuel : Nat) (s : State) (last size : Nat) : Res (Nat × Nat) :=
  find_best_fit_loop s size fuel s.global_base 0 last

/-- Source function `split_block(block, size)` (allocator.c:267). -/
def split_block (H : Nat) (s : State) (block size : Nat) : Res State :=
  (get_size s block).bind fun bsize =>
    (set_size s ((block + size + H) % SIZE_MOD) (sub64 (sub64 bsize size) H)).bind fun s1 =>
      (set_free s1 ((block + size + H) % SIZE_MOD) 1).bind fun s2 =>
        (get_next s2 block).bind fun bnext =>
          (set_next s2 ((block + size + H) % SIZE_MOD) bnext).bind fun s3 =>
            (set_size s3 block size).bind fun s4 =>
              set_next s4 block ((block + size + H) % SIZE_MOD)

/-- Source function `request_space_best_fit(last, size)` (allocator.c:285). -/
def request_space_best_fit (H : Nat) (s : State) (last size : Nat) : Res (Nat × State) :=
  match sbrk s (to_intptr ((size + H) % SIZE_MOD)) with
  | (none, s1) => .ok (0, s1)
  | (some block, s1) =>
    (if last ≠ 0 then set_next s1 last block else .ok s1).bind fun s2 =>
      (set_size s2 block size).bind fun s3 =>
        (set_next s3 block 0).bind fun s4 =>
          (set_free s4 block 0).bind fun s5 => .ok (block, s5)

/-- Source function `best_fit_alloc(size)` (allocator.c:308). -/
def best_fit_alloc (H fuel : Nat) (s : State) (size : Nat) : Res (Nat × State) :=
  if size ≤ 0 then .ok (0, s)
  else if s.global_base = 0 then
    (request_space_best_fit H s 0 size).bind fun r =>
      if r.1 = 0 then .ok (0, r.2)
      else .ok ((r.1 + H) % SIZE_MOD, { r.2 with global_base := r.1 })
  else
    (find_best_fit fuel s s.global_base size).bind fun f =>
      if f.1 = 0 then
        (request_space_best_fit H s f.2 size).bind fun r =>
          if r.1 = 0 then .ok (0, r.2) else .ok ((r.1 + H) % SIZE_MOD, r.2)
      else
        (get_size s f.1).bind fun bsize =>
          (if bsize > (size + H + 4) % SIZE_MOD then split_block H s f.1 size
            else .ok s).bind fun s1 =>
            (set_free s1 f.1 0).bind fun s2 => .ok ((f.1 + H) % SIZE_MOD, s2)

/-- Source function `best_fit_free(ptr)` (allocator.c:340). -/
def best_fit_free (H : Nat) (s : State) (ptr : Nat) : Res State :=
  if ptr = 0 then .ok s
  else set_free s (sub64 ptr H) 1

/-! ## The dispatch table -/

/-- The four entries of the table `allocators[]` (main.c:42). -/
inductive Strategy where
  | BestFit
  | FirstFit
  | WorstFit
  | NextFit
deriving DecidableEq

/-- The `alloc` member of an entry of `allocators[]`. -/
def Strategy.alloc : Strategy → Nat → Nat → State → Nat → Res (Nat × State)
  | .BestFit => best_fit_alloc
  | .FirstFit => first_fit_alloc
  | .WorstFit => worst_fit_alloc
  | .NextFit => next_fit_alloc

/-- The `free` member of an entry of `allocators[]`. -/
def Strategy.free : Strategy → Nat → State → Nat → Res State
  | .BestFit => best_fit_free
  | .FirstFit => first_fit_free
  | .WorstFit => worst_fit_free
  | .NextFit => next_fit_free

/-- The search of a strategy, as `allocate` runs it, reports a miss.  (`best_fit_alloc` does not
search an empty arena at all.) -/
def Strategy.searchMisses : Strategy → Nat → State → Nat → Prop
  | .BestFit, fuel, s, size =>
    s.global_base = 0 ∨ ∃ last, find_best_fit fuel s s.global_base size = .ok (0, last)
  | .FirstFit, fuel, s, size => find_first_fit fuel s size = .ok 0
  | .WorstFit, fuel, s, size => find_worst_fit fuel s size = .ok 0
  | .NextFit, fuel, s, size => ∃ s1, find_next_fit fuel s size = .ok (0, s1)

/-- The search of a strategy, as `allocate` runs it, finds the block `B`. -/
def Strategy.searchHits : Strategy → Nat → State → Nat → Nat → Prop
  | .BestFit, fuel, s, size, B =>
    s.global_base ≠ 0 ∧ (∃ last, find_best_fit fuel s s.global_base size = .ok (B, last)) ∧ B ≠ 0
  | .FirstFit, fuel, s, size, B => find_first_fit fuel s size = .ok B ∧ B ≠ 0
  | .WorstFit, fuel, s, size, B => find_worst_fit fuel s size = .ok B ∧ B ≠ 0
  | .NextFit, fuel, s, size, B => (∃ s1, find_next_fit fuel s size = .ok (B, s1)) ∧ B ≠ 0

/-- The growth routine that the `alloc` member of an entry of `allocators[]` calls. -/
def Strategy.request_space : Strategy → Nat → State → Nat → Nat → Res (Nat × State)
  | .BestFit => request_space_best_fit
  | .FirstFit => request_space_first_fit
  | .WorstFit => request_space_worst_fit
  | .NextFit => request_space_next_fit

/-! ## Headers and chains -/

/-- The three fields of a header, as `block_meta` of block_meta.h declares them:
`size_t size; int free; block_meta* next`. -/
structure block_meta where
  size : Nat
  free : Nat
  next : Nat
deriving DecidableEq

/-- The header whose three fields are stored at `p`, when all of them lie in the memory of the
arena. -/
def hdr (s : State) (p : Nat) : Option block_meta :=
  if mapped s p 24 then some ⟨rd s.mem p 8, rd s.mem (p + 8) 4, rd s.mem (p + 16) 8⟩ else none

/-- A reading of the memory as headers: which addresses hold a header, and which one. -/
abbrev View := Nat → Option block_meta

/-- The blocks `l` are linked from `p` through `next`, the last one pointing at `q`. -/
def Seg (m : View) : Nat → List Nat → Nat → Prop
  | p, [], q => p = q
  | p, a :: l, q => p = a ∧ a ≠ 0 ∧ ∃ b, m a = some b ∧ Seg m b.next l q

/-- The chain reachable from `p` is the finite list `l`, ending in `NULL`. -/
def Chain (m : View) (p : Nat) (l : List Nat) : Prop := Seg m p l 0

/-- Block `a` is free and large enough for a request of `size` bytes. -/
def Fits (m : View) (size a : Nat) : Prop :=
  ∃ b, m a = some b ∧ b.free ≠ 0 ∧ size ≤ b.size

/-- Payload size recorded in the header at `a` (0 when there is none). -/
def sizeAt (m : View) (a : Nat) : Nat :=
  match m a with
  | some b => b.size
  | none => 0

/-- Sum of `size` over the blocks of `l` whose `free` flag is set. -/
def freeSum (m : View) : List Nat → Nat
  | [] => 0
  | a :: l =>
    (match m a with
      | some b => if b.free ≠ 0 then b.size else 0
      | none => 0) + freeSum m l

/-- Invariant of the best-fit scan: after the blocks `done`, the candidate `B` is `NULL` when none
of them fits, and otherwise the first smallest fitting block among them. -/
def BestIn (m : View) (size : Nat) (done : List Nat) (B : Nat) : Prop :=
  (B = 0 ∧ ∀ a ∈ done, ¬ Fits m size a) ∨
  (B ≠ 0 ∧ Fits m size B ∧ ∃ pre post, done = pre ++ B :: post ∧
    (∀ a ∈ pre, Fits m size a → sizeAt m B < sizeAt m a) ∧
    (∀ a ∈ post, Fits m size a → sizeAt m B ≤ sizeAt m a))

/-- Invariant of the worst-fit scan: after the blocks `done`, the candidate `B` is `NULL` when
none of them fits, and otherwise the first largest fitting block among them. -/
def WorstIn (m : View) (size : Nat) (done : List Nat) (B : Nat) : Prop :=
  (B = 0 ∧ ∀ a ∈ done, ¬ Fits m size a) ∨
  (B ≠ 0 ∧ Fits m size B ∧ ∃ pre post, done = pre ++ B :: post ∧
    (∀ a ∈ pre, Fits m size a → sizeAt m a < sizeAt m B) ∧
    (∀ a ∈ post, Fits m size a → sizeAt m a ≤ sizeAt m B))

/-- Run of `n` consecutive calls of `next_fit_alloc(size)`; the payloads returned are listed in call
order. -/
def next_fit_alloc_n (H fuel : Nat) : Nat → State → Nat → Res (List Nat × State)
  | 0, s, _ => .ok ([], s)
  | n + 1, s, size =>
    (next_fit_alloc H fuel s size).bind fun r =>
      (next_fit_alloc_n H fuel n r.2 size).bind fun rs => .ok (r.1 :: rs.1, rs.2)

/-- The blocks that the loop of `find_next_fit`, entered with `current`, examines in order when
none of them fits: it wraps from `NULL` to `global_base`, goes on while `next` differs from
`start`, and stops at the first block whose `next` is `start`. -/
def Scan (m : View) (g start : Nat) : List Nat → Nat → Prop
  | [], _ => False
  | [a], current =>
    (if current = 0 then g else current) = a ∧ a ≠ 0 ∧ ∃ b, m a = some b ∧ b.next = start
  | a :: a2 :: rest, current =>
    (if current = 0 then g else current) = a ∧ a ≠ 0 ∧
      ∃ b, m a = some b ∧ b.next ≠ start ∧ Scan m g start (a2 :: rest) b.next

/-- The first block that `find_next_fit` examines in state `s` is `e`: the block after the cursor,
or the head of the chain when there is no cursor or the cursor is on the tail. -/
def StartsAt (s : State) (e : Nat) : Prop :=
  (s.last_alloc = 0 ∧ s.global_base = e) ∨
  (s.last_alloc ≠ 0 ∧ ∃ lb, hdr s s.last_alloc = some lb ∧
    (lb.next = e ∨ (lb.next = 0 ∧ s.global_base = e)))

/-- The headers at the addresses of `l` do not share a byte: two different addresses of `l` are at
least 24 bytes apart. -/
def Apart (l : List Nat) : Prop :=
  ∀ a ∈ l, ∀ a2 ∈ l, a ≠ a2 → a + 24 ≤ a2 ∨ a2 + 24 ≤ a

/-- Layout of the blocks at the addresses `bl`: the break is an address of the heap, each of the
blocks, header and payload, lies below the break, and no two of them share a byte. -/
def Layout (H : Nat) (s : State) (bl : List Nat) : Prop :=
  PAGE_SIZE ≤ s.brk ∧ s.heap_start ≤ s.brk ∧ s.brk < SIZE_MOD ∧
    (∀ a ∈ bl, ∃ b, hdr s a = some b ∧ a + H + b.size ≤ s.brk) ∧
    ∀ a ∈ bl, ∀ a2 ∈ bl, a < a2 → a + H + sizeAt (hdr s) a ≤ a2

/-- Bytes that the blocks of `l` occupy: one header and the recorded payload size for each. -/
def footprint (H : Nat) (m : View) : List Nat → Nat
  | [] => 0
  | a :: l => (H + sizeAt m a) + footprint H m l

/-- Memory after the three fields of a header are written at `p`. -/
def put_header (m : Mem) (p size free next : Nat) : Mem :=
  wr (wr (wr m p 8 size) (p + 8) 4 free) (p + 16) 8 next

/-- The empty arena: nothing linked, no cursor, the break at `brk0`, where the heap starts. -/
def emptyArena (brk0 limit : Nat) : State :=
  ⟨0, 0, fun _ => 0, brk0, brk0, limit⟩

/-- A sample arena: one used block of 64 bytes at 4096, the cursor on it, and no room to grow. -/
def fullArena : State :=
  ⟨4096, 4096, put_header (fun _ => 0) 4096 64 0 0, 4096, 4184, 4184⟩

/-- A sample arena: a free block of 64 bytes at 4096 followed by a used block of 32 bytes at 4184
and a free block of 16 bytes at 4240. -/
def sampleArena : State :=
  ⟨4096, 0,
    put_header (put_header (put_header (fun _ => 0) 4096 64 1 4184) 4184 32 0 4240) 4240 16 1 0,
    4096, 4280, 65536⟩

/-- A sample arena: three free blocks of 32 bytes at 4096, 4152 and 4208, the cursor on the
middle one. -/
def equalArena : State :=
  ⟨4096, 4152,
    put_header (put_header (put_header (fun _ => 0) 4096 32 1 4152) 4152 32 1 4208) 4208 32 1 0,
    4096, 4264, 65536⟩

/-- A sample arena: used blocks of 64 bytes at 4096 and of 32 bytes at 4184, the cursor on the
first one. -/
def cursorMidArena : State :=
  ⟨4096, 4096, put_header (put_header (fun _ => 0) 4096 64 0 4184) 4184 32 0 0,
    4096, 4240, 65536⟩

/-- A sample arena: a single free block of 100 bytes at 4096. -/
def freedArena : State :=
  ⟨4096, 0, put_header (fun _ => 0) 4096 100 1 0, 4096, 4220, 65536⟩

/-- A sample arena: one used block of 64 bytes at 4096 and no cursor, as `best_fit_alloc(64)`
leaves the empty arena. -/
def stuckArena : State :=
  ⟨4096, 0, put_header (fun _ => 0) 4096 64 0 0, 4096, 4184, 65536⟩


/-! ## Basic facts about outcomes -/

@[simp] theorem Res.bind_ok {α β : Type} (a : α) (f : α → Res β) : (Res.ok a).bind f = f a := rfl

@[simp] theorem Res.bind_fault {α β : Type} (f : α → Res β) :
    (Res.fault : Res α).bind f = Res.fault := rfl

@[simp] theorem Res.bind_timeout {α β : Type} (f : α → Res β) :
    (Res.timeout : Res α).bind f = Res.timeout := rfl

theorem Res.bind_eq_ok {α β : Type} {x : Res α} {f : α → Res β} {b : β}
    (h : x.bind f = .ok b) : ∃ a, x = .ok a ∧ f a = .ok b := by
  cases x with
  | ok a => exact ⟨a, rfl, h⟩
  | fault => simp at h
  | timeout => simp at h

/-! ## Bytes -/

theorem rd_lt (m : Mem) : ∀ (n a : Nat), rd m a n < 256 ^ n := by
  intro n
  induction n with
  | zero => intro a; simp [rd]
  | succ k ih =>
    intro a
    have h1 := ih (a + 1)
    have h2 : m a % 256 < 256 := Nat.mod_lt _ (by decide)
    simp only [rd, pow_succ]
    omega

theorem rd_congr {m m1 : Mem} : ∀ (n a : Nat), (∀ x, a ≤ x → x < a + n → m x = m1 x) →
    rd m a n = rd m1 a n := by
  intro n
  induction n with
  | zero => intro a _; rfl
  | succ k ih =>
    intro a h
    simp only [rd]
    rw [h a (Nat.le_refl _) (by omega), ih (a + 1) (fun x h1 h2 => h x (by omega) (by omega))]

theorem wr_outside (m : Mem) {a n x : Nat} (v : Nat) (h : x < a ∨ a + n ≤ x) :
    wr m a n v x = m x := by
  unfold wr
  rw [if_neg (by omega)]

theorem wr_inside (m : Mem) {a n x : Nat} (v : Nat) (h1 : a ≤ x) (h2 : x < a + n) :
    wr m a n v x = v / 256 ^ (x - a) % 256 := by
  unfold wr
  rw [if_pos ⟨h1, h2⟩]

theorem rd_wr_disjoint (m : Mem) {a n b k : Nat} (v : Nat) (h : a + n ≤ b ∨ b + k ≤ a) :
    rd (wr m a n v) b k = rd m b k :=
  rd_congr k b (fun x h1 h2 => wr_outside m v (by omega))

theorem rd_wr_same (m : Mem) : ∀ (n a v : Nat), rd (wr m a n v) a n = v % 256 ^ n := by
  intro n
  induction n with
  | zero => intro a v; simp [rd, Nat.mod_one]
  | succ k ih =>
    intro a v
    have h1 : rd (wr m a (k + 1) v) (a + 1) k = rd (wr m (a + 1) k (v / 256)) (a + 1) k := by
      apply rd_congr
      intro x hx1 hx2
      rw [wr_inside m v (by omega) (by omega), wr_inside m (v / 256) hx1 hx2]
      have : x - a = (x - (a + 1)) + 1 := by omega
      rw [this, pow_succ, Nat.mul_comm, ← Nat.div_div_eq_div_mul]
    simp only [rd]
    rw [h1, ih (a + 1) (v / 256), wr_inside m v (Nat.le_refl _) (by omega)]
    simp only [Nat.sub_self, pow_zero, Nat.div_one, Nat.mod_mod]
    rw [pow_succ, Nat.mul_comm (256 ^ k) 256, Nat.mod_mul]

theorem rd_wr_same_of_lt (m : Mem) {n v : Nat} (a : Nat) (h : v < 256 ^ n) :
    rd (wr m a n v) a n = v := by
  rw [rd_wr_same, Nat.mod_eq_of_lt h]

/-! ## Reading and writing the memory of the arena -/

theorem mapped_sub {s : State} {a n a1 n1 : Nat} (h : mapped s a n) (h1 : a ≤ a1)
    (h2 : a1 + n1 ≤ a + n) : mapped s a1 n1 := by
  unfold mapped at h ⊢
  omega

theorem mapped_congr {s s1 : State} (hs : s1.heap_start = s.heap_start) (hb : s1.brk = s.brk)
    (a n : Nat) : mapped s1 a n ↔ mapped s a n := by
  unfold mapped
  rw [hs, hb]

theorem mapped_ne_zero {s : State} {a n : Nat} (h : mapped s a n) : a ≠ 0 := by
  unfold mapped PAGE_SIZE at h
  omega

theorem mapped_lt {s : State} {a n : Nat} (h : mapped s a n) : a + n ≤ SIZE_MOD := h.2.2.2

theorem load_of_mapped {s : State} {a n : Nat} (h : mapped s a n) :
    load s a n = .ok (rd s.mem a n) := by
  unfold load
  rw [if_pos h]

theorem load_eq_ok {s : State} {a n x : Nat} (h : load s a n = .ok x) :
    mapped s a n ∧ x = rd s.mem a n := by
  unfold load at h
  by_cases hm : mapped s a n
  · rw [if_pos hm] at h
    cases h
    exact ⟨hm, rfl⟩
  · rw [if_neg hm] at h
    cases h

theorem load_ne_timeout (s : State) (a n : Nat) : load s a n ≠ .timeout := by
  unfold load
  split <;> simp

theorem store_of_mapped {s : State} {a n : Nat} (v : Nat) (h : mapped s a n) :
    store s a n v = .ok { s with mem := wr s.mem a n v } := by
  unfold store
  rw [if_pos h]

theorem store_eq_ok {s s1 : State} {a n v : Nat} (h : store s a n v = .ok s1) :
    mapped s a n ∧ s1 = { s with mem := wr s.mem a n v } := by
  unfold store at h
  by_cases hm : mapped s a n
  · rw [if_pos hm] at h
    cases h
    exact ⟨hm, rfl⟩
  · rw [if_neg hm] at h
    cases h

/-- What a successful write leaves alone. -/
theorem store_frame {s s1 : State} {a n v : Nat} (h : store s a n v = .ok s1) :
    s1.global_base = s.global_base ∧ s1.last_alloc = s.last_alloc ∧
      s1.heap_start = s.heap_start ∧ s1.brk = s.brk ∧ s1.limit = s.limit ∧
      s1.mem = wr s.mem a n v := by
  obtain ⟨_, rfl⟩ := store_eq_ok h
  exact ⟨rfl, rfl, rfl, rfl, rfl, rfl⟩

theorem store_mapped {s s1 : State} {a n v : Nat} (h : store s a n v = .ok s1) (b k : Nat) :
    mapped s1 b k ↔ mapped s b k :=
  mapped_congr (store_frame h).2.2.1 (store_frame h).2.2.2.1 b k

theorem load_store_same {s s1 : State} {a n v : Nat} (h : store s a n v = .ok s1)
    (hv : v < 256 ^ n) : load s1 a n = .ok v := by
  obtain ⟨hm, rfl⟩ := store_eq_ok h
  unfold load
  rw [if_pos (by exact hm)]
  show Res.ok (rd (wr s.mem a n v) a n) = _
  rw [rd_wr_same_of_lt _ _ hv]

theorem load_store_disjoint {s s1 : State} {a n v : Nat} (h : store s a n v = .ok s1)
    {b k : Nat} (hd : a + n ≤ b ∨ b + k ≤ a) : load s1 b k = load s b k := by
  obtain ⟨hm, rfl⟩ := store_eq_ok h
  unfold load
  by_cases hb : mapped s b k
  · rw [if_pos (by exact hb), if_pos hb]
    show Res.ok (rd (wr s.mem a n v) b k) = _
    rw [rd_wr_disjoint _ _ hd]
  · rw [if_neg (by exact hb), if_neg hb]

/-! ## Headers -/

theorem hdr_eq_some {s : State} {p : Nat} {b : block_meta} (h : hdr s p = some b) :
    mapped s p 24 ∧ b = ⟨rd s.mem p 8, rd s.mem (p + 8) 4, rd s.mem (p + 16) 8⟩ := by
  unfold hdr at h
  by_cases hm : mapped s p 24
  · rw [if_pos hm] at h
    cases h
    exact ⟨hm, rfl⟩
  · rw [if_neg hm] at h
    cases h

theorem hdr_of_mapped {s : State} {p : Nat} (h : mapped s p 24) :
    hdr s p = some ⟨rd s.mem p 8, rd s.mem (p + 8) 4, rd s.mem (p + 16) 8⟩ := by
  unfold hdr
  rw [if_pos h]

theorem hdr_eq_none {s : State} {p : Nat} (h : ¬ mapped s p 24) : hdr s p = none := by
  unfold hdr
  rw [if_neg h]

theorem hdr_ne_zero {s : State} {p : Nat} {b : block_meta} (h : hdr s p = some b) : p ≠ 0 :=
  mapped_ne_zero (hdr_eq_some h).1

theorem hdr_size_lt {s : State} {p : Nat} {b : block_meta} (h : hdr s p = some b) :
    b.size < SIZE_MOD := by
  obtain ⟨_, rfl⟩ := hdr_eq_some h
  exact rd_lt _ 8 _

theorem hdr_free_lt {s : State} {p : Nat} {b : block_meta} (h : hdr s p = some b) :
    b.free < 2 ^ 32 := by
  obtain ⟨_, rfl⟩ := hdr_eq_some h
  exact rd_lt _ 4 _

theorem hdr_next_lt {s : State} {p : Nat} {b : block_meta} (h : hdr s p = some b) :
    b.next < SIZE_MOD := by
  obtain ⟨_, rfl⟩ := hdr_eq_some h
  exact rd_lt _ 8 _

theorem hdr_addr_lt {s : State} {p : Nat} {b : block_meta} (h : hdr s p = some b) :
    p + 24 ≤ SIZE_MOD := mapped_lt (hdr_eq_some h).1

theorem hdr_congr {s s1 : State} (hm : s1.mem = s.mem) (hs : s1.heap_start = s.heap_start)
    (hb : s1.brk = s.brk) : hdr s1 = hdr s := by
  funext p
  unfold hdr
  by_cases h : mapped s p 24
  · rw [if_pos h, if_pos ((mapped_congr hs hb p 24).mpr h), hm]
  · rw [if_neg h, if_neg (fun h1 => h ((mapped_congr hs hb p 24).mp h1))]

theorem get_size_of_hdr {s : State} {p : Nat} {b : block_meta} (h : hdr s p = some b) :
    get_size s p = .ok b.size := by
  obtain ⟨hm, rfl⟩ := hdr_eq_some h
  exact load_of_mapped (mapped_sub hm (Nat.le_refl _) (by omega))

theorem get_free_of_hdr {s : State} {p : Nat} {b : block_meta} (h : hdr s p = some b) :
    get_free s p = .ok b.free := by
  obtain ⟨hm, rfl⟩ := hdr_eq_some h
  exact load_of_mapped (mapped_sub hm (by omega) (by omega))

theorem get_next_of_hdr {s : State} {p : Nat} {b : block_meta} (h : hdr s p = some b) :
    get_next s p = .ok b.next := by
  obtain ⟨hm, rfl⟩ := hdr_eq_some h
  exact load_of_mapped (mapped_sub hm (by omega) (by omega))

theorem is_fit_of_hdr {s : State} {p : Nat} {b : block_meta} (size : Nat)
    (h : hdr s p = some b) : is_fit s p size = .ok (decide (b.free ≠ 0 ∧ b.size ≥ size)) := by
  unfold is_fit
  rw [get_free_of_hdr h, get_size_of_hdr h]
  by_cases hf : b.free ≠ 0
  · simp [hf]
  · simp [hf]

/-- A write that does not touch the header at `q` leaves it as it is. -/
theorem hdr_store_disjoint {s s1 : State} {a n v : Nat} (h : store s a n v = .ok s1) {q : Nat}
    (hd : a + n ≤ q ∨ q + 24 ≤ a) : hdr s1 q = hdr s q := by
  obtain ⟨_, rfl⟩ := store_eq_ok h
  unfold hdr
  by_cases hq : mapped s q 24
  · rw [if_pos (by exact hq), if_pos hq]
    show some (block_meta.mk (rd (wr s.mem a n v) q 8) (rd (wr s.mem a n v) (q + 8) 4)
      (rd (wr s.mem a n v) (q + 16) 8)) = _
    rw [rd_wr_disjoint _ _ (by omega), rd_wr_disjoint _ _ (by omega),
      rd_wr_disjoint _ _ (by omega)]
  · rw [if_neg (by exact hq), if_neg hq]

theorem set_size_ok {s : State} {p : Nat} {b : block_meta} (v : Nat) (h : hdr s p = some b) :
    set_size s p v = .ok { s with mem := wr s.mem p 8 v } :=
  store_of_mapped v (mapped_sub (hdr_eq_some h).1 (Nat.le_refl _) (by omega))

theorem set_free_ok {s : State} {p : Nat} {b : block_meta} (v : Nat) (h : hdr s p = some b) :
    set_free s p v = .ok { s with mem := wr s.mem (p + 8) 4 v } :=
  store_of_mapped v (mapped_sub (hdr_eq_some h).1 (by omega) (by omega))

theorem set_next_ok {s : State} {p : Nat} {b : block_meta} (v : Nat) (h : hdr s p = some b) :
    set_next s p v = .ok { s with mem := wr s.mem (p + 16) 8 v } :=
  store_of_mapped v (mapped_sub (hdr_eq_some h).1 (by omega) (by omega))

theorem hdr_set_size {s s1 : State} {p v : Nat} {b : block_meta} (h : set_size s p v = .ok s1)
    (hb : hdr s p = some b) (hv : v < SIZE_MOD) : hdr s1 p = some ⟨v, b.free, b.next⟩ := by
  obtain ⟨hm, rfl⟩ := hdr_eq_some hb
  obtain ⟨_, rfl⟩ := store_eq_ok h
  unfold hdr
  rw [if_pos (by exact hm)]
  show some (block_meta.mk (rd (wr s.mem p 8 v) p 8) (rd (wr s.mem p 8 v) (p + 8) 4)
    (rd (wr s.mem p 8 v) (p + 16) 8)) = _
  rw [rd_wr_same_of_lt _ _ (by simpa [SIZE_MOD] using hv), rd_wr_disjoint _ _ (by omega),
    rd_wr_disjoint _ _ (by omega)]

theorem hdr_set_free {s s1 : State} {p v : Nat} {b : block_meta} (h : set_free s p v = .ok s1)
    (hb : hdr s p = some b) (hv : v < 2 ^ 32) : hdr s1 p = some ⟨b.size, v, b.next⟩ := by
  obtain ⟨hm, rfl⟩ := hdr_eq_some hb
  obtain ⟨_, rfl⟩ := store_eq_ok h
  unfold hdr
  rw [if_pos (by exact hm)]
  show some (block_meta.mk (rd (wr s.mem (p + 8) 4 v) p 8) (rd (wr s.mem (p + 8) 4 v) (p + 8) 4)
    (rd (wr s.mem (p + 8) 4 v) (p + 16) 8)) = _
  rw [rd_wr_same_of_lt _ _ (by simpa using hv), rd_wr_disjoint _ _ (by omega),
    rd_wr_disjoint _ _ (by omega)]

theorem hdr_set_next {s s1 : State} {p v : Nat} {b : block_meta} (h : set_next s p v = .ok s1)
    (hb : hdr s p = some b) (hv : v < SIZE_MOD) : hdr s1 p = some ⟨b.size, b.free, v⟩ := by
  obtain ⟨hm, rfl⟩ := hdr_eq_some hb
  obtain ⟨_, rfl⟩ := store_eq_ok h
  unfold hdr
  rw [if_pos (by exact hm)]
  show some (block_meta.mk (rd (wr s.mem (p + 16) 8 v) p 8) (rd (wr s.mem (p + 16) 8 v) (p + 8) 4)
    (rd (wr s.mem (p + 16) 8 v) (p + 16) 8)) = _
  rw [rd_wr_same_of_lt _ _ (by simpa [SIZE_MOD] using hv), rd_wr_disjoint _ _ (by omega),
    rd_wr_disjoint _ _ (by omega)]

/-- Writing a field of the header at `p` leaves a header at least 24 bytes away as it is. -/
theorem hdr_set_size_other {s s1 : State} {p v q : Nat} (h : set_size s p v = .ok s1)
    (hd : p + 8 ≤ q ∨ q + 24 ≤ p) : hdr s1 q = hdr s q :=
  hdr_store_disjoint h (by omega)

theorem hdr_set_free_other {s s1 : State} {p v q : Nat} (h : set_free s p v = .ok s1)
    (hd : p + 12 ≤ q ∨ q + 24 ≤ p + 8) : hdr s1 q = hdr s q :=
  hdr_store_disjoint h (by omega)

theorem hdr_set_next_other {s s1 : State} {p v q : Nat} (h : set_next s p v = .ok s1)
    (hd : p + 24 ≤ q ∨ q + 24 ≤ p + 16) : hdr s1 q = hdr s q :=
  hdr_store_disjoint h (by omega)

/-- The headers of a state whose memory differs by one write that does not touch them. -/
theorem hdr_wr_disjoint (s : State) (g la : Nat) {a n q : Nat} (v : Nat)
    (hd : a + n ≤ q ∨ q + 24 ≤ a) :
    hdr ⟨g, la, wr s.mem a n v, s.heap_start, s.brk, s.limit⟩ q = hdr s q := by
  unfold hdr
  by_cases hq : mapped s q 24
  · rw [if_pos (by exact hq), if_pos hq]
    show some (block_meta.mk (rd (wr s.mem a n v) q 8) (rd (wr s.mem a n v) (q + 8) 4)
      (rd (wr s.mem a n v) (q + 16) 8)) = _
    rw [rd_wr_disjoint _ _ (by omega), rd_wr_disjoint _ _ (by omega),
      rd_wr_disjoint _ _ (by omega)]
  · rw [if_neg (by exact hq), if_neg hq]

/-- The header at `e` after its `free` field is written. -/
theorem hdr_wr_free (s : State) (g la : Nat) {e v : Nat} {b : block_meta}
    (hb : hdr s e = some b) (hv : v < 2 ^ 32) :
    hdr ⟨g, la, wr s.mem (e + 8) 4 v, s.heap_start, s.brk, s.limit⟩ e =
      some ⟨b.size, v, b.next⟩ := by
  obtain ⟨hm, rfl⟩ := hdr_eq_some hb
  unfold hdr
  rw [if_pos (by exact hm)]
  show some (block_meta.mk (rd (wr s.mem (e + 8) 4 v) e 8) (rd (wr s.mem (e + 8) 4 v) (e + 8) 4)
    (rd (wr s.mem (e + 8) 4 v) (e + 16) 8)) = _
  rw [rd_wr_same_of_lt _ _ (by simpa using hv), rd_wr_disjoint _ _ (by omega),
    rd_wr_disjoint _ _ (by omega)]

/-! ## The break -/

theorem le_page_align (a : Nat) : a ≤ page_align a := by
  unfold page_align PAGE_SIZE
  omega

theorem page_align_mono {a b : Nat} (h : a ≤ b) : page_align a ≤ page_align b := by
  unfold page_align PAGE_SIZE
  omega

theorem to_intptr_of_lt {v : Nat} (h : v < 2 ^ 63) : to_intptr v = (v : Int) := by
  unfold to_intptr
  rw [if_pos h]

theorem sbrk_fail {s : State} {incr : Int} (h : (sbrk s incr).1 = none) :
    sbrk s incr = (none, s) := by
  unfold sbrk at h ⊢
  split
  · rename_i hc
    rw [if_pos hc] at h
    cases h
  · rfl

theorem sbrk_none {s s1 : State} {incr : Int} (h : sbrk s incr = (none, s1)) : s1 = s := by
  unfold sbrk at h
  split at h
  · cases h
  · cases h
    rfl

/-- What a successful `sbrk` returns and changes. -/
theorem sbrk_some {s s1 : State} {incr : Int} {blk : Nat} (h : sbrk s incr = (some blk, s1)) :
    blk = s.brk ∧ (s.heap_start : Int) ≤ (s.brk : Int) + incr ∧
      (s.brk : Int) + incr ≤ (s.limit : Int) ∧ (s.brk : Int) + incr < ((SIZE_MOD : Nat) : Int) ∧
      (s1.brk : Int) = (s.brk : Int) + incr ∧ s1.global_base = s.global_base ∧
      s1.last_alloc = s.last_alloc ∧ s1.heap_start = s.heap_start ∧ s1.limit = s.limit ∧
      ∀ x, x < page_align s.brk → s1.mem x = s.mem x := by
  unfold sbrk at h
  split at h
  · rename_i hc
    cases h
    refine ⟨rfl, hc.1, hc.2.1, hc.2.2, ?_, rfl, rfl, rfl, rfl, ?_⟩
    · show ((((s.brk : Int) + incr).toNat : Nat) : Int) = _
      have : (0 : Int) ≤ (s.brk : Int) + incr := by
        have := hc.1
        omega
      omega
    · intro x hx
      show (if page_align s.brk ≤ x ∧ x < page_align ((s.brk : Int) + incr).toNat then 0
        else s.mem x) = s.mem x
      rw [if_neg (by omega)]
  · cases h

theorem sbrk_of_room {s : State} {n : Nat} (h1 : s.heap_start ≤ s.brk)
    (h2 : s.brk + n ≤ s.limit) (h3 : s.brk + n < SIZE_MOD) :
    ∃ s1, sbrk s (n : Int) = (some s.brk, s1) := by
  unfold sbrk
  rw [if_pos (by refine ⟨by omega, by omega, by omega⟩)]
  exact ⟨_, rfl⟩

/-- Moving the break up keeps every header that was in the memory of the arena. -/
theorem sbrk_hdr {s s1 : State} {incr : Int} {blk : Nat} (h : sbrk s incr = (some blk, s1))
    (hi : 0 ≤ incr) {q : Nat} {b : block_meta} (hq : hdr s q = some b) : hdr s1 q = some b := by
  obtain ⟨_, _, _, _, hbrk, _, _, hhs, _, hmem⟩ := sbrk_some h
  obtain ⟨hm, rfl⟩ := hdr_eq_some hq
  have hle : s.brk ≤ s1.brk := by omega
  have hpa := page_align_mono hle
  have hm1 : mapped s1 q 24 := by
    unfold mapped at hm ⊢
    rw [hhs]
    omega
  rw [hdr_of_mapped hm1]
  have hq24 : q + 24 ≤ page_align s.brk := hm.2.2.1
  rw [rd_congr 8 q (fun x _ h2 => hmem x (by omega)),
    rd_congr 4 (q + 8) (fun x _ h2 => hmem x (by omega)),
    rd_congr 8 (q + 16) (fun x _ h2 => hmem x (by omega))]

/-- After the break has moved up by at least 24 bytes from a mapped place, the region at the old
break can hold a header. -/
theorem sbrk_block_mapped {s s1 : State} {incr : Int} {blk : Nat}
    (h : sbrk s incr = (some blk, s1)) (hi : 24 ≤ incr) (hp : PAGE_SIZE ≤ s.brk)
    (hs : s.heap_start ≤ s.brk) : mapped s1 blk 24 := by
  obtain ⟨hblk, _, _, hlt, hbrk, _, _, hhs, _, _⟩ := sbrk_some h
  have h1 := le_page_align s1.brk
  unfold mapped
  rw [hhs, hblk]
  have : s1.brk < SIZE_MOD := by omega
  refine ⟨hp, hs, by omega, by omega⟩

/-! ## What a successful search returns -/

theorem is_fit_true {s : State} {p size : Nat} (h : is_fit s p size = .ok true) :
    ∃ f sz, get_free s p = .ok f ∧ f ≠ 0 ∧ get_size s p = .ok sz ∧ size ≤ sz := by
  unfold is_fit at h
  obtain ⟨f, hf, h1⟩ := Res.bind_eq_ok h
  by_cases hz : f ≠ 0
  · rw [if_pos hz] at h1
    obtain ⟨sz, hsz, h2⟩ := Res.bind_eq_ok h1
    have hd := Res.ok.inj h2
    exact ⟨f, sz, hf, hz, hsz, by simpa using hd⟩
  · rw [if_neg hz] at h1
    cases h1

theorem find_first_fit_loop_hit (s : State) (size : Nat) :
    ∀ (fuel current p : Nat), find_first_fit_loop s size fuel current = .ok p → p ≠ 0 →
      is_fit s p size = .ok true := by
  intro fuel
  induction fuel with
  | zero =>
    intro current p h hp
    unfold find_first_fit_loop at h
    split at h
    · cases h; exact absurd rfl hp
    · cases h
  | succ n ih =>
    intro current p h hp
    unfold find_first_fit_loop at h
    split at h
    · cases h; exact absurd rfl hp
    · obtain ⟨fit, hfit, h1⟩ := Res.bind_eq_ok h
      cases fit with
      | true =>
        simp only [if_true] at h1
        cases h1
        exact hfit
      | false =>
        simp only [Bool.false_eq_true, if_false] at h1
        obtain ⟨next, _, h2⟩ := Res.bind_eq_ok h1
        exact ih _ _ h2 hp

theorem find_worst_fit_loop_hit (s : State) (size : Nat) :
    ∀ (fuel current w p : Nat), find_worst_fit_loop s size fuel current w = .ok p → p ≠ 0 →
      (w ≠ 0 → is_fit s w size = .ok true) → is_fit s p size = .ok true := by
  intro fuel
  induction fuel with
  | zero =>
    intro current w p h hp hw
    unfold find_worst_fit_loop at h
    split at h
    · cases h; exact hw hp
    · cases h
  | succ n ih =>
    intro current w p h hp hw
    unfold find_worst_fit_loop at h
    split at h
    · cases h; exact hw hp
    · obtain ⟨fit, hfit, h1⟩ := Res.bind_eq_ok h
      obtain ⟨w1, hw1, h2⟩ := Res.bind_eq_ok h1
      obtain ⟨next, _, h3⟩ := Res.bind_eq_ok h2
      refine ih _ _ _ h3 hp ?_
      intro hw1z
      cases fit with
      | true =>
        simp only [if_true] at hw1
        split at hw1
        · cases hw1; exact hfit
        · obtain ⟨cs, _, h4⟩ := Res.bind_eq_ok hw1
          obtain ⟨ws, _, h5⟩ := Res.bind_eq_ok h4
          cases h5
          by_cases hgt : cs > ws
          · rw [if_pos hgt]; exact hfit
          · rw [if_neg hgt] at hw1z ⊢; exact hw hw1z
      | false =>
        simp only [Bool.false_eq_true, if_false] at hw1
        cases hw1
        exact hw hw1z

theorem find_best_fit_loop_hit (s : State) (size : Nat) :
    ∀ (fuel current w last p q : Nat),
      find_best_fit_loop s size fuel current w last = .ok (p, q) → p ≠ 0 →
      (w ≠ 0 → is_fit s w size = .ok true) → is_fit s p size = .ok true := by
  intro fuel
  induction fuel with
  | zero =>
    intro current w last p q h hp hw
    unfold find_best_fit_loop at h
    split at h
    · cases h; exact hw hp
    · cases h
  | succ n ih =>
    intro current w last p q h hp hw
    unfold find_best_fit_loop at h
    split at h
    · cases h; exact hw hp
    · obtain ⟨fit, hfit, h1⟩ := Res.bind_eq_ok h
      obtain ⟨w1, hw1, h2⟩ := Res.bind_eq_ok h1
      obtain ⟨next, _, h3⟩ := Res.bind_eq_ok h2
      refine ih _ _ _ _ _ h3 hp ?_
      intro hw1z
      cases fit with
      | true =>
        simp only [if_true] at hw1
        split at hw1
        · cases hw1; exact hfit
        · obtain ⟨cs, _, h4⟩ := Res.bind_eq_ok hw1
          obtain ⟨ws, _, h5⟩ := Res.bind_eq_ok h4
          cases h5
          by_cases hgt : cs < ws
          · rw [if_pos hgt]; exact hfit
          · rw [if_neg hgt] at hw1z ⊢; exact hw hw1z
      | false =>
        simp only [Bool.false_eq_true, if_false] at hw1
        cases hw1
        exact hw hw1z

theorem find_next_fit_loop_hit (s : State) (start size : Nat) :
    ∀ (fuel current p : Nat), find_next_fit_loop s start size fuel current = .ok p → p ≠ 0 →
      is_fit s p size = .ok true := by
  intro fuel
  induction fuel with
  | zero =>
    intro current p h hp
    unfold find_next_fit_loop at h
    cases h
  | succ n ih =>
    intro current p h hp
    unfold find_next_fit_loop at h
    obtain ⟨fit, hfit, h1⟩ := Res.bind_eq_ok h
    cases fit with
    | true =>
      simp only [if_true] at h1
      cases h1
      exact hfit
    | false =>
      simp only [Bool.false_eq_true, if_false] at h1
      obtain ⟨next, _, h2⟩ := Res.bind_eq_ok h1
      split at h2
      · exact ih _ _ h2 hp
      · cases h2; exact absurd rfl hp

theorem find_next_fit_hit {fuel : Nat} {s s1 : State} {size p : Nat}
    (h : find_next_fit fuel s size = .ok (p, s1)) (hp : p ≠ 0) :
    is_fit s p size = .ok true ∧ s1 = { s with last_alloc := p } := by
  unfold find_next_fit at h
  obtain ⟨start, _, h1⟩ := Res.bind_eq_ok h
  obtain ⟨found, hfound, h2⟩ := Res.bind_eq_ok h1
  split at h2
  · cases h2; exact absurd rfl hp
  · cases h2
    exact ⟨find_next_fit_loop_hit s start size fuel start p hfound hp, rfl⟩

theorem find_next_fit_miss {fuel : Nat} {s s1 : State} {size : Nat}
    (h : find_next_fit fuel s size = .ok (0, s1)) : s1 = s := by
  unfold find_next_fit at h
  obtain ⟨start, _, h1⟩ := Res.bind_eq_ok h
  obtain ⟨found, hfound, h2⟩ := Res.bind_eq_ok h1
  split at h2
  · cases h2; rfl
  · rename_i hne
    cases h2
    exact absurd rfl hne

/-! ## Field accesses after a field write -/

theorem pow_256_8 : (256 : Nat) ^ 8 = SIZE_MOD := by
  unfold SIZE_MOD
  norm_num

theorem load_store_same_mod {s s1 : State} {a n v : Nat} (h : store s a n v = .ok s1) :
    load s1 a n = .ok (v % 256 ^ n) := by
  obtain ⟨hm, rfl⟩ := store_eq_ok h
  unfold load
  rw [if_pos (by exact hm)]
  show Res.ok (rd (wr s.mem a n v) a n) = _
  rw [rd_wr_same]

theorem get_size_set_size {s s1 : State} {p v : Nat} (h : set_size s p v = .ok s1) :
    get_size s1 p = .ok (v % SIZE_MOD) := by
  have := load_store_same_mod h
  rw [pow_256_8] at this
  exact this

theorem get_free_set_free {s s1 : State} {p v : Nat} (h : set_free s p v = .ok s1) :
    get_free s1 p = .ok (v % 256 ^ 4) :=
  load_store_same_mod h

theorem get_next_set_next {s s1 : State} {p v : Nat} (h : set_next s p v = .ok s1) :
    get_next s1 p = .ok (v % SIZE_MOD) := by
  have := load_store_same_mod h
  rw [pow_256_8] at this
  exact this

theorem sub64_add_mod {B : Nat} (H : Nat) (hB : B < SIZE_MOD) :
    sub64 ((B + H) % SIZE_MOD) H = B := by
  unfold sub64 SIZE_MOD at *
  omega

theorem load_mapped {s : State} {a n x : Nat} (h : load s a n = .ok x) : mapped s a n :=
  (load_eq_ok h).1

/-! ## The growth routines, step by step -/

theorem request_space_first_fit_fail {H : Nat} {s : State} {last size : Nat}
    (hfail : (sbrk s (to_intptr ((size + H) % SIZE_MOD))).1 = none) :
    request_space_first_fit H s last size = .ok (0, s) := by
  unfold request_space_first_fit
  rw [sbrk_fail hfail]

theorem request_space_worst_fit_fail {H : Nat} {s : State} {last size : Nat}
    (hfail : (sbrk s (to_intptr ((size + H) % SIZE_MOD))).1 = none) :
    request_space_worst_fit H s last size = .ok (0, s) :=
  request_space_first_fit_fail hfail

theorem request_space_next_fit_fail {H : Nat} {s : State} {last size : Nat}
    (hfail : (sbrk s (to_intptr ((size + H) % SIZE_MOD))).1 = none) :
    request_space_next_fit H s last size = .ok (0, s) := by
  unfold request_space_next_fit
  rw [sbrk_fail hfail]

theorem request_space_best_fit_fail {H : Nat} {s : State} {last size : Nat}
    (hfail : (sbrk s (to_intptr ((size + H) % SIZE_MOD))).1 = none) :
    request_space_best_fit H s last size = .ok (0, s) := by
  unfold request_space_best_fit
  rw [sbrk_fail hfail]

/-- The steps of a run of `request_space_first_fit` that returns a block. -/
theorem request_space_first_fit_inv {H : Nat} {s s1 : State} {last size blk : Nat}
    (h : request_space_first_fit H s last size = .ok (blk, s1)) (hb : blk ≠ 0) :
    ∃ sb s2 s3 s4, sbrk s (to_intptr ((size + H) % SIZE_MOD)) = (some blk, sb) ∧
      set_size sb blk size = .ok s2 ∧ set_free s2 blk 0 = .ok s3 ∧ set_next s3 blk 0 = .ok s4 ∧
      ((last ≠ 0 ∧ set_next s4 last blk = .ok s1) ∨ (last = 0 ∧ s1 = s4)) := by
  unfold request_space_first_fit at h
  split at h
  · cases h; exact absurd rfl hb
  · rename_i block sb heq
    obtain ⟨s2, h2, h3⟩ := Res.bind_eq_ok h
    obtain ⟨s3, h4, h5⟩ := Res.bind_eq_ok h3
    obtain ⟨s4, h6, h7⟩ := Res.bind_eq_ok h5
    by_cases hl : last ≠ 0
    · rw [if_pos hl] at h7
      obtain ⟨s5, h8, h9⟩ := Res.bind_eq_ok h7
      cases h9
      exact ⟨sb, s2, s3, s4, heq, h2, h4, h6, Or.inl ⟨hl, h8⟩⟩
    · rw [if_neg hl] at h7
      cases h7
      exact ⟨sb, s2, s3, _, heq, h2, h4, h6, Or.inr ⟨by simpa using hl, rfl⟩⟩

/-- The steps of a run of `request_space_next_fit` that returns a block. -/
theorem request_space_next_fit_inv {H : Nat} {s s1 : State} {last size blk : Nat}
    (h : request_space_next_fit H s last size = .ok (blk, s1)) (hb : blk ≠ 0) :
    ∃ sb s2 s3 s4, sbrk s (to_intptr ((size + H) % SIZE_MOD)) = (some blk, sb) ∧
      set_size sb blk size = .ok s2 ∧ set_free s2 blk 0 = .ok s3 ∧ set_next s3 blk 0 = .ok s4 ∧
      ((last ≠ 0 ∧ ∃ s5, set_next s4 last blk = .ok s5 ∧ s1 = { s5 with last_alloc := blk }) ∨
        (last = 0 ∧ s1 = { s4 with global_base := blk, last_alloc := blk })) := by
  unfold request_space_next_fit at h
  split at h
  · cases h; exact absurd rfl hb
  · rename_i block sb heq
    obtain ⟨s2, h2, h3⟩ := Res.bind_eq_ok h
    obtain ⟨s3, h4, h5⟩ := Res.bind_eq_ok h3
    obtain ⟨s4, h6, h7⟩ := Res.bind_eq_ok h5
    by_cases hl : last ≠ 0
    · rw [if_pos hl] at h7
      obtain ⟨s5, h8, h9⟩ := Res.bind_eq_ok h7
      cases h9
      exact ⟨sb, s2, s3, s4, heq, h2, h4, h6, Or.inl ⟨hl, s5, h8, rfl⟩⟩
    · rw [if_neg hl] at h7
      cases h7
      exact ⟨sb, s2, s3, _, heq, h2, h4, h6, Or.inr ⟨by simpa using hl, rfl⟩⟩

/-- The steps of a run of `request_space_best_fit` that returns a block. -/
theorem request_space_best_fit_inv {H : Nat} {s s1 : State} {last size blk : Nat}
    (h : request_space_best_fit H s last size = .ok (blk, s1)) (hb : blk ≠ 0) :
    ∃ sb s2 s3 s4, sbrk s (to_intptr ((size + H) % SIZE_MOD)) = (some blk, sb) ∧
      ((last ≠ 0 ∧ set_next sb last blk = .ok s2) ∨ (last = 0 ∧ s2 = sb)) ∧
      set_size s2 blk size = .ok s3 ∧ set_next s3 blk 0 = .ok s4 ∧ set_free s4 blk 0 = .ok s1 := by
  unfold request_space_best_fit at h
  split at h
  · cases h; exact absurd rfl hb
  · rename_i block sb heq
    obtain ⟨s2, h2, h3⟩ := Res.bind_eq_ok h
    obtain ⟨s3, h4, h5⟩ := Res.bind_eq_ok h3
    obtain ⟨s4, h6, h7⟩ := Res.bind_eq_ok h5
    obtain ⟨s5, h8, h9⟩ := Res.bind_eq_ok h7
    cases h9
    refine ⟨sb, s2, s3, s4, heq, ?_, h4, h6, h8⟩
    by_cases hl : last ≠ 0
    · rw [if_pos hl] at h2
      exact Or.inl ⟨hl, h2⟩
    · rw [if_neg hl] at h2
      cases h2
      exact Or.inr ⟨by simpa using hl, rfl⟩

/-- A growth routine returns `NULL` only when `sbrk` has failed, and then the state is
unchanged. -/
theorem request_space_first_fit_null {H : Nat} {s s1 : State} {last size : Nat}
    (h : request_space_first_fit H s last size = .ok (0, s1)) :
    s1 = s ∧ (sbrk s (to_intptr ((size + H) % SIZE_MOD))).1 = none := by
  unfold request_space_first_fit at h
  split at h
  · rename_i sb heq
    cases h
    exact ⟨sbrk_none heq, by rw [heq]⟩
  · rename_i block sb heq
    obtain ⟨s2, h2, h3⟩ := Res.bind_eq_ok h
    obtain ⟨s3, h4, h5⟩ := Res.bind_eq_ok h3
    obtain ⟨s4, h6, h7⟩ := Res.bind_eq_ok h5
    have hm := (store_eq_ok h2).1
    have hz : block = 0 := by
      split at h7
      · obtain ⟨s5, _, h9⟩ := Res.bind_eq_ok h7
        cases h9; rfl
      · cases h7; rfl
    exact absurd hz (mapped_ne_zero hm)

theorem request_space_next_fit_null {H : Nat} {s s1 : State} {last size : Nat}
    (h : request_space_next_fit H s last size = .ok (0, s1)) :
    s1 = s ∧ (sbrk s (to_intptr ((size + H) % SIZE_MOD))).1 = none := by
  unfold request_space_next_fit at h
  split at h
  · rename_i sb heq
    cases h
    exact ⟨sbrk_none heq, by rw [heq]⟩
  · rename_i block sb heq
    obtain ⟨s2, h2, h3⟩ := Res.bind_eq_ok h
    obtain ⟨s3, h4, h5⟩ := Res.bind_eq_ok h3
    obtain ⟨s4, h6, h7⟩ := Res.bind_eq_ok h5
    have hm := (store_eq_ok h2).1
    have hz : block = 0 := by
      split at h7
      · obtain ⟨s5, _, h9⟩ := Res.bind_eq_ok h7
        cases h9; rfl
      · cases h7; rfl
    exact absurd hz (mapped_ne_zero hm)

theorem request_space_best_fit_null {H : Nat} {s s1 : State} {last size : Nat}
    (h : request_space_best_fit H s last size = .ok (0, s1)) :
    s1 = s ∧ (sbrk s (to_intptr ((size + H) % SIZE_MOD))).1 = none := by
  unfold request_space_best_fit at h
  split at h
  · rename_i sb heq
    cases h
    exact ⟨sbrk_none heq, by rw [heq]⟩
  · rename_i block sb heq
    obtain ⟨s2, h2, h3⟩ := Res.bind_eq_ok h
    obtain ⟨s3, h4, h5⟩ := Res.bind_eq_ok h3
    obtain ⟨s4, h6, h7⟩ := Res.bind_eq_ok h5
    obtain ⟨s5, h8, h9⟩ := Res.bind_eq_ok h7
    have hm := (store_eq_ok h4).1
    have hz : block = 0 := by cases h9; rfl
    exact absurd hz (mapped_ne_zero hm)

/-! ## The header written by the growth routines -/

theorem request_space_first_fit_header {H : Nat} {s s1 : State} {last size blk : Nat}
    (h : request_space_first_fit H s last size = .ok (blk, s1)) (hb : blk ≠ 0) :
    blk = s.brk ∧ mapped s1 blk 8 ∧ mapped s1 (blk + 8) 4 ∧
      (last = 0 ∨ last + 24 ≤ s.brk ∨ s.brk + 12 ≤ last + 16 →
        get_size s1 blk = .ok (size % SIZE_MOD) ∧ get_free s1 blk = .ok 0) := by
  obtain ⟨sb, s2, s3, s4, hsb, h2, h3, h4, h5⟩ := request_space_first_fit_inv h hb
  have hblk := (sbrk_some hsb).1
  have e2 : get_size s2 blk = .ok (size % SIZE_MOD) := get_size_set_size h2
  have e3 : get_size s3 blk = .ok (size % SIZE_MOD) := by
    rw [← e2]; exact load_store_disjoint h3 (by omega)
  have f3 : get_free s3 blk = .ok 0 := get_free_set_free h3
  have e4 : get_size s4 blk = .ok (size % SIZE_MOD) := by
    rw [← e3]; exact load_store_disjoint h4 (by omega)
  have f4 : get_free s4 blk = .ok 0 := by
    rw [← f3]; exact load_store_disjoint h4 (by omega)
  rcases h5 with ⟨hl, h5⟩ | ⟨hl, rfl⟩
  · refine ⟨hblk, (store_mapped h5 _ _).mpr (load_mapped e4),
      (store_mapped h5 _ _).mpr (load_mapped f4), ?_⟩
    intro hd
    have hd1 : last + 24 ≤ blk ∨ blk + 12 ≤ last + 16 := by omega
    constructor
    · rw [← e4]; exact load_store_disjoint h5 (by omega)
    · rw [← f4]; exact load_store_disjoint h5 (by omega)
  · exact ⟨hblk, load_mapped e4, load_mapped f4, fun _ => ⟨e4, f4⟩⟩

theorem request_space_next_fit_header {H : Nat} {s s1 : State} {last size blk : Nat}
    (h : request_space_next_fit H s last size = .ok (blk, s1)) (hb : blk ≠ 0) :
    blk = s.brk ∧ mapped s1 blk 8 ∧ mapped s1 (blk + 8) 4 ∧
      (last = 0 ∨ last + 24 ≤ s.brk ∨ s.brk + 12 ≤ last + 16 →
        get_size s1 blk = .ok (size % SIZE_MOD) ∧ get_free s1 blk = .ok 0) := by
  obtain ⟨sb, s2, s3, s4, hsb, h2, h3, h4, h5⟩ := request_space_next_fit_inv h hb
  have hblk := (sbrk_some hsb).1
  have e2 : get_size s2 blk = .ok (size % SIZE_MOD) := get_size_set_size h2
  have e3 : get_size s3 blk = .ok (size % SIZE_MOD) := by
    rw [← e2]; exact load_store_disjoint h3 (by omega)
  have f3 : get_free s3 blk = .ok 0 := get_free_set_free h3
  have e4 : get_size s4 blk = .ok (size % SIZE_MOD) := by
    rw [← e3]; exact load_store_disjoint h4 (by omega)
  have f4 : get_free s4 blk = .ok 0 := by
    rw [← f3]; exact load_store_disjoint h4 (by omega)
  rcases h5 with ⟨hl, s5, h5, rfl⟩ | ⟨hl, rfl⟩
  · refine ⟨hblk, (store_mapped h5 _ _).mpr (load_mapped e4),
      (store_mapped h5 _ _).mpr (load_mapped f4), ?_⟩
    intro hd
    have hd1 : last + 24 ≤ blk ∨ blk + 12 ≤ last + 16 := by omega
    constructor
    · show get_size s5 blk = _
      rw [← e4]; exact load_store_disjoint h5 (by omega)
    · show get_free s5 blk = _
      rw [← f4]; exact load_store_disjoint h5 (by omega)
  · exact ⟨hblk, load_mapped e4, load_mapped f4, fun _ => ⟨e4, f4⟩⟩

theorem request_space_best_fit_header {H : Nat} {s s1 : State} {last size blk : Nat}
    (h : request_space_best_fit H s last size = .ok (blk, s1)) (hb : blk ≠ 0) :
    blk = s.brk ∧ get_size s1 blk = .ok (size % SIZE_MOD) ∧ get_free s1 blk = .ok 0 := by
  obtain ⟨sb, s2, s3, s4, hsb, _, h3, h4, h5⟩ := request_space_best_fit_inv h hb
  have hblk := (sbrk_some hsb).1
  have e3 : get_size s3 blk = .ok (size % SIZE_MOD) := get_size_set_size h3
  have e4 : get_size s4 blk = .ok (size % SIZE_MOD) := by
    rw [← e3]; exact load_store_disjoint h4 (by omega)
  have e5 : get_size s1 blk = .ok (size % SIZE_MOD) := by
    rw [← e4]; exact load_store_disjoint h5 (by omega)
  exact ⟨hblk, e5, get_free_set_free h5⟩

/-! ## C1: the block behind a returned payload -/

/-- A hit of first fit, worst fit or next fit: the block found is marked used and keeps its
size. -/
theorem hit_marks_used {s s1 : State} {B r : Nat} (hfit : is_fit s B r = .ok true)
    (h : set_free s B 0 = .ok s1) :
    B < SIZE_MOD ∧ get_free s1 B = .ok 0 ∧ ∃ sz, get_size s1 B = .ok sz ∧ r ≤ sz := by
  obtain ⟨f, sz, _, _, hsz, hle⟩ := is_fit_true hfit
  have hB : B < SIZE_MOD := by
    have := mapped_lt (load_mapped hsz)
    omega
  refine ⟨hB, get_free_set_free h, sz, ?_, hle⟩
  rw [← hsz]
  exact load_store_disjoint h (by omega)

theorem first_fit_alloc_used {H fuel : Nat} {s s1 : State} {r p : Nat} (hr : 0 < r)
    (h : first_fit_alloc H fuel s r = .ok (p, s1)) (hp : p ≠ 0) :
    ∃ B, B < SIZE_MOD ∧ p = (B + H) % SIZE_MOD ∧ get_free s1 B = .ok 0 ∧
      ∃ sz, get_size s1 B = .ok sz ∧ r % SIZE_MOD ≤ sz := by
  unfold first_fit_alloc at h
  rw [if_neg (by omega)] at h
  obtain ⟨block, hfind, h1⟩ := Res.bind_eq_ok h
  by_cases hb : block = 0
  · rw [if_pos hb] at h1
    obtain ⟨⟨blk, s2⟩, hreq, h2⟩ := Res.bind_eq_ok h1
    by_cases hz : blk = 0
    · simp only [hz, if_true] at h2
      cases h2
      exact absurd rfl hp
    · simp only [hz, if_false] at h2
      cases h2
      obtain ⟨_, hm, _, hhdr⟩ := request_space_first_fit_header hreq hz
      obtain ⟨e, f⟩ := hhdr (Or.inl rfl)
      have hB : blk < SIZE_MOD := by
        have := mapped_lt hm
        omega
      exact ⟨blk, hB, rfl, f, _, e, Nat.le_refl _⟩
  · rw [if_neg hb] at h1
    obtain ⟨s2, hset, h2⟩ := Res.bind_eq_ok h1
    cases h2
    have hfit := find_first_fit_loop_hit s r fuel s.global_base block hfind hb
    obtain ⟨hB, f, sz, e, hle⟩ := hit_marks_used hfit hset
    exact ⟨block, hB, rfl, f, sz, e, Nat.le_trans (Nat.mod_le _ _) hle⟩

theorem worst_fit_alloc_used {H fuel : Nat} {s s1 : State} {r p : Nat} (hr : 0 < r)
    (h : worst_fit_alloc H fuel s r = .ok (p, s1)) (hp : p ≠ 0) :
    ∃ B, B < SIZE_MOD ∧ p = (B + H) % SIZE_MOD ∧ get_free s1 B = .ok 0 ∧
      ∃ sz, get_size s1 B = .ok sz ∧ r % SIZE_MOD ≤ sz := by
  unfold worst_fit_alloc at h
  rw [if_neg (by omega)] at h
  obtain ⟨block, hfind, h1⟩ := Res.bind_eq_ok h
  by_cases hb : block = 0
  · rw [if_pos hb] at h1
    obtain ⟨⟨blk, s2⟩, hreq, h2⟩ := Res.bind_eq_ok h1
    by_cases hz : blk = 0
    · simp only [hz, if_true] at h2
      cases h2
      exact absurd rfl hp
    · simp only [hz, if_false] at h2
      cases h2
      obtain ⟨_, hm, _, hhdr⟩ := request_space_first_fit_header hreq hz
      obtain ⟨e, f⟩ := hhdr (Or.inl rfl)
      have hB : blk < SIZE_MOD := by
        have := mapped_lt hm
        omega
      exact ⟨blk, hB, rfl, f, _, e, Nat.le_refl _⟩
  · rw [if_neg hb] at h1
    obtain ⟨s2, hset, h2⟩ := Res.bind_eq_ok h1
    cases h2
    have hfit := find_worst_fit_loop_hit s r fuel s.global_base 0 block hfind hb
      (fun h0 => absurd rfl h0)
    obtain ⟨hB, f, sz, e, hle⟩ := hit_marks_used hfit hset
    exact ⟨block, hB, rfl, f, sz, e, Nat.le_trans (Nat.mod_le _ _) hle⟩

theorem next_fit_alloc_used {H fuel : Nat} {s s1 : State} {r p : Nat} (hr : 0 < r)
    (h : next_fit_alloc H fuel s r = .ok (p, s1)) (hp : p ≠ 0) :
    ∃ B, B < SIZE_MOD ∧ p = (B + H) % SIZE_MOD ∧ mapped s1 (B + 8) 4 ∧
      (s.last_alloc = 0 ∨ s.last_alloc + 24 ≤ s.brk → get_free s1 B = .ok 0 ∧
        ∃ sz, get_size s1 B = .ok sz ∧ r % SIZE_MOD ≤ sz) := by
  unfold next_fit_alloc at h
  rw [if_neg (by omega)] at h
  obtain ⟨⟨block, sf⟩, hfind, h1⟩ := Res.bind_eq_ok h
  by_cases hb : block = 0
  · subst hb
    have hsf := find_next_fit_miss hfind
    subst hsf
    simp only [if_true] at h1
    obtain ⟨⟨blk, s2⟩, hreq, h2⟩ := Res.bind_eq_ok h1
    by_cases hz : blk = 0
    · simp only [hz, if_true] at h2
      cases h2
      exact absurd rfl hp
    · simp only [hz, if_false] at h2
      cases h2
      obtain ⟨_, hm, hm2, hhdr⟩ := request_space_next_fit_header hreq hz
      have hB : blk < SIZE_MOD := by
        have := mapped_lt hm
        omega
      refine ⟨blk, hB, rfl, hm2, fun hc => ?_⟩
      obtain ⟨e, f⟩ := hhdr (by omega)
      exact ⟨f, _, e, Nat.le_refl _⟩
  · simp only [hb, if_false] at h1
    obtain ⟨s2, hset, h2⟩ := Res.bind_eq_ok h1
    cases h2
    obtain ⟨hfit, rfl⟩ := find_next_fit_hit hfind hb
    have hfit1 : is_fit { s with last_alloc := block } block r = .ok true := hfit
    obtain ⟨hB, f, sz, e, hle⟩ := hit_marks_used hfit1 hset
    exact ⟨block, hB, rfl, load_mapped f, fun _ => ⟨f, sz, e, Nat.le_trans (Nat.mod_le _ _) hle⟩⟩

/-- After `split_block(block, size)` the header at `block` records `size`. -/
theorem split_block_size {H : Nat} {s s1 : State} {block size : Nat}
    (h : split_block H s block size = .ok s1) : get_size s1 block = .ok (size % SIZE_MOD) := by
  unfold split_block at h
  obtain ⟨bsize, _, h1⟩ := Res.bind_eq_ok h
  obtain ⟨t1, _, h2⟩ := Res.bind_eq_ok h1
  obtain ⟨t2, _, h3⟩ := Res.bind_eq_ok h2
  obtain ⟨bnext, _, h4⟩ := Res.bind_eq_ok h3
  obtain ⟨t3, _, h5⟩ := Res.bind_eq_ok h4
  obtain ⟨t4, h6, h7⟩ := Res.bind_eq_ok h5
  rw [← get_size_set_size h6]
  exact load_store_disjoint h7 (by omega)

theorem best_fit_alloc_used {H fuel : Nat} {s s1 : State} {r p : Nat} (hr : 0 < r)
    (h : best_fit_alloc H fuel s r = .ok (p, s1)) (hp : p ≠ 0) :
    ∃ B, B < SIZE_MOD ∧ p = (B + H) % SIZE_MOD ∧ get_free s1 B = .ok 0 ∧
      ∃ sz, get_size s1 B = .ok sz ∧ r % SIZE_MOD ≤ sz := by
  unfold best_fit_alloc at h
  rw [if_neg (by omega)] at h
  by_cases hg : s.global_base = 0
  · rw [if_pos hg] at h
    obtain ⟨⟨blk, s2⟩, hreq, h2⟩ := Res.bind_eq_ok h
    by_cases hz : blk = 0
    · simp only [hz, if_true] at h2
      cases h2
      exact absurd rfl hp
    · simp only [hz, if_false] at h2
      cases h2
      obtain ⟨_, e, f⟩ := request_space_best_fit_header hreq hz
      have hB : blk < SIZE_MOD := by
        have := mapped_lt (load_mapped e)
        omega
      exact ⟨blk, hB, rfl, f, _, e, Nat.le_refl _⟩
  · rw [if_neg hg] at h
    obtain ⟨⟨block, last⟩, hfind, h1⟩ := Res.bind_eq_ok h
    by_cases hb : block = 0
    · subst hb
      simp only [if_true] at h1
      obtain ⟨⟨blk, s2⟩, hreq, h2⟩ := Res.bind_eq_ok h1
      by_cases hz : blk = 0
      · simp only [hz, if_true] at h2
        cases h2
        exact absurd rfl hp
      · simp only [hz, if_false] at h2
        cases h2
        obtain ⟨_, e, f⟩ := request_space_best_fit_header hreq hz
        have hB : blk < SIZE_MOD := by
          have := mapped_lt (load_mapped e)
          omega
        exact ⟨blk, hB, rfl, f, _, e, Nat.le_refl _⟩
    · simp only [hb, if_false] at h1
      obtain ⟨bsize, hbs, h2⟩ := Res.bind_eq_ok h1
      obtain ⟨t1, hsplit, h3⟩ := Res.bind_eq_ok h2
      obtain ⟨t2, hset, h4⟩ := Res.bind_eq_ok h3
      cases h4
      have hfit := find_best_fit_loop_hit s r fuel s.global_base 0 s.global_base block last
        hfind hb (fun h0 => absurd rfl h0)
      obtain ⟨f, sz, _, _, hsz, hle⟩ := is_fit_true hfit
      have hB : block < SIZE_MOD := by
        have := mapped_lt (load_mapped hsz)
        omega
      refine ⟨block, hB, rfl, get_free_set_free hset, ?_⟩
      by_cases hth : bsize > (r + H + 4) % SIZE_MOD
      · rw [if_pos hth] at hsplit
        refine ⟨_, ?_, Nat.le_refl _⟩
        rw [← split_block_size hsplit]
        exact load_store_disjoint hset (by omega)
      · rw [if_neg hth] at hsplit
        cases hsplit
        refine ⟨sz, ?_, Nat.le_trans (Nat.mod_le _ _) hle⟩
        rw [← hsz]
        exact load_store_disjoint hset (by omega)

/-- The block behind the payload that an allocation returns: its `free` field can be written,
and, unless next fit has grown the arena while the header of the cursor reaches over the break,
it is marked used and records at least the requested size. -/
theorem Strategy.alloc_used (st : Strategy) {H fuel : Nat} {s s1 : State} {r p : Nat}
    (hr : 0 < r) (h : st.alloc H fuel s r = .ok (p, s1)) (hp : p ≠ 0) :
    ∃ B, B < SIZE_MOD ∧ p = (B + H) % SIZE_MOD ∧ mapped s1 (B + 8) 4 ∧
      ((st = .NextFit → s.last_alloc = 0 ∨ s.last_alloc + 24 ≤ s.brk) →
        get_free s1 B = .ok 0 ∧ ∃ sz, get_size s1 B = .ok sz ∧ r % SIZE_MOD ≤ sz) := by
  cases st
  · obtain ⟨B, hB, e, f, hsz⟩ := best_fit_alloc_used hr h hp
    exact ⟨B, hB, e, load_mapped f, fun _ => ⟨f, hsz⟩⟩
  · obtain ⟨B, hB, e, f, hsz⟩ := first_fit_alloc_used hr h hp
    exact ⟨B, hB, e, load_mapped f, fun _ => ⟨f, hsz⟩⟩
  · obtain ⟨B, hB, e, f, hsz⟩ := worst_fit_alloc_used hr h hp
    exact ⟨B, hB, e, load_mapped f, fun _ => ⟨f, hsz⟩⟩
  · obtain ⟨B, hB, e, hm, hc⟩ := next_fit_alloc_used hr h hp
    exact ⟨B, hB, e, hm, fun hcur => hc (hcur rfl)⟩

/-- C1 (counterexample): with `H = 24`, on the empty arena `best_fit_alloc(2 ^ 64 - 16)` passes
`8` to `sbrk` (`size + sizeof(block_meta)` wraps), so the break stops at 4104, inside the header
written at 4096.  After `best_fit_free` and `next_fit_alloc(2 ^ 64 - 16)`, which reuses that
block and puts the cursor on it, `next_fit_alloc(100)` misses and is given the block at 4104:
`last->next = block` writes bytes 4112..4119, which hold the `free` field of the new header, so
the header before the returned payload 4128 is marked free (`free = 4104`), not used. -/
theorem next_fit_growth_leaves_returned_block_marked_free :
    ∃ s1 s2 s3 s4,
      best_fit_alloc 24 1 (emptyArena 4096 65536) (2 ^ 64 - 16) = .ok (4120, s1) ∧
      best_fit_free 24 s1 4120 = .ok s2 ∧
      next_fit_alloc 24 1 s2 (2 ^ 64 - 16) = .ok (4120, s3) ∧
      s3.last_alloc = 4096 ∧ s3.brk = 4104 ∧
      next_fit_alloc 24 1 s3 100 = .ok (4128, s4) ∧
      get_size s4 (sub64 4128 24) = .ok 100 ∧ get_free s4 (sub64 4128 24) = .ok 4104 := by
  refine ⟨_, _, _, _, rfl, rfl, rfl, ?_, ?_, rfl, ?_, ?_⟩ <;> decide

/-- C1 (amended): for each of the four strategies, every state and every request `r > 0`
representable in `size_t`: whenever allocate(r) returns a non-null payload pointer `p`, the
header immediately preceding the payload (at `p - H`) has `size >= r` and is marked not free
(`free = 0`), provided that, for next fit, the break lies past the header of the cursor
(`last_alloc + 24 <= brk`, or there is no cursor). -/
theorem alloc_payload_header_used_and_large_enough (st : Strategy) (H fuel : Nat)
    (s s1 : State) (r p : Nat) (hr : 0 < r) (hr64 : r < SIZE_MOD)
    (hcur : st = .NextFit → s.last_alloc = 0 ∨ s.last_alloc + 24 ≤ s.brk)
    (h : st.alloc H fuel s r = .ok (p, s1)) (hp : p ≠ 0) :
    ∃ sz, get_size s1 (sub64 p H) = .ok sz ∧ r ≤ sz ∧ get_free s1 (sub64 p H) = .ok 0 := by
  obtain ⟨B, hB, rfl, _, hc⟩ := st.alloc_used hr h hp
  obtain ⟨f, sz, e, hle⟩ := hc hcur
  rw [sub64_add_mod H hB]
  rw [Nat.mod_eq_of_lt hr64] at hle
  exact ⟨sz, e, hle, f⟩

/-- Witness for C1: next fit on three free blocks of 32 bytes with the cursor on the middle one;
`next_fit_alloc(32)` hands out the block at 4208. -/
theorem alloc_payload_header_used_and_large_enough_witness :
    (equalArena.last_alloc = 0 ∨ equalArena.last_alloc + 24 ≤ equalArena.brk) ∧
      Strategy.NextFit.alloc 24 1 equalArena 32 =
        .ok (4232, ⟨4096, 4208, wr equalArena.mem (4208 + 8) 4 0, 4096, 4264, 65536⟩) ∧
      ∃ sz, get_size ⟨4096, 4208, wr equalArena.mem (4208 + 8) 4 0, 4096, 4264, 65536⟩
          (sub64 4232 24) = .ok sz ∧ 32 ≤ sz ∧
        get_free ⟨4096, 4208, wr equalArena.mem (4208 + 8) 4 0, 4096, 4264, 65536⟩
          (sub64 4232 24) = .ok 0 :=
  ⟨by decide, rfl,
    alloc_payload_header_used_and_large_enough .NextFit 24 1 equalArena
      ⟨4096, 4208, wr equalArena.mem (4208 + 8) 4 0, 4096, 4264, 65536⟩ 32 4232 (by decide)
      (by decide) (fun _ => by decide) rfl (by decide)⟩

/-! ## C2: a request of zero bytes -/

/-- C2: for each of the four strategies and every state, allocate(0) returns `NULL` and the state
after the call is the state before it (globals, every byte of the memory, the break), so that
`calculate_usable_memory` returns the same value before and after. -/
theorem alloc_zero_returns_null_unchanged (st : Strategy) (H fuel : Nat) (s : State) :
    st.alloc H fuel s 0 = .ok (0, s) := by
  cases st <;> rfl

/-! ## C3: a miss followed by a failed growth -/

/-- C3: for each of the four strategies, every state and every `r > 0`: if the search misses and
`sbrk` fails, allocate(r) returns `NULL` and the state after the call is the state before it
(`global_base`, `last_alloc`, every byte of the memory). -/
theorem alloc_miss_growth_failure_unchanged (st : Strategy) (H fuel : Nat) (s : State) (r : Nat)
    (hr : 0 < r) (hmiss : st.searchMisses fuel s r)
    (hfail : (sbrk s (to_intptr ((r + H) % SIZE_MOD))).1 = none) :
    st.alloc H fuel s r = .ok (0, s) := by
  cases st
  · show best_fit_alloc H fuel s r = _
    unfold best_fit_alloc
    rw [if_neg (by omega)]
    rcases hmiss with hg | ⟨last, hfind⟩
    · rw [if_pos hg, request_space_best_fit_fail hfail]
      rfl
    · by_cases hg : s.global_base = 0
      · rw [if_pos hg, request_space_best_fit_fail hfail]
        rfl
      · rw [if_neg hg, hfind]
        simp [request_space_best_fit_fail hfail]
  · show first_fit_alloc H fuel s r = _
    unfold first_fit_alloc
    rw [if_neg (by omega), show find_first_fit fuel s r = .ok 0 from hmiss]
    simp [request_space_first_fit_fail hfail]
  · show worst_fit_alloc H fuel s r = _
    unfold worst_fit_alloc
    rw [if_neg (by omega), show find_worst_fit fuel s r = .ok 0 from hmiss]
    simp [request_space_worst_fit_fail hfail]
  · show next_fit_alloc H fuel s r = _
    obtain ⟨s1, hfind⟩ := hmiss
    have hs1 := find_next_fit_miss hfind
    subst hs1
    unfold next_fit_alloc
    rw [if_neg (by omega), hfind]
    simp [request_space_next_fit_fail hfail]

/-- Witness for C3: next fit on an arena whose only block is used and whose break cannot move. -/
theorem alloc_miss_growth_failure_unchanged_witness :
    Strategy.NextFit.searchMisses 1 fullArena 32 ∧
      (sbrk fullArena (to_intptr ((32 + 24) % SIZE_MOD))).1 = none ∧
      Strategy.NextFit.alloc 24 1 fullArena 32 = .ok (0, fullArena) :=
  ⟨⟨fullArena, rfl⟩, rfl,
    alloc_miss_growth_failure_unchanged .NextFit 24 1 fullArena 32 (by decide) ⟨fullArena, rfl⟩ rfl⟩

/-! ## C4: free -/

theorem Strategy.free_null (st : Strategy) (H : Nat) (s : State) : st.free H s 0 = .ok s := by
  cases st <;> rfl

theorem Strategy.free_eq (st : Strategy) (H : Nat) (s : State) {ptr : Nat} (hp : ptr ≠ 0) :
    st.free H s ptr = set_free s (sub64 ptr H) 1 := by
  cases st <;>
    simp [Strategy.free, best_fit_free, first_fit_free, worst_fit_free, next_fit_free, hp]

/-- C4: for each of the four free functions, free(NULL) leaves the whole state unchanged; for a
non-null `ptr` such that the `free` field of the header immediately before it (at `ptr - H`) lies
in the memory of the arena, free(ptr) succeeds, writes only the four bytes of that field, and
leaves it at 1; in particular, after free of a non-null pointer that allocate has just returned
the block before it is marked free. -/
theorem free_marks_block_free (st : Strategy) (H : Nat) (s : State) :
    st.free H s 0 = .ok s ∧
    (∀ ptr, ptr ≠ 0 → mapped s (sub64 ptr H + 8) 4 →
      st.free H s ptr = .ok { s with mem := wr s.mem (sub64 ptr H + 8) 4 1 } ∧
      get_free { s with mem := wr s.mem (sub64 ptr H + 8) 4 1 } (sub64 ptr H) = .ok 1) ∧
    (∀ st0 : Strategy, ∀ fuel s0 r ptr, 0 < r → ptr ≠ 0 → st0.alloc H fuel s0 r = .ok (ptr, s) →
      ∃ s2, st.free H s ptr = .ok s2 ∧ get_free s2 (sub64 ptr H) = .ok 1) := by
  have key : ∀ ptr, ptr ≠ 0 → mapped s (sub64 ptr H + 8) 4 →
      st.free H s ptr = .ok { s with mem := wr s.mem (sub64 ptr H + 8) 4 1 } ∧
      get_free { s with mem := wr s.mem (sub64 ptr H + 8) 4 1 } (sub64 ptr H) = .ok 1 := by
    intro ptr hp hm
    have h1 : set_free s (sub64 ptr H) 1 = .ok { s with mem := wr s.mem (sub64 ptr H + 8) 4 1 } :=
      store_of_mapped 1 hm
    exact ⟨by rw [st.free_eq H s hp, h1], get_free_set_free h1⟩
  refine ⟨st.free_null H s, key, ?_⟩
  intro st0 fuel s0 r ptr hr hp h
  obtain ⟨B, hB, rfl, hm, _⟩ := st0.alloc_used hr h hp
  rw [← sub64_add_mod H hB] at hm
  exact ⟨_, key _ hp hm⟩

/-- Witness for C4: freeing the used block at 4184 of the sample arena through its payload
pointer 4208. -/
theorem free_marks_block_free_witness :
    Strategy.NextFit.free 24 sampleArena 4208 =
        .ok { sampleArena with mem := wr sampleArena.mem (sub64 4208 24 + 8) 4 1 } ∧
      get_free { sampleArena with mem := wr sampleArena.mem (sub64 4208 24 + 8) 4 1 }
        (sub64 4208 24) = .ok 1 :=
  (free_marks_block_free .NextFit 24 sampleArena).2.1 4208 (by decide) (by decide)

/-! ## C13: reset -/

/-- C13: for every state, after `reset_memory_tracking()` both `global_base` and `last_alloc` are
`NULL` and `calculate_usable_memory()` returns 0 (with any fuel), whatever blocks the chain held
before; the memory (every header's `size`, `free` and `next`) and the break are not modified. -/
theorem reset_clears_head_and_cursor_only (fuel : Nat) (s : State) :
    (reset_memory_tracking s).global_base = 0 ∧ (reset_memory_tracking s).last_alloc = 0 ∧
      calculate_usable_memory fuel (reset_memory_tracking s) = .ok 0 ∧
      (reset_memory_tracking s).mem = s.mem ∧
      (reset_memory_tracking s).heap_start = s.heap_start ∧
      (reset_memory_tracking s).brk = s.brk ∧ (reset_memory_tracking s).limit = s.limit := by
  refine ⟨rfl, rfl, ?_, rfl, rfl, rfl, rfl⟩
  cases fuel <;> rfl

/-! ## One iteration of each loop on a block whose header is in the memory of the arena -/

theorem calculate_usable_memory_loop_step {s : State} {n current total : Nat} {b : block_meta}
    (ha : current ≠ 0) (hb : hdr s current = some b) :
    calculate_usable_memory_loop s (n + 1) current total =
      calculate_usable_memory_loop s n b.next
        (if b.free ≠ 0 then (total + b.size) % SIZE_MOD else total) := by
  simp only [calculate_usable_memory_loop]
  rw [if_neg ha, get_free_of_hdr hb, get_next_of_hdr hb, get_size_of_hdr hb]
  by_cases hf : b.free = 0
  · simp [hf]
  · simp [hf]

theorem find_first_fit_loop_step {s : State} {size n current : Nat} {b : block_meta}
    (ha : current ≠ 0) (hb : hdr s current = some b) :
    find_first_fit_loop s size (n + 1) current =
      if b.free ≠ 0 ∧ b.size ≥ size then .ok current
      else find_first_fit_loop s size n b.next := by
  simp only [find_first_fit_loop]
  rw [if_neg ha, is_fit_of_hdr size hb, get_next_of_hdr hb]
  by_cases hfit : b.free ≠ 0 ∧ b.size ≥ size
  · simp [hfit]
  · simp [hfit]

theorem find_worst_fit_loop_step {s : State} {size n current w : Nat} {b : block_meta}
    (ha : current ≠ 0) (hb : hdr s current = some b) :
    find_worst_fit_loop s size (n + 1) current w =
      if b.free ≠ 0 ∧ b.size ≥ size then
        if w = 0 then find_worst_fit_loop s size n b.next current
        else
          (get_size s w).bind fun ws =>
            if b.size > ws then find_worst_fit_loop s size n b.next current
            else find_worst_fit_loop s size n b.next w
      else find_worst_fit_loop s size n b.next w := by
  simp only [find_worst_fit_loop]
  rw [if_neg ha, is_fit_of_hdr size hb, get_next_of_hdr hb, get_size_of_hdr hb]
  by_cases hfit : b.free ≠ 0 ∧ b.size ≥ size
  · by_cases hw0 : w = 0
    · simp [hfit, hw0]
    · cases hg : get_size s w with
      | ok ws =>
        by_cases hgt : b.size > ws
        · simp [hfit, hw0, hgt]
        · simp [hfit, hw0, hgt]
      | fault => simp [hfit, hw0]
      | timeout => simp [hfit, hw0]
  · simp [hfit]

theorem find_best_fit_loop_step {s : State} {size n current w last : Nat} {b : block_meta}
    (ha : current ≠ 0) (hb : hdr s current = some b) :
    find_best_fit_loop s size (n + 1) current w last =
      if b.free ≠ 0 ∧ b.size ≥ size then
        if w = 0 then find_best_fit_loop s size n b.next current current
        else
          (get_size s w).bind fun ws =>
            if b.size < ws then find_best_fit_loop s size n b.next current current
            else find_best_fit_loop s size n b.next w current
      else find_best_fit_loop s size n b.next w current := by
  simp only [find_best_fit_loop]
  rw [if_neg ha, is_fit_of_hdr size hb, get_next_of_hdr hb, get_size_of_hdr hb]
  by_cases hfit : b.free ≠ 0 ∧ b.size ≥ size
  · by_cases hw0 : w = 0
    · simp [hfit, hw0]
    · cases hg : get_size s w with
      | ok ws =>
        by_cases hlt : b.size < ws
        · simp [hfit, hw0, hlt]
        · simp [hfit, hw0, hlt]
      | fault => simp [hfit, hw0]
      | timeout => simp [hfit, hw0]
  · simp [hfit]

/-! ## Facts about chains -/

theorem Seg.append {m : View} :
    ∀ (xs ys : List Nat) (p q : Nat),
      Seg m p (xs ++ ys) q ↔ ∃ mid, Seg m p xs mid ∧ Seg m mid ys q := by
  intro xs
  induction xs with
  | nil =>
    intro ys p q
    constructor
    · intro h; exact ⟨p, rfl, h⟩
    · rintro ⟨mid, h1, h2⟩
      have : p = mid := h1
      subst this
      exact h2
  | cons a xs ih =>
    intro ys p q
    constructor
    · rintro ⟨hp, ha, b, hb, hrest⟩
      obtain ⟨mid, h1, h2⟩ := (ih ys b.next q).mp hrest
      exact ⟨mid, ⟨hp, ha, b, hb, h1⟩, h2⟩
    · rintro ⟨mid, ⟨hp, ha, b, hb, h1⟩, h2⟩
      exact ⟨hp, ha, b, hb, (ih ys b.next q).mpr ⟨mid, h1, h2⟩⟩

theorem Seg.functional {m : View} :
    ∀ (l1 l2 : List Nat) (p : Nat), Seg m p l1 0 → Seg m p l2 0 → l1 = l2 := by
  intro l1
  induction l1 with
  | nil =>
    intro l2 p h1 h2
    have hp : p = 0 := h1
    cases l2 with
    | nil => rfl
    | cons a l2 =>
      obtain ⟨hpa, ha, _⟩ := h2
      exact absurd (hpa ▸ hp) ha
  | cons a l1 ih =>
    intro l2 p h1 h2
    obtain ⟨hpa, ha, b, hb, hrest⟩ := h1
    cases l2 with
    | nil =>
      have hp : p = 0 := h2
      exact absurd (hpa ▸ hp) ha
    | cons a2 l2 =>
      obtain ⟨hpa2, _, b2, hb2, hrest2⟩ := h2
      have haa : a = a2 := hpa.symm.trans hpa2
      subst haa
      rw [hb] at hb2
      cases hb2
      rw [ih l2 b.next hrest hrest2]

theorem Seg.head_eq {m : View} {p a q : Nat} {l : List Nat} (h : Seg m p (a :: l) q) : p = a :=
  h.1

theorem Chain.nodup {m : View} : ∀ (l : List Nat) (p : Nat), Chain m p l → l.Nodup := by
  intro l
  induction l with
  | nil => intro p _; exact List.nodup_nil
  | cons a l ih =>
    intro p h
    obtain ⟨hpa, ha, b, hb, hrest⟩ := h
    refine List.nodup_cons.mpr ⟨fun hmem => ?_, ih b.next hrest⟩
    obtain ⟨s, t, hst⟩ := List.append_of_mem hmem
    rw [hst] at hrest
    obtain ⟨mid, _, h2⟩ := (Seg.append s (a :: t) b.next 0).mp hrest
    have hmid : mid = a := h2.head_eq
    subst hmid
    have hfull : Seg m mid (mid :: (s ++ mid :: t)) 0 :=
      ⟨rfl, ha, b, hb, (Seg.append s (mid :: t) b.next 0).mpr ⟨mid, by assumption, h2⟩⟩
    have := Seg.functional _ _ _ h2 hfull
    have hlen := congrArg List.length this
    simp at hlen
    omega

theorem Seg.congr {m m1 : View} :
    ∀ (l : List Nat) (p q : Nat),
      (∀ a ∈ l, ∀ b, m a = some b → ∃ b1, m1 a = some b1 ∧ b1.next = b.next) →
      Seg m p l q → Seg m1 p l q := by
  intro l
  induction l with
  | nil => intro p q _ h; exact h
  | cons a l ih =>
    intro p q hsame h
    obtain ⟨hpa, ha, b, hb, hrest⟩ := h
    obtain ⟨b1, hb1, hn⟩ := hsame a (List.mem_cons_self a l) b hb
    refine ⟨hpa, ha, b1, hb1, ?_⟩
    rw [hn]
    exact ih b.next q (fun x hx => hsame x (List.mem_cons_of_mem a hx)) hrest

theorem Seg.last_next {m : View} {p q c : Nat} {xs : List Nat} (h : Seg m p (xs ++ [c]) q) :
    ∃ b, m c = some b ∧ b.next = q := by
  obtain ⟨mid, _, h2⟩ := (Seg.append xs [c] p q).mp h
  obtain ⟨_, _, b, hb, hq⟩ := h2
  exact ⟨b, hb, hq⟩

theorem Seg.ne_zero {m : View} :
    ∀ (l : List Nat) (p q : Nat), Seg m p l q → ∀ a ∈ l, a ≠ 0 := by
  intro l
  induction l with
  | nil => intro p q _ a ha; exact absurd ha (List.not_mem_nil a)
  | cons x l ih =>
    intro p q h a ha
    obtain ⟨_, hx, b, _, hrest⟩ := h
    rcases List.mem_cons.mp ha with h1 | h1
    · rw [h1]; exact hx
    · exact ih b.next q hrest a h1

theorem Seg.mem_some {m : View} :
    ∀ (l : List Nat) (p q : Nat), Seg m p l q → ∀ a ∈ l, ∃ b, m a = some b := by
  intro l
  induction l with
  | nil => intro p q _ a ha; exact absurd ha (List.not_mem_nil a)
  | cons x l ih =>
    intro p q h a ha
    obtain ⟨_, _, b, hb, hrest⟩ := h
    rcases List.mem_cons.mp ha with h1 | h1
    · rw [h1]; exact ⟨b, hb⟩
    · exact ih b.next q hrest a h1

theorem Seg.of_eq_on {m m1 : View} {l : List Nat} {p q : Nat}
    (heq : ∀ a ∈ l, m1 a = m a) (h : Seg m p l q) : Seg m1 p l q :=
  Seg.congr l p q (fun a ha b hb => ⟨b, by rw [heq a ha]; exact hb, rfl⟩) h

theorem sizeAt_of_eq {m : View} {a : Nat} {b : block_meta} (h : m a = some b) :
    sizeAt m a = b.size := by
  simp [sizeAt, h]

/-! ## The loop of `calculate_usable_memory` -/

theorem calculate_usable_memory_loop_eq (s : State) :
    ∀ (l : List Nat) (fuel current total : Nat), Seg (hdr s) current l 0 → l.length ≤ fuel →
      total < SIZE_MOD →
      calculate_usable_memory_loop s fuel current total = .ok ((total + freeSum (hdr s) l) % SIZE_MOD) := by
  intro l
  induction l with
  | nil =>
    intro fuel current total hseg _ ht
    have hc : current = 0 := hseg
    subst hc
    cases fuel <;> simp [calculate_usable_memory_loop, freeSum, Nat.mod_eq_of_lt ht]
  | cons a l ih =>
    intro fuel current total hseg hf ht
    obtain ⟨hca, ha, b, hb, hrest⟩ := hseg
    subst hca
    cases fuel with
    | zero => simp at hf
    | succ n =>
      have hn : l.length ≤ n := by simpa using hf
      rw [calculate_usable_memory_loop_step ha hb]
      by_cases hfree : b.free ≠ 0
      · rw [if_pos hfree, ih n b.next _ hrest hn (Nat.mod_lt _ (by decide))]
        simp only [freeSum, hb, if_pos hfree]
        congr 1
        rw [Nat.add_mod, Nat.mod_mod, ← Nat.add_mod, Nat.add_assoc]
      · rw [if_neg hfree, ih n b.next _ hrest hn ht]
        simp only [freeSum, hb, if_neg hfree, Nat.zero_add]

theorem calculate_usable_memory_of_chain {fuel : Nat} {s : State} {l : List Nat}
    (hchain : Chain (hdr s) s.global_base l) (hfuel : l.length ≤ fuel) :
    calculate_usable_memory fuel s = .ok (freeSum (hdr s) l % SIZE_MOD) := by
  have h := calculate_usable_memory_loop_eq s l fuel s.global_base 0 hchain hfuel (by decide)
  rw [Nat.zero_add] at h
  exact h

/-! ## C8: the best-fit search -/

theorem BestIn.best_skip {m : View} {size : Nat} {done : List Nat} {w a : Nat}
    (h : BestIn m size done w) (ha : ¬ Fits m size a) : BestIn m size (done ++ [a]) w := by
  rcases h with ⟨hw, hnone⟩ | ⟨hw, hfw, pre, post, hd, hpre, hpost⟩
  · left
    refine ⟨hw, fun x hx => ?_⟩
    rcases List.mem_append.mp hx with hx | hx
    · exact hnone x hx
    · rw [List.mem_singleton.mp hx]; exact ha
  · right
    refine ⟨hw, hfw, pre, post ++ [a], by simp [hd], hpre, fun x hx hfx => ?_⟩
    rcases List.mem_append.mp hx with hx | hx
    · exact hpost x hx hfx
    · rw [List.mem_singleton.mp hx] at hfx; exact absurd hfx ha

theorem BestIn.best_keep {m : View} {size : Nat} {done : List Nat} {w a : Nat}
    (h : BestIn m size done w) (hw : w ≠ 0) (hle : sizeAt m w ≤ sizeAt m a) :
    BestIn m size (done ++ [a]) w := by
  rcases h with ⟨hw0, _⟩ | ⟨_, hfw, pre, post, hd, hpre, hpost⟩
  · exact absurd hw0 hw
  · right
    refine ⟨hw, hfw, pre, post ++ [a], by simp [hd], hpre, fun x hx hfx => ?_⟩
    rcases List.mem_append.mp hx with hx | hx
    · exact hpost x hx hfx
    · rw [List.mem_singleton.mp hx]; exact hle

theorem BestIn.best_take {m : View} {size : Nat} {done : List Nat} {w a : Nat}
    (h : BestIn m size done w) (ha : a ≠ 0) (hfa : Fits m size a)
    (hlt : w ≠ 0 → sizeAt m a < sizeAt m w) : BestIn m size (done ++ [a]) a := by
  right
  refine ⟨ha, hfa, done, [], rfl, fun x hx hfx => ?_, fun x hx => absurd hx (List.not_mem_nil x)⟩
  rcases h with ⟨_, hnone⟩ | ⟨hw, _, pre, post, hd, hpre, hpost⟩
  · exact absurd hfx (hnone x hx)
  · have hlt := hlt hw
    rw [hd] at hx
    rcases List.mem_append.mp hx with hx | hx
    · have := hpre x hx hfx; omega
    · rcases List.mem_cons.mp hx with hx | hx
      · rw [hx]; exact hlt
      · have := hpost x hx hfx; omega

theorem find_best_fit_loop_spec (s : State) (size : Nat) :
    ∀ (todo done : List Nat) (fuel current w last : Nat), Seg (hdr s) current todo 0 →
      todo.length ≤ fuel → BestIn (hdr s) size done w →
      ∃ B, find_best_fit_loop s size fuel current w last = .ok (B, todo.getLastD last) ∧
        BestIn (hdr s) size (done ++ todo) B := by
  intro todo
  induction todo with
  | nil =>
    intro done fuel current w last hseg _ hinv
    have hc : current = 0 := hseg
    subst hc
    refine ⟨w, ?_, by simpa using hinv⟩
    cases fuel <;> simp [find_best_fit_loop]
  | cons a rest ih =>
    intro done fuel current w last hseg hf hinv
    obtain ⟨hca, ha, b, hb, hrest⟩ := hseg
    subst hca
    cases fuel with
    | zero => simp at hf
    | succ n =>
      have hn : rest.length ≤ n := by simpa using hf
      have happ : done ++ current :: rest = (done ++ [current]) ++ rest := by simp
      rw [happ, List.getLastD_cons]
      rw [find_best_fit_loop_step ha hb]
      by_cases hfit : b.free ≠ 0 ∧ b.size ≥ size
      · have hfa : Fits (hdr s) size current := ⟨b, hb, hfit.1, hfit.2⟩
        rw [if_pos hfit]
        by_cases hw0 : w = 0
        · rw [if_pos hw0]
          exact ih _ n b.next current current hrest hn
            (hinv.best_take ha hfa (fun h => absurd hw0 h))
        · rw [if_neg hw0]
          have hfw : Fits (hdr s) size w := by
            rcases hinv with ⟨h0, _⟩ | ⟨_, hfw, _⟩
            · exact absurd h0 hw0
            · exact hfw
          obtain ⟨wb, hwb, _, _⟩ := hfw
          rw [get_size_of_hdr hwb, Res.bind_ok]
          by_cases hlt : b.size < wb.size
          · rw [if_pos hlt]
            refine ih _ n b.next current current hrest hn (hinv.best_take ha hfa (fun _ => ?_))
            rw [sizeAt_of_eq hb, sizeAt_of_eq hwb]; exact hlt
          · rw [if_neg hlt]
            refine ih _ n b.next w current hrest hn (hinv.best_keep hw0 ?_)
            rw [sizeAt_of_eq hb, sizeAt_of_eq hwb]; omega
      · rw [if_neg hfit]
        refine ih _ n b.next w current hrest hn (hinv.best_skip ?_)
        rintro ⟨b2, hb2, h1, h2⟩
        rw [hb] at hb2
        cases hb2
        exact hfit ⟨h1, h2⟩

/-- C8: for every finite chain `l` from `global_base` and every size `r`, `find_best_fit` returns
(given fuel for `l.length` iterations) a miss (`NULL`) iff no block of the chain is free with
`size >= r`; otherwise it returns a free block `B` with `size >= r` such that every free block of
the chain with `size >= r` has `size >= B.size`, and every such block before `B` in chain order
has `size` strictly greater than `B.size` (the first seen wins ties). -/
theorem find_best_fit_returns_first_smallest_fit (fuel : Nat) (s : State) (last r : Nat)
    (l : List Nat) (hchain : Chain (hdr s) s.global_base l) (hfuel : l.length ≤ fuel) :
    ∃ B last1, find_best_fit fuel s last r = .ok (B, last1) ∧
      (B = 0 ↔ ∀ a ∈ l, ¬ Fits (hdr s) r a) ∧
      (B ≠ 0 → Fits (hdr s) r B ∧
        (∀ a ∈ l, Fits (hdr s) r a → sizeAt (hdr s) B ≤ sizeAt (hdr s) a) ∧
        ∃ pre post, l = pre ++ B :: post ∧
          ∀ a ∈ pre, Fits (hdr s) r a → sizeAt (hdr s) B < sizeAt (hdr s) a) := by
  obtain ⟨B, hrun, hinv⟩ :=
    find_best_fit_loop_spec s r l [] fuel s.global_base 0 last hchain hfuel
      (Or.inl ⟨rfl, fun a ha => absurd ha (List.not_mem_nil a)⟩)
  rw [List.nil_append] at hinv
  refine ⟨B, l.getLastD last, hrun, ?_, ?_⟩
  · constructor
    · intro hB
      rcases hinv with ⟨_, hnone⟩ | ⟨hne, _⟩
      · exact hnone
      · exact absurd hB hne
    · intro hnone
      rcases hinv with ⟨hB, _⟩ | ⟨_, hfB, pre, post, hd, _⟩
      · exact hB
      · exact absurd hfB (hnone B (by rw [hd]; simp))
  · intro hne
    rcases hinv with ⟨hB, _⟩ | ⟨_, hfB, pre, post, hd, hpre, hpost⟩
    · exact absurd hB hne
    · refine ⟨hfB, fun a ha hfa => ?_, pre, post, hd, hpre⟩
      rw [hd] at ha
      rcases List.mem_append.mp ha with ha | ha
      · exact Nat.le_of_lt (hpre a ha hfa)
      · rcases List.mem_cons.mp ha with ha | ha
        · rw [ha]
        · exact hpost a ha hfa

/-- Witness for C8: in the sample arena the free blocks hold 64 and 16 bytes; a request of 10
bytes picks the block of 16 at 4240. -/
theorem find_best_fit_returns_first_smallest_fit_witness :
    find_best_fit 3 sampleArena 4096 10 = .ok (4240, 4240) ∧
      ∃ B last1, find_best_fit 3 sampleArena 4096 10 = .ok (B, last1) ∧
        (B = 0 ↔ ∀ a ∈ [4096, 4184, 4240], ¬ Fits (hdr sampleArena) 10 a) ∧
        (B ≠ 0 → Fits (hdr sampleArena) 10 B ∧
          (∀ a ∈ [4096, 4184, 4240], Fits (hdr sampleArena) 10 a →
            sizeAt (hdr sampleArena) B ≤ sizeAt (hdr sampleArena) a) ∧
          ∃ pre post, [4096, 4184, 4240] = pre ++ B :: post ∧
            ∀ a ∈ pre, Fits (hdr sampleArena) 10 a →
              sizeAt (hdr sampleArena) B < sizeAt (hdr sampleArena) a) :=
  ⟨rfl, find_best_fit_returns_first_smallest_fit 3 sampleArena 4096 10 [4096, 4184, 4240]
    (⟨rfl, by decide, ⟨64, 1, 4184⟩, by decide, rfl, by decide, ⟨32, 0, 4240⟩, by decide, rfl,
      by decide, ⟨16, 1, 0⟩, by decide, rfl⟩) (by decide)⟩

/-! ## C9: the worst-fit search -/

theorem WorstIn.worst_skip {m : View} {size : Nat} {done : List Nat} {w a : Nat}
    (h : WorstIn m size done w) (ha : ¬ Fits m size a) : WorstIn m size (done ++ [a]) w := by
  rcases h with ⟨hw, hnone⟩ | ⟨hw, hfw, pre, post, hd, hpre, hpost⟩
  · left
    refine ⟨hw, fun x hx => ?_⟩
    rcases List.mem_append.mp hx with hx | hx
    · exact hnone x hx
    · rw [List.mem_singleton.mp hx]; exact ha
  · right
    refine ⟨hw, hfw, pre, post ++ [a], by simp [hd], hpre, fun x hx hfx => ?_⟩
    rcases List.mem_append.mp hx with hx | hx
    · exact hpost x hx hfx
    · rw [List.mem_singleton.mp hx] at hfx; exact absurd hfx ha

theorem WorstIn.worst_keep {m : View} {size : Nat} {done : List Nat} {w a : Nat}
    (h : WorstIn m size done w) (hw : w ≠ 0) (hle : sizeAt m a ≤ sizeAt m w) :
    WorstIn m size (done ++ [a]) w := by
  rcases h with ⟨hw0, _⟩ | ⟨_, hfw, pre, post, hd, hpre, hpost⟩
  · exact absurd hw0 hw
  · right
    refine ⟨hw, hfw, pre, post ++ [a], by simp [hd], hpre, fun x hx hfx => ?_⟩
    rcases List.mem_append.mp hx with hx | hx
    · exact hpost x hx hfx
    · rw [List.mem_singleton.mp hx]; exact hle

theorem WorstIn.worst_take {m : View} {size : Nat} {done : List Nat} {w a : Nat}
    (h : WorstIn m size done w) (ha : a ≠ 0) (hfa : Fits m size a)
    (hlt : w ≠ 0 → sizeAt m w < sizeAt m a) : WorstIn m size (done ++ [a]) a := by
  right
  refine ⟨ha, hfa, done, [], rfl, fun x hx hfx => ?_, fun x hx => absurd hx (List.not_mem_nil x)⟩
  rcases h with ⟨_, hnone⟩ | ⟨hw, _, pre, post, hd, hpre, hpost⟩
  · exact absurd hfx (hnone x hx)
  · have hlt := hlt hw
    rw [hd] at hx
    rcases List.mem_append.mp hx with hx | hx
    · have := hpre x hx hfx; omega
    · rcases List.mem_cons.mp hx with hx | hx
      · rw [hx]; exact hlt
      · have := hpost x hx hfx; omega

theorem find_worst_fit_loop_spec (s : State) (size : Nat) :
    ∀ (todo done : List Nat) (fuel current w : Nat), Seg (hdr s) current todo 0 →
      todo.length ≤ fuel → WorstIn (hdr s) size done w →
      ∃ B, find_worst_fit_loop s size fuel current w = .ok B ∧
        WorstIn (hdr s) size (done ++ todo) B := by
  intro todo
  induction todo with
  | nil =>
    intro done fuel current w hseg _ hinv
    have hc : current = 0 := hseg
    subst hc
    refine ⟨w, ?_, by simpa using hinv⟩
    cases fuel <;> simp [find_worst_fit_loop]
  | cons a rest ih =>
    intro done fuel current w hseg hf hinv
    obtain ⟨hca, ha, b, hb, hrest⟩ := hseg
    subst hca
    cases fuel with
    | zero => simp at hf
    | succ n =>
      have hn : rest.length ≤ n := by simpa using hf
      have happ : done ++ current :: rest = (done ++ [current]) ++ rest := by simp
      rw [happ]
      rw [find_worst_fit_loop_step ha hb]
      by_cases hfit : b.free ≠ 0 ∧ b.size ≥ size
      · have hfa : Fits (hdr s) size current := ⟨b, hb, hfit.1, hfit.2⟩
        rw [if_pos hfit]
        by_cases hw0 : w = 0
        · rw [if_pos hw0]
          exact ih _ n b.next current hrest hn (hinv.worst_take ha hfa (fun h => absurd hw0 h))
        · rw [if_neg hw0]
          have hfw : Fits (hdr s) size w := by
            rcases hinv with ⟨h0, _⟩ | ⟨_, hfw, _⟩
            · exact absurd h0 hw0
            · exact hfw
          obtain ⟨wb, hwb, _, _⟩ := hfw
          rw [get_size_of_hdr hwb, Res.bind_ok]
          by_cases hgt : b.size > wb.size
          · rw [if_pos hgt]
            refine ih _ n b.next current hrest hn (hinv.worst_take ha hfa (fun _ => ?_))
            rw [sizeAt_of_eq hb, sizeAt_of_eq hwb]; exact hgt
          · rw [if_neg hgt]
            refine ih _ n b.next w hrest hn (hinv.worst_keep hw0 ?_)
            rw [sizeAt_of_eq hb, sizeAt_of_eq hwb]; omega
      · rw [if_neg hfit]
        refine ih _ n b.next w hrest hn (hinv.worst_skip ?_)
        rintro ⟨b2, hb2, h1, h2⟩
        rw [hb] at hb2
        cases hb2
        exact hfit ⟨h1, h2⟩

/-- C9: for every finite chain `l` from `global_base` and every size `r`, `find_worst_fit` returns
(given fuel for `l.length` iterations) a miss (`NULL`) iff no block of the chain is free with
`size >= r`; otherwise it returns a free block `B` with `size >= r` such that every free block of
the chain with `size >= r` has `size <= B.size`, and every such block before `B` in chain order
has `size` strictly smaller than `B.size` (the first seen wins ties). -/
theorem find_worst_fit_returns_first_largest_fit (fuel : Nat) (s : State) (r : Nat)
    (l : List Nat) (hchain : Chain (hdr s) s.global_base l) (hfuel : l.length ≤ fuel) :
    ∃ B, find_worst_fit fuel s r = .ok B ∧
      (B = 0 ↔ ∀ a ∈ l, ¬ Fits (hdr s) r a) ∧
      (B ≠ 0 → Fits (hdr s) r B ∧
        (∀ a ∈ l, Fits (hdr s) r a → sizeAt (hdr s) a ≤ sizeAt (hdr s) B) ∧
        ∃ pre post, l = pre ++ B :: post ∧
          ∀ a ∈ pre, Fits (hdr s) r a → sizeAt (hdr s) a < sizeAt (hdr s) B) := by
  obtain ⟨B, hrun, hinv⟩ :=
    find_worst_fit_loop_spec s r l [] fuel s.global_base 0 hchain hfuel
      (Or.inl ⟨rfl, fun a ha => absurd ha (List.not_mem_nil a)⟩)
  rw [List.nil_append] at hinv
  refine ⟨B, hrun, ?_, ?_⟩
  · constructor
    · intro hB
      rcases hinv with ⟨_, hnone⟩ | ⟨hne, _⟩
      · exact hnone
      · exact absurd hB hne
    · intro hnone
      rcases hinv with ⟨hB, _⟩ | ⟨_, hfB, pre, post, hd, _⟩
      · exact hB
      · exact absurd hfB (hnone B (by rw [hd]; simp))
  · intro hne
    rcases hinv with ⟨hB, _⟩ | ⟨_, hfB, pre, post, hd, hpre, hpost⟩
    · exact absurd hB hne
    · refine ⟨hfB, fun a ha hfa => ?_, pre, post, hd, hpre⟩
      rw [hd] at ha
      rcases List.mem_append.mp ha with ha | ha
      · exact Nat.le_of_lt (hpre a ha hfa)
      · rcases List.mem_cons.mp ha with ha | ha
        · rw [ha]
        · exact hpost a ha hfa

/-- Witness for C9: in the sample arena a request of 10 bytes picks the block of 64 at 4096. -/
theorem find_worst_fit_returns_first_largest_fit_witness :
    find_worst_fit 3 sampleArena 10 = .ok 4096 ∧
      ∃ B, find_worst_fit 3 sampleArena 10 = .ok B ∧
        (B = 0 ↔ ∀ a ∈ [4096, 4184, 4240], ¬ Fits (hdr sampleArena) 10 a) ∧
        (B ≠ 0 → Fits (hdr sampleArena) 10 B ∧
          (∀ a ∈ [4096, 4184, 4240], Fits (hdr sampleArena) 10 a →
            sizeAt (hdr sampleArena) a ≤ sizeAt (hdr sampleArena) B) ∧
          ∃ pre post, [4096, 4184, 4240] = pre ++ B :: post ∧
            ∀ a ∈ pre, Fits (hdr sampleArena) 10 a →
              sizeAt (hdr sampleArena) a < sizeAt (hdr sampleArena) B) :=
  ⟨rfl, find_worst_fit_returns_first_largest_fit 3 sampleArena 10 [4096, 4184, 4240]
    (⟨rfl, by decide, ⟨64, 1, 4184⟩, by decide, rfl, by decide, ⟨32, 0, 4240⟩, by decide, rfl,
      by decide, ⟨16, 1, 0⟩, by decide, rfl⟩) (by decide)⟩

/-! ## C14: the first-fit search -/

theorem find_first_fit_loop_spec (s : State) (size : Nat) :
    ∀ (l : List Nat) (fuel current : Nat), Seg (hdr s) current l 0 → l.length ≤ fuel →
      ∃ B, find_first_fit_loop s size fuel current = .ok B ∧
        ((B = 0 ∧ ∀ a ∈ l, ¬ Fits (hdr s) size a) ∨
          (B ≠ 0 ∧ Fits (hdr s) size B ∧
            ∃ pre post, l = pre ++ B :: post ∧ ∀ a ∈ pre, ¬ Fits (hdr s) size a)) := by
  intro l
  induction l with
  | nil =>
    intro fuel current hseg _
    have hc : current = 0 := hseg
    subst hc
    refine ⟨0, ?_, Or.inl ⟨rfl, fun a ha => absurd ha (List.not_mem_nil a)⟩⟩
    cases fuel <;> simp [find_first_fit_loop]
  | cons a rest ih =>
    intro fuel current hseg hf
    obtain ⟨hca, ha, b, hb, hrest⟩ := hseg
    subst hca
    cases fuel with
    | zero => simp at hf
    | succ n =>
      have hn : rest.length ≤ n := by simpa using hf
      rw [find_first_fit_loop_step ha hb]
      by_cases hfit : b.free ≠ 0 ∧ b.size ≥ size
      · rw [if_pos hfit]
        exact ⟨current, rfl, Or.inr ⟨ha, ⟨b, hb, hfit.1, hfit.2⟩, [], rest, rfl,
          fun x hx => absurd hx (List.not_mem_nil x)⟩⟩
      · rw [if_neg hfit]
        have hnf : ¬ Fits (hdr s) size current := by
          rintro ⟨b2, hb2, h1, h2⟩
          rw [hb] at hb2
          cases hb2
          exact hfit ⟨h1, h2⟩
        obtain ⟨B, hrun, hB⟩ := ih n b.next hrest hn
        refine ⟨B, hrun, ?_⟩
        rcases hB with ⟨h0, hnone⟩ | ⟨hne, hfB, pre, post, hd, hpre⟩
        · left
          refine ⟨h0, fun x hx => ?_⟩
          rcases List.mem_cons.mp hx with h | h
          · rw [h]; exact hnf
          · exact hnone x h
        · right
          refine ⟨hne, hfB, current :: pre, post, by simp [hd], fun x hx => ?_⟩
          rcases List.mem_cons.mp hx with h | h
          · rw [h]; exact hnf
          · exact hpre x h

/-- C14: for every finite chain `l` from `global_base` and every size `r`, `find_first_fit`
returns (given fuel for `l.length` iterations) the first block in chain order that is free with
`size >= r`: no block before the returned one is free with `size >= r`; and it returns a miss
(`NULL`) iff no block of the chain is free with `size >= r`.  The search only reads the state. -/
theorem find_first_fit_returns_first_fit (fuel : Nat) (s : State) (r : Nat) (l : List Nat)
    (hchain : Chain (hdr s) s.global_base l) (hfuel : l.length ≤ fuel) :
    ∃ B, find_first_fit fuel s r = .ok B ∧
      (B = 0 ↔ ∀ a ∈ l, ¬ Fits (hdr s) r a) ∧
      (B ≠ 0 → Fits (hdr s) r B ∧
        ∃ pre post, l = pre ++ B :: post ∧ ∀ a ∈ pre, ¬ Fits (hdr s) r a) := by
  obtain ⟨B, hrun, hB⟩ := find_first_fit_loop_spec s r l fuel s.global_base hchain hfuel
  refine ⟨B, hrun, ?_, ?_⟩
  · constructor
    · intro h0
      rcases hB with ⟨_, hnone⟩ | ⟨hne, _⟩
      · exact hnone
      · exact absurd h0 hne
    · intro hnone
      rcases hB with ⟨h0, _⟩ | ⟨_, hfB, pre, post, hd, _⟩
      · exact h0
      · exact absurd hfB (hnone B (by rw [hd]; simp))
  · intro hne
    rcases hB with ⟨h0, _⟩ | ⟨_, hfB, hrest⟩
    · exact absurd h0 hne
    · exact ⟨hfB, hrest⟩

/-- Witness for C14: in the sample arena a request of 10 bytes finds the block at 4096, and a
request of 100 bytes finds nothing. -/
theorem find_first_fit_returns_first_fit_witness :
    find_first_fit 3 sampleArena 10 = .ok 4096 ∧ find_first_fit 3 sampleArena 100 = .ok 0 ∧
      ∃ B, find_first_fit 3 sampleArena 10 = .ok B ∧
        (B = 0 ↔ ∀ a ∈ [4096, 4184, 4240], ¬ Fits (hdr sampleArena) 10 a) ∧
        (B ≠ 0 → Fits (hdr sampleArena) 10 B ∧
          ∃ pre post, [4096, 4184, 4240] = pre ++ B :: post ∧
            ∀ a ∈ pre, ¬ Fits (hdr sampleArena) 10 a) :=
  ⟨rfl, rfl, find_first_fit_returns_first_fit 3 sampleArena 10 [4096, 4184, 4240]
    (⟨rfl, by decide, ⟨64, 1, 4184⟩, by decide, rfl, by decide, ⟨32, 0, 4240⟩, by decide, rfl,
      by decide, ⟨16, 1, 0⟩, by decide, rfl⟩) (by decide)⟩

/-! ## C5: usable memory -/

/-- C5 (counterexample): with `H = 24`, on the empty arena `best_fit_alloc(200)` and
`best_fit_alloc(2 ^ 64 - 100)` both succeed (the second passes `2 ^ 64 - 76`, that is `-76`, to
`sbrk`) and build the chain of the blocks at 4096 and 4320; after both are freed the chain holds
two free blocks of sizes 200 and `2 ^ 64 - 100`, whose sum is `2 ^ 64 + 100`, and
`calculate_usable_memory()` returns 100: the accumulator is a `size_t` and wraps. -/
theorem calculate_usable_memory_wraps :
    ∃ s1 s2 s3 s4, best_fit_alloc 24 1 (emptyArena 4096 65536) 200 = .ok (4120, s1) ∧
      best_fit_alloc 24 1 s1 (2 ^ 64 - 100) = .ok (4344, s2) ∧
      best_fit_free 24 s2 4120 = .ok s3 ∧ best_fit_free 24 s3 4344 = .ok s4 ∧
      Chain (hdr s4) s4.global_base [4096, 4320] ∧
      hdr s4 4096 = some ⟨200, 1, 4320⟩ ∧ hdr s4 4320 = some ⟨2 ^ 64 - 100, 1, 0⟩ ∧
      freeSum (hdr s4) [4096, 4320] = 2 ^ 64 + 100 ∧
      calculate_usable_memory 2 s4 = .ok 100 := by
  refine ⟨_, _, _, _, rfl, rfl, rfl, rfl, ?_, ?_, ?_, ?_, ?_⟩
  · exact ⟨rfl, by decide, ⟨200, 1, 4320⟩, by decide, rfl, by decide,
      ⟨2 ^ 64 - 100, 1, 0⟩, by decide, rfl⟩
  · decide
  · decide
  · decide
  · decide

/-- C5 (amended): for every state whose chain from `global_base` is the finite list `l`,
`calculate_usable_memory()` returns (given fuel for `l.length` iterations) the sum of `size` over
the blocks of `l` whose `free` flag is set, reduced modulo `2 ^ 64` as the accumulator is a
`size_t`; it is exactly that sum whenever the sum is below `2 ^ 64`, in particular 0 for an empty
chain or a chain with no free block.  The function only reads the state. -/
theorem calculate_usable_memory_is_free_sum (fuel : Nat) (s : State) (l : List Nat)
    (hchain : Chain (hdr s) s.global_base l) (hfuel : l.length ≤ fuel) :
    calculate_usable_memory fuel s = .ok (freeSum (hdr s) l % SIZE_MOD) ∧
      (freeSum (hdr s) l < SIZE_MOD →
        calculate_usable_memory fuel s = .ok (freeSum (hdr s) l)) := by
  have h := calculate_usable_memory_of_chain hchain hfuel
  refine ⟨h, fun hlt => ?_⟩
  rw [← Nat.mod_eq_of_lt hlt]
  exact h

/-- Witness for C5: the sample arena has free blocks of 64 and 16 bytes around a used one. -/
theorem calculate_usable_memory_is_free_sum_witness :
    Chain (hdr sampleArena) sampleArena.global_base [4096, 4184, 4240] ∧
      calculate_usable_memory 3 sampleArena = .ok 80 :=
  ⟨(⟨rfl, by decide, ⟨64, 1, 4184⟩, by decide, rfl, by decide, ⟨32, 0, 4240⟩, by decide, rfl,
      by decide, ⟨16, 1, 0⟩, by decide, rfl⟩),
    (calculate_usable_memory_is_free_sum 3 sampleArena [4096, 4184, 4240]
      (⟨rfl, by decide, ⟨64, 1, 4184⟩, by decide, rfl, by decide, ⟨32, 0, 4240⟩, by decide, rfl,
      by decide, ⟨16, 1, 0⟩, by decide, rfl⟩) (by decide)).2 (by decide)⟩

/-! ## C6 and C7: growth that is not linked into the chain -/

/-- C6 (evaluation at the failing input): `first_fit_alloc(64)` on the empty arena obtains a block
at 4096 from `sbrk` but leaves `global_base` at `NULL`, so the chain from the head is still
empty and does not end in the new block; and `next_fit_alloc(128)` with the cursor on the first
of two used blocks links the new block after the cursor, dropping the second block from the
chain. -/
theorem growth_not_appended_to_chain :
    (∃ s1, Strategy.FirstFit.alloc 24 1 (emptyArena 4096 65536) 64 = .ok (4120, s1) ∧
      hdr s1 4096 = some ⟨64, 0, 0⟩ ∧ s1.brk = 4184 ∧ s1.global_base = 0 ∧
      Chain (hdr s1) s1.global_base [] ∧ ¬ Chain (hdr s1) s1.global_base ([] ++ [4096])) ∧
    (Chain (hdr cursorMidArena) cursorMidArena.global_base [4096, 4184] ∧
      ∃ s1, Strategy.NextFit.alloc 24 2 cursorMidArena 128 = .ok (4264, s1) ∧
        Chain (hdr s1) s1.global_base [4096, 4240] ∧
        ¬ Chain (hdr s1) s1.global_base ([4096, 4184] ++ [4240])) := by
  refine ⟨⟨_, rfl, by decide, rfl, rfl, rfl, ?_⟩, ?_, _, rfl, ?_, ?_⟩
  · rintro ⟨h, _⟩
    exact absurd h (by decide)
  · exact ⟨rfl, by decide, ⟨64, 0, 4184⟩, by decide, rfl, by decide, ⟨32, 0, 0⟩, by decide, rfl⟩
  · exact ⟨rfl, by decide, ⟨64, 0, 4240⟩, by decide, rfl, by decide, ⟨128, 0, 0⟩, by decide, rfl⟩
  · rintro ⟨_, _, b, hb, h, _⟩
    have hb2 : b = ⟨64, 0, 4240⟩ := Option.some.inj (hb.symm.trans (by decide))
    rw [hb2] at h
    exact absurd h (by decide)

/-- C7 (evaluation at the failing input): under first fit, `allocate(64)` on the empty arena
followed by freeing the returned payload leaves `calculate_usable_memory()` at 0, not 64: the
block was never linked into the chain. -/
theorem first_fit_freed_block_not_counted :
    ∃ s1 s2, Strategy.FirstFit.alloc 24 1 (emptyArena 4096 65536) 64 = .ok (4120, s1) ∧
      Strategy.FirstFit.free 24 s1 4120 = .ok s2 ∧ hdr s2 4096 = some ⟨64, 1, 0⟩ ∧
      ∀ fuel, calculate_usable_memory fuel s2 = .ok 0 := by
  refine ⟨_, _, rfl, rfl, by decide, fun fuel => ?_⟩
  cases fuel <;> rfl

/-! ## C11: the first-fit scenario -/

/-- C11 (evaluation at the failing input): on the empty arena `first_fit_alloc(64)` returns the
payload 4120 of a block of size 64 at 4096; after `first_fit_free(4120)` the call
`first_fit_alloc(32)` does not reuse that block: whatever the fuel, it moves the break from 4184
to 4240 and returns the payload 4208 of a new block, while the block at 4096 stays free with
size 64; `calculate_usable_memory()` is 0 only because neither block is in the chain. -/
theorem first_fit_scenario_grows_again :
    ∃ s1 s2 s3, first_fit_alloc 24 1 (emptyArena 4096 65536) 64 = .ok (4120, s1) ∧
      hdr s1 4096 = some ⟨64, 0, 0⟩ ∧ first_fit_free 24 s1 4120 = .ok s2 ∧ s2.brk = 4184 ∧
      first_fit_alloc 24 1 s2 32 = .ok (4208, s3) ∧
      (∀ fuel, first_fit_alloc 24 fuel s2 32 = .ok (4208, s3)) ∧ s3.brk = 4240 ∧
      hdr s3 4096 = some ⟨64, 1, 0⟩ ∧ hdr s3 4184 = some ⟨32, 0, 0⟩ ∧ s3.global_base = 0 ∧
      ∀ fuel, calculate_usable_memory fuel s3 = .ok 0 := by
  refine ⟨_, _, _, rfl, by decide, rfl, rfl, rfl, fun fuel => ?_, rfl, by decide, by decide, rfl,
    fun fuel => ?_⟩
  · cases fuel <;> rfl
  · cases fuel <;> rfl

/-! ## C17: next fit on the empty arena -/

/-- C17 (evaluation at the failing input): on the empty arena `next_fit_alloc(64)` never reaches
the growth routine: `find_next_fit` starts at `global_base = NULL`, wraps to `global_base`, which
is `NULL` again, and reads `current->free` through it. -/
theorem next_fit_alloc_empty_arena_faults :
    (∀ fuel, find_next_fit (fuel + 1) (emptyArena 4096 65536) 64 = .fault) ∧
      ∀ fuel, next_fit_alloc 24 (fuel + 1) (emptyArena 4096 65536) 64 = .fault :=
  ⟨fun _ => rfl, fun _ => rfl⟩

/-! ## C15: the circular scan of next fit -/

theorem find_next_fit_loop_step {s : State} {start size n current a : Nat} {b : block_meta}
    (hcur : (if current = 0 then s.global_base else current) = a) (hb : hdr s a = some b) :
    find_next_fit_loop s start size (n + 1) current =
      if b.free ≠ 0 ∧ b.size ≥ size then .ok a
      else if b.next ≠ start then find_next_fit_loop s start size n b.next else .ok 0 := by
  simp only [find_next_fit_loop]
  rw [hcur, is_fit_of_hdr size hb, get_next_of_hdr hb]
  by_cases hfit : b.free ≠ 0 ∧ b.size ≥ size
  · simp [hfit]
  · simp [hfit]

theorem find_next_fit_loop_scan {s : State} {start size : Nat} :
    ∀ (xs : List Nat) (fuel current : Nat), Scan (hdr s) s.global_base start xs current → xs.length ≤ fuel →
      ∃ B, find_next_fit_loop s start size fuel current = .ok B ∧
        ((B = 0 ∧ ∀ a ∈ xs, ¬ Fits (hdr s) size a) ∨
          (B ≠ 0 ∧ Fits (hdr s) size B ∧
            ∃ o1 o2, xs = o1 ++ B :: o2 ∧ ∀ a ∈ o1, ¬ Fits (hdr s) size a)) := by
  intro xs
  induction xs with
  | nil => intro fuel current h _; exact absurd h id
  | cons a rest ih =>
    intro fuel current hscan hf
    cases fuel with
    | zero => simp at hf
    | succ n =>
      have hn : rest.length ≤ n := by simpa using hf
      have hhead : (if current = 0 then s.global_base else current) = a ∧ a ≠ 0 ∧ ∃ b, hdr s a = some b ∧
          ((rest = [] ∧ b.next = start) ∨
            (rest ≠ [] ∧ b.next ≠ start ∧ Scan (hdr s) s.global_base start rest b.next)) := by
        cases rest with
        | nil =>
          obtain ⟨h1, h2, b, hb, h3⟩ := hscan
          exact ⟨h1, h2, b, hb, Or.inl ⟨rfl, h3⟩⟩
        | cons a2 rest2 =>
          obtain ⟨h1, h2, b, hb, h3, h4⟩ := hscan
          exact ⟨h1, h2, b, hb, Or.inr ⟨List.cons_ne_nil _ _, h3, h4⟩⟩
      obtain ⟨hcur, ha, b, hb, hnext⟩ := hhead
      rw [find_next_fit_loop_step hcur hb]
      by_cases hfit : b.free ≠ 0 ∧ b.size ≥ size
      · rw [if_pos hfit]
        exact ⟨a, rfl, Or.inr ⟨ha, ⟨b, hb, hfit.1, hfit.2⟩, [], rest, rfl,
          fun x hx => absurd hx (List.not_mem_nil x)⟩⟩
      · rw [if_neg hfit]
        have hnf : ¬ Fits (hdr s) size a := by
          rintro ⟨b2, hb2, h1, h2⟩
          rw [hb] at hb2
          cases hb2
          exact hfit ⟨h1, h2⟩
        rcases hnext with ⟨hnil, hstop⟩ | ⟨_, hgo, hrest⟩
        · subst hnil
          rw [if_neg (not_not.mpr hstop)]
          refine ⟨0, rfl, Or.inl ⟨rfl, fun x hx => ?_⟩⟩
          rw [List.mem_singleton.mp hx]; exact hnf
        · rw [if_pos hgo]
          obtain ⟨B, hrun, hB⟩ := ih n b.next hrest hn
          refine ⟨B, hrun, ?_⟩
          rcases hB with ⟨h0, hnone⟩ | ⟨hne, hfB, o1, o2, hd, ho1⟩
          · left
            refine ⟨h0, fun x hx => ?_⟩
            rcases List.mem_cons.mp hx with h | h
            · rw [h]; exact hnf
            · exact hnone x h
          · right
            refine ⟨hne, hfB, a :: o1, o2, by simp [hd], fun x hx => ?_⟩
            rcases List.mem_cons.mp hx with h | h
            · rw [h]; exact hnf
            · exact ho1 x h

theorem Scan.of_seg_stop {m : View} {g start : Nat} :
    ∀ (rest : List Nat) (a p : Nat), Seg m p (a :: rest) start → start ∉ rest →
      Scan m g start (a :: rest) p := by
  intro rest
  induction rest with
  | nil =>
    intro a p hseg _
    obtain ⟨hp, ha, b, hb, hq⟩ := hseg
    exact ⟨by rw [hp, if_neg ha], ha, b, hb, hq⟩
  | cons a2 rest ih =>
    intro a p hseg hstart
    obtain ⟨hp, ha, b, hb, hrest⟩ := hseg
    have hnext : b.next = a2 := hrest.head_eq
    have h2 : b.next ≠ start := by
      rw [hnext]
      exact fun e => hstart (e ▸ List.mem_cons_self _ _)
    exact ⟨by rw [hp, if_neg ha], ha, b, hb, h2,
      ih a2 b.next hrest (fun h => hstart (List.mem_cons_of_mem _ h))⟩

theorem Scan.of_seg_then {m : View} {g start : Nat} :
    ∀ (rest : List Nat) (a p q y : Nat) (ys : List Nat), Seg m p (a :: rest) q →
      start ∉ rest → q ≠ start → Scan m g start (y :: ys) q →
      Scan m g start (a :: rest ++ y :: ys) p := by
  intro rest
  induction rest with
  | nil =>
    intro a p q y ys hseg _ hq hscan
    obtain ⟨hp, ha, b, hb, hn⟩ := hseg
    have hn : b.next = q := hn
    exact ⟨by rw [hp, if_neg ha], ha, b, hb, by rw [hn]; exact hq, by rw [hn]; exact hscan⟩
  | cons a2 rest ih =>
    intro a p q y ys hseg hstart hq hscan
    obtain ⟨hp, ha, b, hb, hrest⟩ := hseg
    have hnext : b.next = a2 := hrest.head_eq
    have h2 : b.next ≠ start := by
      rw [hnext]
      exact fun e => hstart (e ▸ List.mem_cons_self _ _)
    exact ⟨by rw [hp, if_neg ha], ha, b, hb, h2,
      ih a2 b.next q y ys hrest (fun h => hstart (List.mem_cons_of_mem _ h)) hq hscan⟩

theorem Scan.from_null {m : View} {g start : Nat} {xs : List Nat} (hg : g ≠ 0)
    (h : Scan m g start xs g) : Scan m g start xs 0 := by
  cases xs with
  | nil => exact h
  | cons a rest =>
    cases rest with
    | nil =>
      obtain ⟨h1, h2⟩ := h
      rw [if_neg hg] at h1
      exact ⟨by rw [if_pos rfl]; exact h1, h2⟩
    | cons a2 rest2 =>
      obtain ⟨h1, h2⟩ := h
      rw [if_neg hg] at h1
      exact ⟨by rw [if_pos rfl]; exact h1, h2⟩

theorem scan_of_cursor {m : View} {g c mid : Nat} {pre post : List Nat}
    (hnd : (pre ++ c :: post).Nodup) (hseg1 : Seg m g (pre ++ [c]) mid)
    (hseg2 : Seg m mid post 0) : Scan m g mid (post ++ (pre ++ [c])) mid := by
  have hdis : ∀ x ∈ post, x ∉ pre ++ [c] := by
    intro x hx hx2
    have h1 : ((pre ++ [c]) ++ post).Nodup := by simpa using hnd
    exact (List.nodup_append.mp h1).2.2 hx2 hx
  cases hpc : pre ++ [c] with
  | nil => simp at hpc
  | cons h t =>
    rw [hpc] at hseg1 hdis
    have hg : g = h := hseg1.head_eq
    have hh : h ≠ 0 := Seg.ne_zero _ _ _ hseg1 h (List.mem_cons_self _ _)
    cases post with
    | nil =>
      have hmid : mid = 0 := hseg2
      subst hmid
      rw [List.nil_append]
      have h0 : (0 : Nat) ∉ t := fun hm =>
        Seg.ne_zero _ _ _ hseg1 0 (List.mem_cons_of_mem _ hm) rfl
      exact Scan.from_null (hg ▸ hh) (Scan.of_seg_stop t h g hseg1 h0)
    | cons d post1 =>
      have hmid : mid = d := hseg2.head_eq
      subst hmid
      have hd0 : mid ≠ 0 := Seg.ne_zero _ _ _ hseg2 mid (List.mem_cons_self _ _)
      have hdt : mid ∉ t := fun hm =>
        hdis mid (List.mem_cons_self _ _) (List.mem_cons_of_mem _ hm)
      have hndpost : (mid :: post1).Nodup := by
        have h1 : ((pre ++ [c]) ++ mid :: post1).Nodup := by simpa using hnd
        exact (List.nodup_append.mp h1).2.1
      have hdp : mid ∉ post1 := (List.nodup_cons.mp hndpost).1
      have hs2 : Scan m g mid (h :: t) 0 :=
        Scan.from_null (hg ▸ hh) (Scan.of_seg_stop t h g hseg1 hdt)
      exact Scan.of_seg_then post1 mid mid 0 h t hseg2 hdp (Ne.symm hd0) hs2

/-- C15: for every finite chain `pre ++ c :: post` from `global_base` with `last_alloc` on the
block `c`, and every size `r`: `find_next_fit` returns (given fuel for one pass over the chain)
the first block that is free with `size >= r` in the circular order `post`, then `pre`, then `c`,
and sets `last_alloc` to that block; if no block of the chain is free with `size >= r` it returns
a miss (`NULL`) and leaves the state, `last_alloc` included, unchanged. -/
theorem find_next_fit_circular_first_fit (fuel : Nat) (s : State) (r : Nat)
    (pre post : List Nat) (c : Nat) (hchain : Chain (hdr s) s.global_base (pre ++ c :: post))
    (hcur : s.last_alloc = c) (hfuel : (pre ++ c :: post).length ≤ fuel) :
    ∃ B, find_next_fit fuel s r = .ok (B, if B = 0 then s else { s with last_alloc := B }) ∧
      (B = 0 ↔ ∀ a ∈ pre ++ c :: post, ¬ Fits (hdr s) r a) ∧
      (B ≠ 0 → Fits (hdr s) r B ∧
        ∃ o1 o2, post ++ (pre ++ [c]) = o1 ++ B :: o2 ∧ ∀ a ∈ o1, ¬ Fits (hdr s) r a) := by
  have hnd := Chain.nodup _ _ hchain
  have hchain2 : Seg (hdr s) s.global_base ((pre ++ [c]) ++ post) 0 := by
    simpa [Chain] using hchain
  obtain ⟨mid, hseg1, hseg2⟩ := (Seg.append _ _ _ _).mp hchain2
  obtain ⟨cb, hcb, hcbn⟩ := hseg1.last_next
  have hc0 : c ≠ 0 := Seg.ne_zero _ _ _ hchain c (by simp)
  have hscan := scan_of_cursor hnd hseg1 hseg2
  have hlen : (post ++ (pre ++ [c])).length ≤ fuel := by
    simp only [List.length_append, List.length_cons, List.length_nil] at hfuel ⊢
    omega
  obtain ⟨B, hrun, hB⟩ := @find_next_fit_loop_scan s mid r _ fuel mid hscan hlen
  have hmemiff : ∀ a, a ∈ post ++ (pre ++ [c]) ↔ a ∈ pre ++ c :: post := by
    intro a
    simp only [List.mem_append, List.mem_cons, List.mem_singleton, List.not_mem_nil, or_false]
    tauto
  refine ⟨B, ?_, ?_, ?_⟩
  · unfold find_next_fit
    rw [hcur, if_pos hc0, get_next_of_hdr hcb]
    simp only [Res.bind_ok, hcbn, hrun]
    by_cases h0 : B = 0
    · rw [if_pos h0, if_pos h0, h0]
    · rw [if_neg h0, if_neg h0]
  · constructor
    · intro h0 a ha
      rcases hB with ⟨_, hnone⟩ | ⟨hne, _⟩
      · exact hnone a ((hmemiff a).mpr ha)
      · exact absurd h0 hne
    · intro hnone
      rcases hB with ⟨h0, _⟩ | ⟨_, hfB, o1, o2, hd, _⟩
      · exact h0
      · exact absurd hfB (hnone B ((hmemiff B).mp (by rw [hd]; simp)))
  · intro hne
    rcases hB with ⟨h0, _⟩ | ⟨_, hfB, hrest⟩
    · exact absurd h0 hne
    · exact ⟨hfB, hrest⟩

/-- Witness for C15: three free blocks of 32 bytes with the cursor on the middle one at 4152; the
search for 32 bytes finds the block after the cursor, at 4208. -/
theorem find_next_fit_circular_first_fit_witness :
    (∃ s1, find_next_fit 3 equalArena 32 = .ok (4208, s1)) ∧
      ∃ B, find_next_fit 3 equalArena 32 =
          .ok (B, if B = 0 then equalArena else { equalArena with last_alloc := B }) ∧
        (B = 0 ↔ ∀ a ∈ [4096] ++ 4152 :: [4208], ¬ Fits (hdr equalArena) 32 a) ∧
        (B ≠ 0 → Fits (hdr equalArena) 32 B ∧
          ∃ o1 o2, [4208] ++ ([4096] ++ [4152]) = o1 ++ B :: o2 ∧
            ∀ a ∈ o1, ¬ Fits (hdr equalArena) 32 a) :=
  ⟨⟨_, rfl⟩, find_next_fit_circular_first_fit 3 equalArena 32 [4096] [4208] 4152
    (⟨rfl, by decide, ⟨32, 1, 4152⟩, by decide, rfl, by decide, ⟨32, 1, 4208⟩, by decide, rfl,
      by decide, ⟨32, 1, 0⟩, by decide, rfl⟩) rfl (by decide)⟩

/-! ## C16: the scan of next fit without a cursor -/

theorem Chain.next_not_head {m : View} {g : Nat} {l : List Nat} (hchain : Chain m g l)
    {a : Nat} (ha : a ∈ l) :
    ∃ b, m a = some b ∧ (b.next = 0 ∨ b.next ∈ l) ∧ b.next ≠ g := by
  have hnd := Chain.nodup _ _ hchain
  have hg0 : g ≠ 0 := by
    cases l with
    | nil => exact absurd ha (List.not_mem_nil a)
    | cons h t =>
      rw [hchain.head_eq]
      exact Seg.ne_zero _ _ _ hchain h (List.mem_cons_self _ _)
  obtain ⟨s, t, hst⟩ := List.append_of_mem ha
  subst hst
  obtain ⟨mid, hseg1, hseg2⟩ := (Seg.append _ _ _ _).mp hchain
  obtain ⟨_, _, b, hb, hrest⟩ := hseg2
  refine ⟨b, hb, ?_⟩
  cases t with
  | nil =>
    have h0 : b.next = 0 := hrest
    exact ⟨Or.inl h0, by rw [h0]; exact hg0.symm⟩
  | cons x t2 =>
    have hx : b.next = x := hrest.head_eq
    refine ⟨Or.inr (by rw [hx]; simp), ?_⟩
    rw [hx]
    cases s with
    | nil =>
      have hga : g = a := hseg1.trans (by assumption : mid = a)
      have hnd2 : (a :: x :: t2).Nodup := by simpa using hnd
      intro e
      exact (List.nodup_cons.mp hnd2).1 (by rw [← hga, ← e]; simp)
    | cons h s2 =>
      have hgh : g = h := hseg1.head_eq
      have hnd2 : (h :: (s2 ++ a :: x :: t2)).Nodup := by simpa using hnd
      intro e
      exact (List.nodup_cons.mp hnd2).1 (by rw [← hgh, ← e]; simp)

theorem find_next_fit_loop_never_stops {s : State} {size : Nat} {l : List Nat}
    (hchain : Chain (hdr s) s.global_base l) (hl : l ≠ []) (hnone : ∀ a ∈ l, ¬ Fits (hdr s) size a) :
    ∀ (fuel current : Nat), current = 0 ∨ current ∈ l →
      find_next_fit_loop s s.global_base size fuel current = .timeout := by
  have hgl : s.global_base ∈ l := by
    cases l with
    | nil => exact absurd rfl hl
    | cons h t => rw [hchain.head_eq]; exact List.mem_cons_self _ _
  intro fuel
  induction fuel with
  | zero => intro current _; rfl
  | succ n ih =>
    intro current hcur
    have hmem : (if current = 0 then s.global_base else current) ∈ l := by
      rcases hcur with h | h
      · rw [if_pos h]; exact hgl
      · have : current ≠ 0 := Seg.ne_zero _ _ _ hchain _ h
        rw [if_neg this]; exact h
    obtain ⟨b, hb, hnext, hne⟩ := hchain.next_not_head hmem
    have h0 := Seg.ne_zero _ _ _ hchain _ hmem
    have hnf : ¬ (b.free ≠ 0 ∧ b.size ≥ size) := fun hf =>
      hnone _ hmem ⟨b, hb, hf.1, hf.2⟩
    rw [find_next_fit_loop_step rfl hb, if_neg hnf, if_pos hne]
    exact ih b.next hnext

theorem find_next_fit_unset_cursor_timeout {s : State} {size : Nat} {l : List Nat}
    (hchain : Chain (hdr s) s.global_base l) (hl : l ≠ []) (hcur : s.last_alloc = 0)
    (hnone : ∀ a ∈ l, ¬ Fits (hdr s) size a) (fuel : Nat) :
    find_next_fit fuel s size = .timeout := by
  have hgl : s.global_base ∈ l := by
    cases l with
    | nil => exact absurd rfl hl
    | cons h t => rw [hchain.head_eq]; exact List.mem_cons_self _ _
  unfold find_next_fit
  rw [hcur]
  simp only [ne_eq, not_true_eq_false, if_false, Res.bind_ok]
  rw [find_next_fit_loop_never_stops hchain hl hnone fuel _ (Or.inr hgl)]
  rfl

/-- C16 (evaluation at the failing input): the chain is the single used block at 4096 and
`last_alloc` is `NULL`, as after one `best_fit_alloc(64)` on the empty arena; no block fits a
request of 32 bytes, and `find_next_fit(32)` never returns: the scan starts at the head, never
sees `current == start` again at the loop test, and so runs out of every amount of fuel, and
`next_fit_alloc(32)` with it. -/
theorem find_next_fit_unset_cursor_never_returns :
    (∃ s0, best_fit_alloc 24 1 (emptyArena 4096 65536) 64 = .ok (4120, s0) ∧
      hdr s0 4096 = hdr stuckArena 4096 ∧ s0.global_base = stuckArena.global_base ∧
      s0.last_alloc = stuckArena.last_alloc ∧ s0.brk = stuckArena.brk) ∧
    Chain (hdr stuckArena) stuckArena.global_base [4096] ∧ stuckArena.last_alloc = 0 ∧
      (∀ a ∈ [4096], ¬ Fits (hdr stuckArena) 32 a) ∧
      ∀ fuel, find_next_fit fuel stuckArena 32 = .timeout ∧
        next_fit_alloc 24 fuel stuckArena 32 = .timeout := by
  have hchain : Chain (hdr stuckArena) stuckArena.global_base [4096] :=
    ⟨rfl, by decide, ⟨64, 0, 0⟩, by decide, rfl⟩
  have hnone : ∀ a ∈ [4096], ¬ Fits (hdr stuckArena) 32 a := by
    intro a ha
    rw [List.mem_singleton.mp ha]
    rintro ⟨b, hb, hf, _⟩
    have hb2 : b = ⟨64, 0, 0⟩ := Option.some.inj (hb.symm.trans (by decide))
    rw [hb2] at hf
    exact hf rfl
  refine ⟨⟨_, rfl, by decide, rfl, rfl, rfl⟩, hchain, rfl, hnone, fun fuel => ?_⟩
  have h := find_next_fit_unset_cursor_timeout hchain (by simp) rfl hnone fuel
  refine ⟨h, ?_⟩
  unfold next_fit_alloc
  rw [if_neg (by decide), h]
  rfl

/-! ## C10: next fit over a chain of equal free blocks -/

theorem find_next_fit_loop_first {s : State} {start size n current e : Nat} {b : block_meta}
    (hcur : (if current = 0 then s.global_base else current) = e) (hb : hdr s e = some b)
    (hfree : b.free ≠ 0) (hsz : size ≤ b.size) :
    find_next_fit_loop s start size (n + 1) current = .ok e := by
  rw [find_next_fit_loop_step hcur hb, if_pos ⟨hfree, hsz⟩]

theorem find_next_fit_first {s : State} {size n e : Nat} {b : block_meta}
    (hstart : StartsAt s e) (he : e ≠ 0) (hb : hdr s e = some b)
    (hfree : b.free ≠ 0) (hsz : size ≤ b.size) :
    find_next_fit (n + 1) s size = .ok (e, { s with last_alloc := e }) := by
  unfold find_next_fit
  rcases hstart with ⟨h0, hg⟩ | ⟨h0, lb, hlb, hnext⟩
  · rw [if_neg (by simpa using h0)]
    simp only [Res.bind_ok]
    rw [find_next_fit_loop_first (e := e) (by simp [hg, he]) hb hfree hsz]
    simp [he]
  · rw [if_pos h0, get_next_of_hdr hlb]
    simp only [Res.bind_ok]
    have hcur : (if lb.next = 0 then s.global_base else lb.next) = e := by
      rcases hnext with h | ⟨h1, h2⟩
      · simp [h, he]
      · simp [h1, h2]
    rw [find_next_fit_loop_first hcur hb hfree hsz]
    simp [he]

theorem next_fit_alloc_first {H fuel : Nat} {s : State} {r e : Nat} {b : block_meta}
    (hfuel : 1 ≤ fuel) (hr : 0 < r) (hstart : StartsAt s e) (he : e ≠ 0)
    (hb : hdr s e = some b) (hfree : b.free ≠ 0) (hsz : r ≤ b.size) :
    next_fit_alloc H fuel s r =
      .ok ((e + H) % SIZE_MOD,
        ⟨s.global_base, e, wr s.mem (e + 8) 4 0, s.heap_start, s.brk, s.limit⟩) := by
  obtain ⟨n, rfl⟩ : ∃ n, fuel = n + 1 := ⟨fuel - 1, by omega⟩
  unfold next_fit_alloc
  rw [if_neg (by omega), find_next_fit_first hstart he hb hfree hsz]
  simp only [Res.bind_ok, he, if_false]
  have hb1 : hdr { s with last_alloc := e } e = some b := hb
  rw [set_free_ok 0 hb1]
  rfl

theorem next_fit_alloc_n_add (H fuel : Nat) (size : Nat) :
    ∀ (n1 n2 : Nat) (s : State),
      next_fit_alloc_n H fuel (n1 + n2) s size =
        (next_fit_alloc_n H fuel n1 s size).bind fun r1 =>
          (next_fit_alloc_n H fuel n2 r1.2 size).bind fun r2 => .ok (r1.1 ++ r2.1, r2.2) := by
  intro n1
  induction n1 with
  | zero =>
    intro n2 s
    simp only [Nat.zero_add, next_fit_alloc_n, Res.bind_ok, List.nil_append]
    cases next_fit_alloc_n H fuel n2 s size <;> rfl
  | succ n ih =>
    intro n2 s
    rw [show n + 1 + n2 = (n + n2) + 1 by omega]
    simp only [next_fit_alloc_n]
    cases next_fit_alloc H fuel s size with
    | ok r =>
      simp only [Res.bind_ok, ih]
      cases next_fit_alloc_n H fuel n r.2 size with
      | ok r1 =>
        simp only [Res.bind_ok]
        cases next_fit_alloc_n H fuel n2 r1.2 size <;> simp
      | fault => rfl
      | timeout => rfl
    | fault => rfl
    | timeout => rfl

theorem Apart.tail {a : Nat} {l : List Nat} (h : Apart (a :: l)) : Apart l :=
  fun x hx y hy hxy => h x (List.mem_cons_of_mem a hx) y (List.mem_cons_of_mem a hy) hxy

theorem Apart.sublist {l l1 : List Nat} (h : Apart l) (hsub : ∀ x ∈ l1, x ∈ l) : Apart l1 :=
  fun x hx y hy hxy => h x (hsub x hx) y (hsub y hy) hxy

/-- Marking the block at `a` used keeps the `next` link of every header that does not overlap
it. -/
theorem mark_keeps_next {s : State} {a : Nat} {b : block_meta} (g la : Nat)
    (hb : hdr s a = some b) (x : Nat) (bx : block_meta) (hx : hdr s x = some bx)
    (hax : x = a ∨ x + 24 ≤ a ∨ a + 24 ≤ x) :
    ∃ b1, hdr ⟨g, la, wr s.mem (a + 8) 4 0, s.heap_start, s.brk, s.limit⟩ x = some b1 ∧
      b1.next = bx.next := by
  by_cases h : x = a
  · subst h
    rw [hb] at hx
    cases hx
    exact ⟨_, hdr_wr_free s g la hb (by decide), rfl⟩
  · exact ⟨bx, by rw [hdr_wr_disjoint s g la 0 (by omega)]; exact hx, rfl⟩

theorem next_fit_serves_segment {H fuel r : Nat} (hfuel : 1 ≤ fuel) (hr : 0 < r) :
    ∀ (rest : List Nat) (a q : Nat) (s : State), Seg (hdr s) a (a :: rest) q →
      (a :: rest).Nodup → Apart (a :: rest) → (∀ x ∈ a :: rest, Fits (hdr s) r x) →
      StartsAt s a →
      ∃ s1, next_fit_alloc_n H fuel (rest.length + 1) s r =
          .ok ((a :: rest).map (fun x => (x + H) % SIZE_MOD), s1) ∧
        s1.global_base = s.global_base ∧ s1.brk = s.brk ∧
        s1.last_alloc = (a :: rest).getLast (List.cons_ne_nil a rest) ∧
        (∀ x, (∀ y ∈ a :: rest, x + 24 ≤ y ∨ y + 24 ≤ x) → hdr s1 x = hdr s x) ∧
        (∀ x ∈ a :: rest, ∃ b, hdr s x = some b ∧ hdr s1 x = some ⟨b.size, 0, b.next⟩) := by
  intro rest
  induction rest with
  | nil =>
    intro a q s hseg _ _ hfits hstart
    obtain ⟨_, ha, b, hb, _⟩ := hseg
    obtain ⟨b2, hb2, hfree, hsz⟩ := hfits a (List.mem_cons_self a [])
    rw [hb] at hb2
    cases hb2
    refine ⟨⟨s.global_base, a, wr s.mem (a + 8) 4 0, s.heap_start, s.brk, s.limit⟩,
      ?_, rfl, rfl, rfl, ?_, ?_⟩
    · simp only [List.length_nil, Nat.zero_add, next_fit_alloc_n,
        next_fit_alloc_first hfuel hr hstart ha hb hfree hsz, Res.bind_ok, List.map_cons,
        List.map_nil]
    · intro x hx
      have := hx a (List.mem_cons_self a [])
      exact hdr_wr_disjoint s _ _ 0 (by omega)
    · intro x hx
      rw [List.mem_singleton.mp hx]
      exact ⟨b, hb, hdr_wr_free s _ _ hb (by decide)⟩
  | cons a2 rest ih =>
    intro a q s hseg hnd hap hfits hstart
    obtain ⟨_, ha, b, hb, hrest⟩ := hseg
    obtain ⟨b2, hb2, hfree, hsz⟩ := hfits a (List.mem_cons_self a _)
    rw [hb] at hb2
    cases hb2
    have hnext : b.next = a2 := hrest.head_eq
    rw [hnext] at hrest
    obtain ⟨hanot, hnd2⟩ := List.nodup_cons.mp hnd
    have hfar : ∀ x ∈ a2 :: rest, x + 24 ≤ a ∨ a + 24 ≤ x := fun x hx =>
      hap x (List.mem_cons_of_mem a hx) a (List.mem_cons_self a _) (fun h => hanot (h ▸ hx))
    have hstep := next_fit_alloc_first (H := H) hfuel hr hstart ha hb hfree hsz
    obtain ⟨s1, hrun, hg, hbrk, hlast, hout, hin⟩ :=
      ih a2 q ⟨s.global_base, a, wr s.mem (a + 8) 4 0, s.heap_start, s.brk, s.limit⟩
        (Seg.congr _ _ _
          (fun x hx bx hbx => mark_keeps_next _ _ hb x bx hbx (Or.inr (hfar x hx))) hrest)
        hnd2 hap.tail
        (fun x hx => by
          obtain ⟨bx, hbx, h1, h2⟩ := hfits x (List.mem_cons_of_mem a hx)
          have := hfar x hx
          exact ⟨bx, by rw [hdr_wr_disjoint s _ _ 0 (by omega)]; exact hbx, h1, h2⟩)
        (Or.inr ⟨ha, ⟨b.size, 0, b.next⟩, hdr_wr_free s _ _ hb (by decide), Or.inl hnext⟩)
    refine ⟨s1, ?_, hg, hbrk, ?_, ?_, ?_⟩
    · rw [List.length_cons, next_fit_alloc_n, hstep]
      simp only [Res.bind_ok, hrun, List.map_cons]
    · rw [hlast]
      simp
    · intro x hx
      have hxa := hx a (List.mem_cons_self _ _)
      rw [hout x (fun y hy => hx y (List.mem_cons_of_mem a hy))]
      exact hdr_wr_disjoint s _ _ 0 (by omega)
    · intro x hx
      rcases List.mem_cons.mp hx with hxa | hx2
      · subst hxa
        refine ⟨b, hb, ?_⟩
        rw [hout x (fun y hy => by have := hfar y hy; omega)]
        exact hdr_wr_free s _ _ hb (by decide)
      · have := hfar x hx2
        obtain ⟨bx, hbx, hbx1⟩ := hin x hx2
        refine ⟨bx, ?_, hbx1⟩
        rw [← hbx]
        exact (hdr_wr_disjoint s _ _ 0 (by omega)).symm

theorem next_kept_of_served {s s1 : State} {l xs : List Nat} (hap : Apart l)
    (hxs : ∀ x ∈ xs, x ∈ l)
    (hout : ∀ x, (∀ y ∈ xs, x + 24 ≤ y ∨ y + 24 ≤ x) → hdr s1 x = hdr s x)
    (hin : ∀ x ∈ xs, ∃ b, hdr s x = some b ∧ hdr s1 x = some ⟨b.size, 0, b.next⟩) :
    ∀ x ∈ l, ∀ b, hdr s x = some b → ∃ b1, hdr s1 x = some b1 ∧ b1.next = b.next := by
  intro x hxl b hb
  by_cases hx : x ∈ xs
  · obtain ⟨b2, hb2, hb3⟩ := hin x hx
    rw [hb] at hb2
    cases hb2
    exact ⟨_, hb3, rfl⟩
  · refine ⟨b, ?_, rfl⟩
    rw [hout x (fun y hy => hap x hxl y (hxs y hy) (fun h => hx (h ▸ hy)))]
    exact hb

theorem map_add_mod_nodup (H : Nat) {l : List Nat} (h : l.Nodup)
    (hlt : ∀ x ∈ l, x < SIZE_MOD) : (l.map (fun x => (x + H) % SIZE_MOD)).Nodup := by
  refine (List.nodup_map_iff_inj_on h).mpr ?_
  intro x hx y hy hxy
  have h1 := hlt x hx
  have h2 := hlt y hy
  unfold SIZE_MOD at *
  omega

/-- C10 (counterexample): with `H = 24`, the calls `best_fit_alloc(100)`, `best_fit_free`,
`next_fit_alloc(100)`, `first_fit_alloc(2 ^ 64 - 140)` (which passes `-116` to `sbrk` and leaves
the break at 4104) and `next_fit_alloc(100)` on the empty arena build the chain of the blocks at
4096 and 4104, headers 8 bytes apart, both marked free with size 100, the cursor on the second
one.  Of two further calls `next_fit_alloc(100)`, the first one hands out the block at 4096 and
its write of `free = 0` clears the size of the block at 4104, so the second one misses and
grows the arena (the break moves from 4228 to 4352). -/
theorem next_fit_grows_when_headers_overlap :
    ∃ s1 s2 s3 s4 s5, best_fit_alloc 24 1 (emptyArena 4096 65536) 100 = .ok (4120, s1) ∧
      best_fit_free 24 s1 4120 = .ok s2 ∧ next_fit_alloc 24 1 s2 100 = .ok (4120, s3) ∧
      first_fit_alloc 24 1 s3 (2 ^ 64 - 140) = .ok (4244, s4) ∧ s4.brk = 4104 ∧
      next_fit_alloc 24 1 s4 100 = .ok (4128, s5) ∧
      Chain (hdr s5) s5.global_base [4096, 4104] ∧
      hdr s5 4096 = some ⟨100, 100, 4104⟩ ∧ hdr s5 4104 = some ⟨100, 4104, 0⟩ ∧
      s5.last_alloc = 4104 ∧ s5.brk = 4228 ∧
      ∃ s6 s7, next_fit_alloc 24 2 s5 100 = .ok (4120, s6) ∧
        hdr s6 4104 = some ⟨0, 4104, 0⟩ ∧ s6.brk = 4228 ∧
        next_fit_alloc 24 2 s6 100 = .ok (4252, s7) ∧ s7.brk = 4352 ∧
        next_fit_alloc_n 24 2 2 s5 100 = .ok ([4120, 4252], s7) := by
  refine ⟨_, _, _, _, _, rfl, rfl, rfl, rfl, by decide, rfl, ?_, by decide, by decide, by decide,
    by decide, _, _, rfl, by decide, by decide, rfl, by decide, rfl⟩
  exact ⟨rfl, by decide, ⟨100, 100, 4104⟩, by decide, rfl, by decide, ⟨100, 4104, 0⟩,
    by decide, rfl⟩

/-- C10 (amended): for every `N >= 1` and `r > 0`: if the chain from `global_base` consists of
exactly `N` blocks whose headers do not overlap, all free and all of `size` exactly `r`, and
`last_alloc` is unset or points at one of them, then `N` consecutive `next_fit_alloc(r)` calls
all succeed without growth (the break and the chain are unchanged) and return `N` pairwise
distinct payloads: the blocks after the cursor in chain order, then the blocks from the head up
to the cursor. -/
theorem next_fit_visits_each_block_once (H fuel N r : Nat) (s : State) (l : List Nat)
    (hN : 1 ≤ N) (hr : 0 < r) (hfuel : 1 ≤ fuel)
    (hchain : Chain (hdr s) s.global_base l) (hlen : l.length = N) (hapart : Apart l)
    (hall : ∀ a ∈ l, ∃ b, hdr s a = some b ∧ b.free ≠ 0 ∧ b.size = r)
    (hcur : s.last_alloc = 0 ∨ s.last_alloc ∈ l) :
    ∃ pre post s1, l = pre ++ post ∧
      next_fit_alloc_n H fuel N s r =
        .ok ((post ++ pre).map (fun x => (x + H) % SIZE_MOD), s1) ∧
      ((post ++ pre).map (fun x => (x + H) % SIZE_MOD)).length = N ∧
      ((post ++ pre).map (fun x => (x + H) % SIZE_MOD)).Nodup ∧
      s1.brk = s.brk ∧ Chain (hdr s1) s1.global_base l := by
  have hnd : l.Nodup := Chain.nodup l _ hchain
  have hlt : ∀ a ∈ l, a < SIZE_MOD := fun a ha => by
    obtain ⟨b, hb, _⟩ := hall a ha
    have := hdr_addr_lt hb
    omega
  have hfits : ∀ a ∈ l, Fits (hdr s) r a := fun a ha => by
    obtain ⟨b, hb, hf, hs⟩ := hall a ha
    exact ⟨b, hb, hf, by omega⟩
  -- serving the whole chain from its head
  have whole : StartsAt s s.global_base →
      ∃ pre post s1, l = pre ++ post ∧
        next_fit_alloc_n H fuel N s r =
          .ok ((post ++ pre).map (fun x => (x + H) % SIZE_MOD), s1) ∧
        ((post ++ pre).map (fun x => (x + H) % SIZE_MOD)).length = N ∧
        ((post ++ pre).map (fun x => (x + H) % SIZE_MOD)).Nodup ∧
        s1.brk = s.brk ∧ Chain (hdr s1) s1.global_base l := by
    intro hstart
    cases l with
    | nil => simp at hlen; omega
    | cons h t =>
      have hg : s.global_base = h := hchain.head_eq
      rw [hg] at hstart hchain
      obtain ⟨s1, hrun, hg1, hbrk, _, hout, hin⟩ :=
        next_fit_serves_segment (H := H) hfuel hr t h 0 s hchain hnd hapart hfits hstart
      have hlen2 : t.length + 1 = N := by simpa using hlen
      rw [hlen2] at hrun
      refine ⟨[], h :: t, s1, by simp, by simpa using hrun, by simpa using hlen,
        by simpa using map_add_mod_nodup H hnd hlt, hbrk, ?_⟩
      rw [hg1, hg]
      exact Seg.congr _ _ _ (next_kept_of_served hapart (fun x hx => hx) hout hin) hchain
  rcases hcur with h0 | hmem
  · exact whole (Or.inl ⟨h0, rfl⟩)
  · obtain ⟨pre0, post, hsplit⟩ := List.append_of_mem hmem
    have hc0 : s.last_alloc ≠ 0 := Seg.ne_zero l _ _ hchain _ hmem
    have hsplit2 : l = (pre0 ++ [s.last_alloc]) ++ post := by simp [hsplit]
    have hchain2 := hchain
    unfold Chain at hchain2
    rw [hsplit2] at hchain2
    obtain ⟨mid, hseg1, hseg2⟩ := (Seg.append _ _ _ _).mp hchain2
    obtain ⟨lb, hlb, hlbn⟩ := hseg1.last_next
    cases post with
    | nil =>
      have hmid : mid = 0 := hseg2
      exact whole (Or.inr ⟨hc0, lb, hlb, Or.inr ⟨hlbn.trans hmid, rfl⟩⟩)
    | cons d post1 =>
      have hmid : mid = d := hseg2.head_eq
      subst hmid
      have hnd2 : ((pre0 ++ [s.last_alloc]) ++ mid :: post1).Nodup := hsplit2 ▸ hnd
      obtain ⟨hndpre, hndpost, hdisj⟩ := List.nodup_append.mp hnd2
      have hsubpost : ∀ x ∈ mid :: post1, x ∈ l := fun x hx => by
        rw [hsplit2]; exact List.mem_append_right _ hx
      -- first the blocks after the cursor
      obtain ⟨s1, hrun1, hg1, hbrk1, hlast1, hout1, hin1⟩ :=
        next_fit_serves_segment (H := H) hfuel hr post1 mid 0 s hseg2 hndpost
          (hapart.sublist hsubpost) (fun x hx => hfits x (hsubpost x hx))
          (Or.inr ⟨hc0, lb, hlb, Or.inl hlbn⟩)
      have hkept1 := next_kept_of_served hapart hsubpost hout1 hin1
      -- then the blocks from the head up to the cursor
      cases hpre : pre0 ++ [s.last_alloc] with
      | nil => simp at hpre
      | cons h t =>
        rw [hpre] at hseg1 hndpre hdisj hsplit2
        have hsubpre : ∀ x ∈ h :: t, x ∈ l := fun x hx => by
          rw [hsplit2]; exact List.mem_append_left _ hx
        have hg : s.global_base = h := hseg1.head_eq
        have hseg1b : Seg (hdr s1) h (h :: t) mid := by
          rw [hg] at hseg1
          exact Seg.congr _ _ _ (fun x hx => hkept1 x (hsubpre x hx)) hseg1
        have hlastmem : (mid :: post1).getLast (List.cons_ne_nil mid post1) ∈ mid :: post1 :=
          List.getLast_mem _
        obtain ⟨bl, hbl, hbl1⟩ := hin1 _ hlastmem
        have hbln : bl.next = 0 := by
          have hdl := List.dropLast_append_getLast (List.cons_ne_nil mid post1)
          rw [← hdl] at hseg2
          obtain ⟨bl2, hbl2, hq⟩ := hseg2.last_next
          rw [hbl] at hbl2
          cases hbl2
          exact hq
        have hstart2 : StartsAt s1 h := by
          refine Or.inr ⟨?_, ⟨bl.size, 0, bl.next⟩, ?_, Or.inr ⟨hbln, by rw [hg1, hg]⟩⟩
          · rw [hlast1]
            exact Seg.ne_zero _ _ _ hseg2 _ hlastmem
          · rw [hlast1]
            exact hbl1
        obtain ⟨s2, hrun2, hg2, hbrk2, _, hout2, hin2⟩ :=
          next_fit_serves_segment (H := H) hfuel hr t h mid s1 hseg1b hndpre
            (hapart.sublist hsubpre)
            (fun x hx => by
              obtain ⟨bx, hbx, h1, h2⟩ := hfits x (hsubpre x hx)
              have hxn : x ∉ mid :: post1 := fun hx2 => hdisj hx hx2
              refine ⟨bx, ?_, h1, h2⟩
              rw [hout1 x (fun y hy =>
                hapart x (hsubpre x hx) y (hsubpost y hy) (fun e => hxn (e ▸ hy)))]
              exact hbx)
            hstart2
        have hkept2 := next_kept_of_served (s := s1) hapart hsubpre hout2 hin2
        have hN2 : N = (post1.length + 1) + (t.length + 1) := by
          rw [← hlen, hsplit2]
          simp
          omega
        refine ⟨h :: t, mid :: post1, s2, hsplit2, ?_, ?_, ?_, by rw [hbrk2, hbrk1], ?_⟩
        · rw [hN2, next_fit_alloc_n_add, hrun1]
          simp only [Res.bind_ok, hrun2, List.map_append]
        · rw [hN2]
          simp only [List.length_map, List.length_append, List.length_cons]
        · apply map_add_mod_nodup
          · exact (List.perm_append_comm.nodup_iff).mp (hsplit2 ▸ hnd)
          · intro x hx
            refine hlt x ?_
            rw [hsplit2]
            rcases List.mem_append.mp hx with h1 | h1
            · exact List.mem_append_right _ h1
            · exact List.mem_append_left _ h1
        · rw [hg2, hg1]
          exact Seg.congr _ _ _
            (fun x hx b hb => by
              obtain ⟨b1, hb1, hn1⟩ := hkept1 x hx b hb
              obtain ⟨b2, hb2, hn2⟩ := hkept2 x hx b1 hb1
              exact ⟨b2, hb2, hn2.trans hn1⟩) hchain

/-- Witness for C10: three free blocks of 32 bytes, the cursor on the middle one; three calls of
`next_fit_alloc(32)` hand out the third, the first and the second block. -/
theorem next_fit_visits_each_block_once_witness :
    (∃ s1, next_fit_alloc_n 24 1 3 equalArena 32 = .ok ([4232, 4120, 4176], s1)) ∧
      Apart [4096, 4152, 4208] ∧
      ∃ pre post s1, [4096, 4152, 4208] = pre ++ post ∧
        next_fit_alloc_n 24 1 3 equalArena 32 =
          .ok ((post ++ pre).map (fun x => (x + 24) % SIZE_MOD), s1) ∧
        ((post ++ pre).map (fun x => (x + 24) % SIZE_MOD)).length = 3 ∧
        ((post ++ pre).map (fun x => (x + 24) % SIZE_MOD)).Nodup ∧
        s1.brk = equalArena.brk ∧ Chain (hdr s1) s1.global_base [4096, 4152, 4208] :=
  ⟨⟨_, rfl⟩, by unfold Apart; decide,
    next_fit_visits_each_block_once 24 1 3 32 equalArena [4096, 4152, 4208] (by decide)
      (by decide) (by decide)
      ⟨rfl, by decide, ⟨32, 1, 4152⟩, by decide, rfl, by decide, ⟨32, 1, 4208⟩, by decide, rfl,
        by decide, ⟨32, 1, 0⟩, by decide, rfl⟩
      rfl (by unfold Apart; decide)
      (by
        intro a ha
        simp only [List.mem_cons, List.mem_singleton, List.not_mem_nil, or_false] at ha
        rcases ha with rfl | rfl | rfl
        · exact ⟨⟨32, 1, 4152⟩, by decide, by decide, rfl⟩
        · exact ⟨⟨32, 1, 4208⟩, by decide, by decide, rfl⟩
        · exact ⟨⟨32, 1, 0⟩, by decide, by decide, rfl⟩)
      (Or.inr (by decide))⟩

/-! ## Best fit: growth and split on a heap whose blocks do not overlap -/

theorem sub64_of_le {a b : Nat} (hab : b ≤ a) (ha : a < SIZE_MOD) : sub64 a b = a - b := by
  unfold sub64
  have hb : b % SIZE_MOD = b := Nat.mod_eq_of_lt (by omega)
  rw [hb, show a + SIZE_MOD - b = (a - b) + SIZE_MOD by omega, Nat.add_mod_right]
  exact Nat.mod_eq_of_lt (by omega)

theorem sub64_lt (a b : Nat) : sub64 a b < SIZE_MOD :=
  Nat.mod_lt _ (by decide)

theorem find_best_fit_miss {fuel : Nat} {s : State} {last r : Nat} {l : List Nat}
    (hchain : Chain (hdr s) s.global_base l) (hfuel : l.length ≤ fuel)
    (hmiss : ∀ a ∈ l, ¬ Fits (hdr s) r a) :
    find_best_fit fuel s last r = .ok (0, l.getLastD last) := by
  obtain ⟨B, hrun, hinv⟩ :=
    find_best_fit_loop_spec s r l [] fuel s.global_base 0 last hchain hfuel
      (Or.inl ⟨rfl, fun a ha => absurd ha (List.not_mem_nil a)⟩)
  rw [List.nil_append] at hinv
  rcases hinv with ⟨hB, _⟩ | ⟨_, hfB, pre, post, hd, _⟩
  · rw [hB] at hrun
    exact hrun
  · exact absurd hfB (hmiss B (by rw [hd]; simp))

/-- The header at a mapped address after its three fields are written, in any order. -/
theorem hdr_of_fields {s : State} {p sz fr nx : Nat} (h1 : get_size s p = .ok sz)
    (h2 : get_free s p = .ok fr) (h3 : get_next s p = .ok nx) :
    hdr s p = some ⟨sz, fr, nx⟩ := by
  obtain ⟨m1, e1⟩ := load_eq_ok h1
  obtain ⟨m2, e2⟩ := load_eq_ok h2
  obtain ⟨m3, e3⟩ := load_eq_ok h3
  have hm : mapped s p 24 := by
    unfold mapped at m1 m3 ⊢
    omega
  rw [hdr_of_mapped hm, e1, e2, e3]

/-- Growth by best fit on a heap whose break lies past the block `last`: the new block is at the
old break, `last` is linked to it, and every header below the break that does not overlap the
header of `last` is kept. -/
theorem request_space_best_fit_grow {H : Nat} {s : State} {last size : Nat}
    (hno : size + H < 2 ^ 63) (h24 : 24 ≤ size + H) (hp : PAGE_SIZE ≤ s.brk)
    (hs : s.heap_start ≤ s.brk) (hroom : s.brk + (size + H) ≤ s.limit)
    (hlim : s.brk + (size + H) < SIZE_MOD)
    (hlast : last ≠ 0 → ∃ lb, hdr s last = some lb ∧ last + 24 ≤ s.brk) :
    ∃ s1, request_space_best_fit H s last size = .ok (s.brk, s1) ∧
      s1.global_base = s.global_base ∧ s1.last_alloc = s.last_alloc ∧
      s1.heap_start = s.heap_start ∧ s1.limit = s.limit ∧ s1.brk = s.brk + (size + H) ∧
      hdr s1 s.brk = some ⟨size, 0, 0⟩ ∧
      (∀ lb, last ≠ 0 → hdr s last = some lb → hdr s1 last = some ⟨lb.size, lb.free, s.brk⟩) ∧
      (∀ x bx, hdr s x = some bx → x + 24 ≤ s.brk →
        (last = 0 ∨ x + 24 ≤ last ∨ last + 24 ≤ x) → hdr s1 x = some bx) := by
  have hmod : (size + H) % SIZE_MOD = size + H := Nat.mod_eq_of_lt (by unfold SIZE_MOD; omega)
  have hsz : size < SIZE_MOD := by unfold SIZE_MOD; omega
  have hbrk64 : s.brk < SIZE_MOD := by omega
  obtain ⟨sb, hsb⟩ := sbrk_of_room (n := size + H) hs hroom hlim
  obtain ⟨_, _, _, _, hbrk, hg, hla, hhs, hli, _⟩ := sbrk_some hsb
  have hmb : mapped sb s.brk 24 := sbrk_block_mapped hsb (by omega) hp hs
  have hkeep : ∀ x bx, hdr s x = some bx → hdr sb x = some bx := fun x bx hx =>
    sbrk_hdr hsb (by omega) hx
  -- the link from `last`
  obtain ⟨s2, h2, hfr2, hlast2, hother2⟩ : ∃ s2,
      (if last ≠ 0 then set_next sb last s.brk else Res.ok sb) = .ok s2 ∧
      (s2.global_base = sb.global_base ∧ s2.last_alloc = sb.last_alloc ∧
        s2.heap_start = sb.heap_start ∧ s2.brk = sb.brk ∧ s2.limit = sb.limit) ∧
      (∀ lb, last ≠ 0 → hdr s last = some lb →
        hdr s2 last = some ⟨lb.size, lb.free, s.brk⟩) ∧
      (∀ x bx, hdr s x = some bx →
        (last = 0 ∨ x + 24 ≤ last ∨ last + 24 ≤ x) → hdr s2 x = some bx) := by
    by_cases hl : last ≠ 0
    · obtain ⟨lb, hlb, hlt⟩ := hlast hl
      have hset := set_next_ok s.brk (hkeep _ _ hlb)
      have hfr := store_frame hset
      refine ⟨_, by rw [if_pos hl]; exact hset, ⟨hfr.1, hfr.2.1, hfr.2.2.1, hfr.2.2.2.1,
        hfr.2.2.2.2.1⟩, ?_, ?_⟩
      · intro lb2 _ hlb2
        rw [hlb] at hlb2
        cases hlb2
        exact hdr_set_next hset (hkeep _ _ hlb) hbrk64
      · intro x bx hx hxl
        rw [hdr_set_next_other hset (q := x) (by omega)]
        exact hkeep _ _ hx
    · refine ⟨sb, by rw [if_neg hl], ⟨rfl, rfl, rfl, rfl, rfl⟩, fun lb h => absurd h hl, ?_⟩
      intro x bx hx _
      exact hkeep _ _ hx
  have hm2 : mapped s2 s.brk 24 := (mapped_congr hfr2.2.2.1 hfr2.2.2.2.1 _ _).mpr hmb
  -- the three fields of the new header
  obtain ⟨s3, h3⟩ : ∃ s3, set_size s2 s.brk size = .ok s3 :=
    ⟨_, store_of_mapped size (mapped_sub hm2 (Nat.le_refl _) (by omega))⟩
  have f3 := store_frame h3
  have hm3 : mapped s3 s.brk 24 := (store_mapped h3 s.brk 24).mpr hm2
  obtain ⟨s4, h4⟩ : ∃ s4, set_next s3 s.brk 0 = .ok s4 :=
    ⟨_, store_of_mapped 0 (mapped_sub hm3 (by omega) (by omega))⟩
  have f4 := store_frame h4
  have hm4 : mapped s4 s.brk 24 := (store_mapped h4 s.brk 24).mpr hm3
  obtain ⟨s5, h5⟩ : ∃ s5, set_free s4 s.brk 0 = .ok s5 :=
    ⟨_, store_of_mapped 0 (mapped_sub hm4 (by omega) (by omega))⟩
  have f5 := store_frame h5
  refine ⟨s5, ?_, ?_, ?_, ?_, ?_, ?_, ?_, ?_, ?_⟩
  · unfold request_space_best_fit
    rw [hmod, to_intptr_of_lt hno, hsb]
    simp only []
    rw [h2]
    simp only [Res.bind_ok]
    rw [h3]
    simp only [Res.bind_ok]
    rw [h4]
    simp only [Res.bind_ok]
    rw [h5]
    simp only [Res.bind_ok]
  · exact f5.1.trans (f4.1.trans (f3.1.trans (hfr2.1.trans hg)))
  · exact f5.2.1.trans (f4.2.1.trans (f3.2.1.trans (hfr2.2.1.trans hla)))
  · exact f5.2.2.1.trans (f4.2.2.1.trans (f3.2.2.1.trans (hfr2.2.2.1.trans hhs)))
  · exact f5.2.2.2.2.1.trans (f4.2.2.2.2.1.trans (f3.2.2.2.2.1.trans (hfr2.2.2.2.2.trans hli)))
  · have : s5.brk = sb.brk :=
      f5.2.2.2.1.trans (f4.2.2.2.1.trans (f3.2.2.2.1.trans hfr2.2.2.2.1))
    omega
  · apply hdr_of_fields
    · rw [← Nat.mod_eq_of_lt hsz, ← get_size_set_size h3]
      exact (load_store_disjoint h5 (by omega)).trans (load_store_disjoint h4 (by omega))
    · exact get_free_set_free h5
    · have : get_next s4 s.brk = .ok (0 % SIZE_MOD) := get_next_set_next h4
      rw [Nat.zero_mod] at this
      rw [← this]
      exact load_store_disjoint h5 (by omega)
  · intro lb hl hlb
    obtain ⟨_, _, hlt⟩ := hlast hl
    rw [hdr_store_disjoint h5 (by omega), hdr_store_disjoint h4 (by omega),
      hdr_store_disjoint h3 (by omega)]
    exact hlast2 lb hl hlb
  · intro x bx hx hxb hxl
    rw [hdr_store_disjoint h5 (by omega), hdr_store_disjoint h4 (by omega),
      hdr_store_disjoint h3 (by omega)]
    exact hother2 x bx hx hxl

/-- Best fit links every new block: on a miss with successful growth, on a chain of blocks that do
not overlap and lie below the break, the chain afterwards is the previous chain followed by the
new block, and the head is the new block when the arena was empty. -/
theorem best_fit_alloc_miss_appends {H fuel : Nat} {s : State} {r : Nat} {l : List Nat}
    (hr : 0 < r) (hH : 24 ≤ H) (hno : r + H < 2 ^ 63)
    (hchain : Chain (hdr s) s.global_base l) (hfuel : l.length ≤ fuel)
    (hmiss : ∀ a ∈ l, ¬ Fits (hdr s) r a)
    (hp : PAGE_SIZE ≤ s.brk) (hs : s.heap_start ≤ s.brk)
    (hroom : s.brk + (r + H) ≤ s.limit) (hlim : s.brk + (r + H) < SIZE_MOD)
    (hbelow : ∀ a ∈ l, a + 24 ≤ s.brk) (hapart : Apart l) :
    ∃ s1, best_fit_alloc H fuel s r = .ok (s.brk + H, s1) ∧
      Chain (hdr s1) s1.global_base (l ++ [s.brk]) ∧ hdr s1 s.brk = some ⟨r, 0, 0⟩ ∧
      s1.brk = s.brk + (r + H) ∧ s1.heap_start = s.heap_start ∧ s1.limit = s.limit ∧
      s1.last_alloc = s.last_alloc ∧
      (l = [] → s1.global_base = s.brk) ∧ (l ≠ [] → s1.global_base = s.global_base) ∧
      (∀ x ∈ l, ∀ bx, hdr s x = some bx →
        ∃ b1, hdr s1 x = some b1 ∧ b1.size = bx.size ∧ b1.free = bx.free) ∧
      (∀ x bx, hdr s x = some bx → x + 24 ≤ s.brk → (∀ a ∈ l, x + 24 ≤ a ∨ a + 24 ≤ x) →
        hdr s1 x = some bx) := by
  have hbrk0 : s.brk ≠ 0 := by unfold PAGE_SIZE at hp; omega
  have hptr : (s.brk + H) % SIZE_MOD = s.brk + H := Nat.mod_eq_of_lt (by omega)
  rcases List.eq_nil_or_concat l with hl | ⟨init, c, hl⟩
  · subst hl
    have hg : s.global_base = 0 := hchain
    obtain ⟨s1, hrun, hg1, hla1, hhs1, hli1, hbrk1, hnew, _, hother⟩ :=
      @request_space_best_fit_grow H s 0 r hno (by omega) hp hs
        hroom hlim (fun h => absurd rfl h)
    have hview : hdr { s1 with global_base := s.brk } = hdr s1 := hdr_congr rfl rfl rfl
    refine ⟨{ s1 with global_base := s.brk }, ?_, ?_, ?_, hbrk1, hhs1, hli1, hla1, fun _ => rfl,
      fun h => absurd rfl h, fun x hx => absurd hx (List.not_mem_nil x), ?_⟩
    · unfold best_fit_alloc
      rw [if_neg (by omega), if_pos hg, hrun]
      simp only [Res.bind_ok, hbrk0, if_false, hptr]
    · rw [hview]
      exact ⟨rfl, hbrk0, _, hnew, rfl⟩
    · rw [hview]; exact hnew
    · intro x bx hx hxb _
      rw [hview]
      exact hother x bx hx hxb (Or.inl rfl)
  · rw [List.concat_eq_append] at hl
    subst hl
    have hnd := Chain.nodup _ _ hchain
    have hchain2 := hchain
    unfold Chain at hchain2
    obtain ⟨mid, hseg1, hseg2⟩ := (Seg.append _ _ _ _).mp hchain2
    have hmid : mid = c := hseg2.head_eq
    subst hmid
    obtain ⟨_, hc0, lb, hlb, hlbn⟩ := hseg2
    have hg : s.global_base ≠ 0 := by
      cases init with
      | nil =>
        have : s.global_base = mid := hseg1
        rw [this]; exact hc0
      | cons h t =>
        rw [hseg1.head_eq]
        exact Seg.ne_zero _ _ _ hseg1 h (List.mem_cons_self h t)
    have hcinit : mid ∉ init := fun h => by
      have := (List.nodup_append.mp hnd).2.2
      exact this h (List.mem_singleton_self mid)
    have hmidl : mid ∈ init ++ [mid] := by simp
    obtain ⟨s1, hrun, hg1, hla1, hhs1, hli1, hbrk1, hnew, hlink, hother⟩ :=
      @request_space_best_fit_grow H s mid r hno (by omega) hp
        hs hroom hlim (fun _ => ⟨lb, hlb, hbelow mid hmidl⟩)
    have hinit : ∀ x ∈ init, ∀ bx, hdr s x = some bx → hdr s1 x = some bx := by
      intro x hx bx hbx
      have hxl : x ∈ init ++ [mid] := List.mem_append_left _ hx
      exact hother x bx hbx (hbelow x hxl)
        (Or.inr (hapart x hxl mid hmidl (fun e => hcinit (e ▸ hx))))
    refine ⟨s1, ?_, ?_, hnew, hbrk1, hhs1, hli1, hla1, fun h => by simp at h, fun _ => hg1, ?_,
      ?_⟩
    · unfold best_fit_alloc
      rw [if_neg (by omega), if_neg hg, find_best_fit_miss hchain hfuel hmiss,
        List.getLastD_concat]
      simp only [Res.bind_ok, if_true, hrun, hbrk0, if_false, hptr]
    · show Seg _ s1.global_base ((init ++ [mid]) ++ [s.brk]) 0
      rw [List.append_assoc, hg1]
      refine (Seg.append _ _ _ _).mpr ⟨mid, ?_, ?_⟩
      · exact Seg.congr _ _ _ (fun x hx b hb => ⟨b, hinit x hx b hb, rfl⟩) hseg1
      · exact ⟨rfl, hc0, _, hlink lb hc0 hlb, rfl, hbrk0, ⟨r, 0, 0⟩, hnew, rfl⟩
    · intro x hx bx hbx
      rcases List.mem_append.mp hx with h | h
      · exact ⟨bx, hinit x h bx hbx, rfl, rfl⟩
      · rw [List.mem_singleton.mp h] at hbx ⊢
        exact ⟨_, hlink bx hc0 hbx, rfl, rfl⟩
    · intro x bx hbx hxb hfar
      exact hother x bx hbx hxb (Or.inr (hfar mid hmidl))

/-- The effect of `split_block(B, r)` when the remainder header at `B + r + H` lies in the memory
of the arena, past the header of `B`. -/
theorem split_block_view {H : Nat} {s : State} {B r : Nat} {b : block_meta}
    (hb : hdr s B = some b) (hr64 : r < SIZE_MOD) (hsep : 24 ≤ r + H)
    (hnew : mapped s (B + r + H) 24) :
    ∃ s1, split_block H s B r = .ok s1 ∧ s1.global_base = s.global_base ∧
      s1.last_alloc = s.last_alloc ∧ s1.heap_start = s.heap_start ∧ s1.brk = s.brk ∧
      s1.limit = s.limit ∧
      hdr s1 B = some ⟨r, b.free, B + r + H⟩ ∧
      hdr s1 (B + r + H) = some ⟨sub64 (sub64 b.size r) H, 1, b.next⟩ ∧
      ∀ x, (x + 24 ≤ B ∨ B + 24 ≤ x) → (x + 24 ≤ B + r + H ∨ B + r + H + 24 ≤ x) →
        hdr s1 x = hdr s x := by
  have hN64 : B + r + H + 24 ≤ SIZE_MOD := mapped_lt hnew
  have hmod : (B + r + H) % SIZE_MOD = B + r + H := Nat.mod_eq_of_lt (by omega)
  have hBm := (hdr_eq_some hb).1
  obtain ⟨t1, h1⟩ : ∃ t1, set_size s (B + r + H) (sub64 (sub64 b.size r) H) = .ok t1 :=
    ⟨_, store_of_mapped _ (mapped_sub hnew (Nat.le_refl _) (by omega))⟩
  have f1 := store_frame h1
  have hnew1 : mapped t1 (B + r + H) 24 := (store_mapped h1 _ _).mpr hnew
  obtain ⟨t2, h2⟩ : ∃ t2, set_free t1 (B + r + H) 1 = .ok t2 :=
    ⟨_, store_of_mapped _ (mapped_sub hnew1 (by omega) (by omega))⟩
  have f2 := store_frame h2
  have hnew2 : mapped t2 (B + r + H) 24 := (store_mapped h2 _ _).mpr hnew1
  have hB2 : hdr t2 B = some b := by
    rw [hdr_store_disjoint h2 (by omega), hdr_store_disjoint h1 (by omega)]
    exact hb
  obtain ⟨t3, h3⟩ : ∃ t3, set_next t2 (B + r + H) b.next = .ok t3 :=
    ⟨_, store_of_mapped _ (mapped_sub hnew2 (by omega) (by omega))⟩
  have f3 := store_frame h3
  have hB3 : hdr t3 B = some b := by
    rw [hdr_store_disjoint h3 (by omega)]
    exact hB2
  obtain ⟨t4, h4⟩ : ∃ t4, set_size t3 B r = .ok t4 := ⟨_, set_size_ok r hB3⟩
  have f4 := store_frame h4
  have hB4 : hdr t4 B = some ⟨r, b.free, b.next⟩ := hdr_set_size h4 hB3 hr64
  obtain ⟨t5, h5⟩ : ∃ t5, set_next t4 B (B + r + H) = .ok t5 := ⟨_, set_next_ok _ hB4⟩
  have f5 := store_frame h5
  have hB5 : hdr t5 B = some ⟨r, b.free, B + r + H⟩ := hdr_set_next h5 hB4 (by omega)
  refine ⟨t5, ?_, ?_, ?_, ?_, ?_, ?_, hB5, ?_, ?_⟩
  · unfold split_block
    rw [get_size_of_hdr hb, hmod]
    simp only [Res.bind_ok]
    rw [h1]
    simp only [Res.bind_ok]
    rw [h2]
    simp only [Res.bind_ok]
    rw [get_next_of_hdr hB2]
    simp only [Res.bind_ok]
    rw [h3]
    simp only [Res.bind_ok]
    rw [h4]
    simp only [Res.bind_ok]
    rw [h5]
  · exact f5.1.trans (f4.1.trans (f3.1.trans (f2.1.trans f1.1)))
  · exact f5.2.1.trans (f4.2.1.trans (f3.2.1.trans (f2.2.1.trans f1.2.1)))
  · exact f5.2.2.1.trans (f4.2.2.1.trans (f3.2.2.1.trans (f2.2.2.1.trans f1.2.2.1)))
  · exact f5.2.2.2.1.trans (f4.2.2.2.1.trans (f3.2.2.2.1.trans (f2.2.2.2.1.trans f1.2.2.2.1)))
  · exact f5.2.2.2.2.1.trans (f4.2.2.2.2.1.trans (f3.2.2.2.2.1.trans
      (f2.2.2.2.2.1.trans f1.2.2.2.2.1)))
  · rw [hdr_store_disjoint h5 (by omega), hdr_store_disjoint h4 (by omega)]
    apply hdr_of_fields
    · have e1 : get_size t1 (B + r + H) = .ok (sub64 (sub64 b.size r) H % SIZE_MOD) :=
        get_size_set_size h1
      rw [Nat.mod_eq_of_lt (sub64_lt _ _)] at e1
      rw [← e1]
      exact (load_store_disjoint h3 (by omega)).trans (load_store_disjoint h2 (by omega))
    · have e2 : get_free t2 (B + r + H) = .ok (1 % 256 ^ 4) := get_free_set_free h2
      rw [show (1 : Nat) % 256 ^ 4 = 1 from by norm_num] at e2
      rw [← e2]
      exact load_store_disjoint h3 (by omega)
    · have e3 : get_next t3 (B + r + H) = .ok (b.next % SIZE_MOD) := get_next_set_next h3
      rw [Nat.mod_eq_of_lt (hdr_next_lt hb)] at e3
      exact e3
  · intro x hx1 hx2
    rw [hdr_store_disjoint h5 (by omega), hdr_store_disjoint h4 (by omega),
      hdr_store_disjoint h3 (by omega), hdr_store_disjoint h2 (by omega),
      hdr_store_disjoint h1 (by omega)]

/-- A best-fit hit, as a run of `split_block` (or not) followed by the write of `free = 0`. -/
theorem best_fit_alloc_hit {H fuel : Nat} {s : State} {r B last : Nat} {b : block_meta}
    (hr : 0 < r) (hg : s.global_base ≠ 0)
    (hfind : find_best_fit fuel s s.global_base r = .ok (B, last)) (hB : B ≠ 0)
    (hb : hdr s B = some b) :
    best_fit_alloc H fuel s r =
      (if b.size > (r + H + 4) % SIZE_MOD then split_block H s B r else .ok s).bind fun s1 =>
        (set_free s1 B 0).bind fun s2 => .ok ((B + H) % SIZE_MOD, s2) := by
  unfold best_fit_alloc
  rw [if_neg (by omega), if_neg hg, hfind]
  simp only [Res.bind_ok, if_neg hB, get_size_of_hdr hb]

theorem find_best_fit_single {n : Nat} {s : State} {last r : Nat} {b : block_meta}
    (hg : s.global_base ≠ 0) (hb : hdr s s.global_base = some b) (hnext : b.next = 0)
    (hfree : b.free ≠ 0) (hsz : r ≤ b.size) :
    find_best_fit (n + 1) s last r = .ok (s.global_base, s.global_base) := by
  unfold find_best_fit
  rw [find_best_fit_loop_step hg hb, if_pos ⟨hfree, hsz⟩, if_pos rfl, hnext]
  cases n <;> simp [find_best_fit_loop]

/-! ## C18: the split threshold of best fit -/

/-- After the write of `free = v` into the header at `B`. -/
theorem set_free_view {s : State} {B : Nat} {b : block_meta} (v : Nat) (hv : v < 2 ^ 32)
    (hb : hdr s B = some b) :
    ∃ s1, set_free s B v = .ok s1 ∧ s1.global_base = s.global_base ∧
      s1.last_alloc = s.last_alloc ∧ s1.heap_start = s.heap_start ∧ s1.brk = s.brk ∧
      s1.limit = s.limit ∧ hdr s1 B = some ⟨b.size, v, b.next⟩ ∧
      ∀ x, (x + 24 ≤ B + 8 ∨ B + 12 ≤ x) → hdr s1 x = hdr s x := by
  have h := set_free_ok v hb
  have f := store_frame h
  exact ⟨_, h, f.1, f.2.1, f.2.2.1, f.2.2.2.1, f.2.2.2.2.1, hdr_set_free h hb hv,
    fun x hx => hdr_store_disjoint h (by omega)⟩

/-- C18 (counterexample): with `H = 24`, after `best_fit_alloc(2 ^ 64 - 1)` on the empty arena
and `best_fit_free` of its result, a free block at 4096 records the size `S = 2 ^ 64 - 1`; the
request is `r = 2 ^ 64 - 1`, so `S <= r + H + 4`.  Yet the threshold
`size + sizeof(block_meta) + 4` wraps to 27 in `size_t` and `best_fit_alloc` splits: the remainder
header is written at `4096 + r + 24` modulo `2 ^ 64`, that is at 4119, over the last byte of the
`next` field of the matched block; the matched block ends with `next = 4119`, and the chain from
the head runs through a header at 4119 whose `next` points outside the memory of the arena, so
`calculate_usable_memory` faults. -/
theorem best_fit_splits_when_threshold_wraps :
    ∃ s0 s1 s2, best_fit_alloc 24 1 (emptyArena 4096 65536) (2 ^ 64 - 1) = .ok (4120, s0) ∧
      best_fit_free 24 s0 4120 = .ok s1 ∧ hdr s1 4096 = some ⟨2 ^ 64 - 1, 1, 0⟩ ∧
      Chain (hdr s1) s1.global_base [4096] ∧ (2 ^ 64 - 1 : Nat) ≤ (2 ^ 64 - 1) + 24 + 4 ∧
      find_best_fit 1 s1 s1.global_base (2 ^ 64 - 1) = .ok (4096, 4096) ∧
      best_fit_alloc 24 1 s1 (2 ^ 64 - 1) = .ok (4120, s2) ∧
      hdr s2 4096 = some ⟨2 ^ 64 - 1, 0, 4119⟩ ∧
      hdr s2 4119 = some ⟨2 ^ 64 - 256, 1, 0xE800000000000000⟩ ∧
      hdr s2 0xE800000000000000 = none ∧
      ¬ Chain (hdr s2) s2.global_base [4096] ∧
      calculate_usable_memory 3 s2 = .fault := by
  refine ⟨_, _, _, rfl, rfl, by decide, ?_, by decide, rfl, rfl, by decide, by decide, by decide,
    ?_, by decide⟩
  · exact ⟨rfl, by decide, ⟨2 ^ 64 - 1, 1, 0⟩, by decide, rfl⟩
  · rintro ⟨_, _, b, hb, h⟩
    have hb2 : b = ⟨2 ^ 64 - 1, 0, 4119⟩ := Option.some.inj (hb.symm.trans (by decide))
    rw [hb2] at h
    exact absurd (show (4119 : Nat) = 0 from h) (by decide)

/-- The two branches of a best-fit hit on a block that lies in the memory of the arena. -/
theorem best_fit_hit_view (H fuel : Nat) (s : State) (r B last : Nat)
    (b : block_meta) (hr : 0 < r) (hH : 24 ≤ H) (hg : s.global_base ≠ 0)
    (hfind : find_best_fit fuel s s.global_base r = .ok (B, last)) (hB : B ≠ 0)
    (hb : hdr s B = some b) (hno : r + H + 4 < SIZE_MOD) (hin : mapped s B (H + b.size)) :
    ∃ s1, best_fit_alloc H fuel s r = .ok (B + H, s1) ∧ s1.global_base = s.global_base ∧
      s1.last_alloc = s.last_alloc ∧ s1.brk = s.brk ∧
      (b.size > r + H + 4 →
        hdr s1 B = some ⟨r, 0, B + r + H⟩ ∧
        hdr s1 (B + r + H) = some ⟨b.size - r - H, 1, b.next⟩ ∧
        (∀ a, a + 24 ≤ B ∨ B + H + b.size ≤ a → hdr s1 a = hdr s a) ∧
        ∀ pre post, Chain (hdr s) s.global_base (pre ++ B :: post) →
          (∀ a ∈ pre ++ post, a + 24 ≤ B ∨ B + H + b.size ≤ a) →
          Chain (hdr s1) s1.global_base (pre ++ B :: (B + r + H) :: post)) ∧
      (b.size ≤ r + H + 4 →
        hdr s1 B = some ⟨b.size, 0, b.next⟩ ∧
        (∀ a, a + 24 ≤ B ∨ B + 24 ≤ a → hdr s1 a = hdr s a) ∧
        ∀ l, Chain (hdr s) s.global_base l → (∀ a ∈ l, a = B ∨ a + 24 ≤ B ∨ B + 24 ≤ a) →
          Chain (hdr s1) s1.global_base l) := by
  have hmod : (r + H + 4) % SIZE_MOD = r + H + 4 := Nat.mod_eq_of_lt hno
  have hin64 : B + (H + b.size) ≤ SIZE_MOD := mapped_lt hin
  have hfit : r ≤ b.size := by
    have h1 := find_best_fit_loop_hit s r fuel s.global_base 0 s.global_base B last hfind hB
      (fun h => absurd rfl h)
    rw [is_fit_of_hdr r hb] at h1
    exact (of_decide_eq_true (Res.ok.inj h1)).2
  have hptr : (B + H) % SIZE_MOD = B + H := Nat.mod_eq_of_lt (by omega)
  have hrun := best_fit_alloc_hit (H := H) hr hg hfind hB hb
  rw [hmod, hptr] at hrun
  by_cases hc : b.size > r + H + 4
  · -- the split
    rw [if_pos hc] at hrun
    have hnew : mapped s (B + r + H) 24 := mapped_sub hin (by omega) (by omega)
    obtain ⟨t, hsplit, tg, tla, ths, tbrk, tli, tB, tN, tother⟩ :=
      split_block_view (H := H) hb (by omega) (by omega) hnew
    obtain ⟨s1, hset, sg, sla, shs, sbrk1, sli, sB, sother⟩ :=
      set_free_view 0 (by decide) tB
    rw [hsplit] at hrun
    simp only [Res.bind_ok] at hrun
    rw [hset] at hrun
    simp only [Res.bind_ok] at hrun
    have hsize : sub64 (sub64 b.size r) H = b.size - r - H := by
      rw [sub64_of_le (by omega) (hdr_size_lt hb), sub64_of_le (by omega) (by omega)]
    have hN1 : hdr s1 (B + r + H) = some ⟨b.size - r - H, 1, b.next⟩ := by
      rw [sother _ (by omega), tN, hsize]
    have hfar : ∀ a, a + 24 ≤ B ∨ B + H + b.size ≤ a → hdr s1 a = hdr s a := by
      intro a ha
      rw [sother a (by omega), tother a (by omega) (by omega)]
    refine ⟨s1, hrun, sg.trans tg, sla.trans tla, sbrk1.trans tbrk,
      fun _ => ⟨sB, hN1, hfar, ?_⟩, fun h => absurd hc (by omega)⟩
    intro pre post hchain hothers
    obtain ⟨mid, hseg1, hseg2⟩ := (Seg.append _ _ _ _).mp hchain
    have hmid : mid = B := hseg2.head_eq
    subst hmid
    obtain ⟨_, _, b2, hb2, hpost⟩ := hseg2
    rw [hb] at hb2
    cases hb2
    rw [sg.trans tg]
    refine (Seg.append _ _ _ _).mpr ⟨mid, ?_, ?_⟩
    · exact Seg.of_eq_on (fun a ha => hfar a (hothers a (List.mem_append_left _ ha))) hseg1
    · refine ⟨rfl, hB, _, sB, rfl, by omega, _, hN1, ?_⟩
      exact Seg.of_eq_on (fun a ha => hfar a (hothers a (List.mem_append_right _ ha))) hpost
  · -- no split
    rw [if_neg hc] at hrun
    obtain ⟨s1, hset, sg, sla, shs, sbrk1, sli, sB, sother⟩ :=
      set_free_view 0 (by decide) hb
    simp only [Res.bind_ok] at hrun
    rw [hset] at hrun
    simp only [Res.bind_ok] at hrun
    refine ⟨s1, hrun, sg, sla, sbrk1, fun h => absurd h hc,
      fun _ => ⟨sB, fun a ha => sother a (by omega), fun l hl hap => ?_⟩⟩
    rw [sg]
    refine Seg.congr _ _ _ (fun x hx bx hbx => ?_) hl
    rcases hap x hx with h | h
    · subst h
      rw [hb] at hbx
      cases hbx
      exact ⟨_, sB, rfl⟩
    · exact ⟨bx, by rw [sother x (by omega)]; exact hbx, rfl⟩

/-- C18 (amended): for every best-fit hit on a block `B` of size `S` that lies, header and
payload, in the memory of the arena, with request `r > 0` and header size `H >= 24` such that
`r + H + 4` does not wrap in `size_t` (`r + H + 4 < 2 ^ 64`): the call returns the payload
`B + H` and leaves `global_base`, `last_alloc` and the break unchanged; if `S > r + H + 4` the
size of `B` becomes exactly `r`, `B` is marked used, and a new free block of size `S - r - H` is
inserted immediately after it at `B + r + H`, with the former successor of `B` as its `next`
(the chain `pre ++ B :: post` becomes `pre ++ B :: new :: post` when no other block of the chain
overlaps `B`); if `S <= r + H + 4` (a leftover of exactly 4 included) no block is inserted, `B`
keeps size `S` and its `next`, is marked used, and every header that does not overlap the header
of `B`, and with them the chain, are unchanged. -/
theorem best_fit_hit_splits_above_threshold (H fuel : Nat) (s : State) (r B last : Nat)
    (b : block_meta) (hr : 0 < r) (hH : 24 ≤ H) (hg : s.global_base ≠ 0)
    (hfind : find_best_fit fuel s s.global_base r = .ok (B, last)) (hB : B ≠ 0)
    (hb : hdr s B = some b) (hno : r + H + 4 < SIZE_MOD) (hin : mapped s B (H + b.size)) :
    ∃ s1, best_fit_alloc H fuel s r = .ok (B + H, s1) ∧ s1.global_base = s.global_base ∧
      s1.last_alloc = s.last_alloc ∧ s1.brk = s.brk ∧
      (b.size > r + H + 4 →
        hdr s1 B = some ⟨r, 0, B + r + H⟩ ∧
        hdr s1 (B + r + H) = some ⟨b.size - r - H, 1, b.next⟩ ∧
        (∀ a, a + 24 ≤ B ∨ B + H + b.size ≤ a → hdr s1 a = hdr s a) ∧
        ∀ pre post, Chain (hdr s) s.global_base (pre ++ B :: post) →
          (∀ a ∈ pre ++ post, a + 24 ≤ B ∨ B + H + b.size ≤ a) →
          Chain (hdr s1) s1.global_base (pre ++ B :: (B + r + H) :: post)) ∧
      (b.size ≤ r + H + 4 →
        hdr s1 B = some ⟨b.size, 0, b.next⟩ ∧
        (∀ a, a + 24 ≤ B ∨ B + 24 ≤ a → hdr s1 a = hdr s a) ∧
        ∀ l, Chain (hdr s) s.global_base l → (∀ a ∈ l, a = B ∨ a + 24 ≤ B ∨ B + 24 ≤ a) →
          Chain (hdr s1) s1.global_base l) :=
  best_fit_hit_view H fuel s r B last b hr hH hg hfind hB hb hno hin

/-- Witness for C18: a request of 10 bytes against a single free block of 100 bytes with
`H = 24` splits it into a used block of 10 bytes and a free block of 66 bytes at 4130. -/
theorem best_fit_hit_splits_above_threshold_witness :
    ∃ s1, best_fit_alloc 24 1 freedArena 10 = .ok (4096 + 24, s1) ∧
      hdr s1 4096 = some ⟨10, 0, 4096 + 10 + 24⟩ ∧
      hdr s1 (4096 + 10 + 24) = some ⟨100 - 10 - 24, 1, 0⟩ ∧
      Chain (hdr s1) s1.global_base [4096, 4096 + 10 + 24] := by
  obtain ⟨s1, hrun, hg, _, _, hsplit, _⟩ :=
    best_fit_hit_splits_above_threshold 24 1 freedArena 10 4096 4096 ⟨100, 1, 0⟩ (by decide)
      (by decide) (by decide) rfl (by decide) (by decide) (by decide) (by decide)
  obtain ⟨h1, h2, _, h4⟩ := hsplit (by decide)
  exact ⟨s1, hrun, h1, h2,
    h4 [] [] ⟨rfl, by decide, ⟨100, 1, 0⟩, by decide, rfl⟩
      (fun a ha => absurd ha (List.not_mem_nil a))⟩

/-! ## C12: the best-fit scenario -/

/-- C12: best-fit scenario, for every header size `H >= 24` (with `H + 100` representable as an
`intptr_t`): on the empty arena with growth succeeding, `P = best_fit_alloc(100)`,
`best_fit_free(P)`, then `best_fit_alloc(10)` reuses the block and returns `P` again; if
`100 - 10 - H > 4` the chain becomes a used block of size 10 followed by a free block of size
`100 - 10 - H`, and `calculate_usable_memory()` equals `100 - 10 - H`; if `100 - 10 - H <= 4`
the chain is the single used block of size 100 and `calculate_usable_memory()` is 0. -/
theorem best_fit_scenario_split_or_whole (H brk0 limit fuel fuel2 : Nat)
    (hH24 : 24 ≤ H) (hH : H + 100 < 2 ^ 63) (hbrk : PAGE_SIZE ≤ brk0)
    (hgrow : brk0 + (100 + H) ≤ limit) (hlimit : brk0 + (100 + H) < SIZE_MOD)
    (hfuel : 1 ≤ fuel) (hfuel2 : 2 ≤ fuel2) :
    ∃ s1 s2 s3, best_fit_alloc H fuel (emptyArena brk0 limit) 100 = .ok (brk0 + H, s1) ∧
      best_fit_free H s1 (brk0 + H) = .ok s2 ∧
      best_fit_alloc H fuel s2 10 = .ok (brk0 + H, s3) ∧
      ((4 : Int) < 100 - 10 - H →
        Chain (hdr s3) s3.global_base [brk0, brk0 + 10 + H] ∧
        hdr s3 brk0 = some ⟨10, 0, brk0 + 10 + H⟩ ∧
        hdr s3 (brk0 + 10 + H) = some ⟨100 - 10 - H, 1, 0⟩ ∧
        calculate_usable_memory fuel2 s3 = .ok (100 - 10 - H)) ∧
      ((100 : Int) - 10 - H ≤ 4 →
        Chain (hdr s3) s3.global_base [brk0] ∧ hdr s3 brk0 = some ⟨100, 0, 0⟩ ∧
        calculate_usable_memory fuel2 s3 = .ok 0) := by
  have h64 : SIZE_MOD = 18446744073709551616 := by decide
  have hbrk0 : brk0 ≠ 0 := by unfold PAGE_SIZE at hbrk; omega
  obtain ⟨n, rfl⟩ : ∃ n, fuel = n + 1 := ⟨fuel - 1, by omega⟩
  -- the first allocation grows the arena
  obtain ⟨s1, hrun1, _, hm1, hbrk1, hhs1, _, _, hg1, _, _, _⟩ :=
    @best_fit_alloc_miss_appends H (n + 1) (emptyArena brk0 limit) 100 [] (by decide) hH24
      (by omega) rfl (by simp) (by simp) hbrk (Nat.le_refl _) hgrow
      hlimit (by simp)
      (fun a ha => absurd ha (List.not_mem_nil a))
  have hg1 : s1.global_base = brk0 := hg1 rfl
  have hm1 : hdr s1 brk0 = some ⟨100, 0, 0⟩ := hm1
  have hbrk1 : s1.brk = brk0 + (100 + H) := hbrk1
  have hhs1 : s1.heap_start = brk0 := hhs1
  -- the free
  have hsub : sub64 (brk0 + H) H = brk0 := by
    have := sub64_add_mod H (B := brk0) (by omega)
    rwa [Nat.mod_eq_of_lt (by omega)] at this
  obtain ⟨s2, hset2, g2, _, hs2, b2, _, hm2, _⟩ := set_free_view 1 (by decide) hm1
  have hfree : best_fit_free H s1 (brk0 + H) = .ok s2 := by
    unfold best_fit_free
    rw [if_neg (by omega), hsub]
    exact hset2
  have hg2 : s2.global_base = brk0 := g2.trans hg1
  -- the second allocation hits the block
  have hfind : find_best_fit (n + 1) s2 s2.global_base 10 = .ok (brk0, brk0) := by
    have := @find_best_fit_single n s2 s2.global_base 10 ⟨100, 1, 0⟩ (by rw [hg2]; exact hbrk0)
      (by rw [hg2]; exact hm2) rfl (by decide) (by decide)
    rw [hg2] at this ⊢
    exact this
  have hin : mapped s2 brk0 (H + 100) := by
    have := le_page_align s2.brk
    unfold mapped
    rw [hs2, hhs1, b2, hbrk1] at *
    refine ⟨hbrk, Nat.le_refl _, by omega, by omega⟩
  obtain ⟨s3, hrun3, g3, _, _, hsplit, hwhole⟩ :=
    best_fit_hit_view H (n + 1) s2 10 brk0 brk0 ⟨100, 1, 0⟩ (by decide)
      hH24 (by rw [hg2]; exact hbrk0) hfind hbrk0 hm2 (by omega) hin
  have hg3 : s3.global_base = brk0 := g3.trans hg2
  refine ⟨s1, s2, s3, hrun1, hfree, hrun3, ?_, ?_⟩
  · intro hc
    obtain ⟨hA, hN, _, hch⟩ := hsplit (by show (100 : Nat) > 10 + H + 4; omega)
    have hchain : Chain (hdr s3) s3.global_base [brk0, brk0 + 10 + H] := by
      have := hch [] [] (by rw [hg2]; exact ⟨rfl, hbrk0, _, hm2, rfl⟩)
        (fun a ha => absurd ha (List.not_mem_nil a))
      simpa using this
    refine ⟨hchain, hA, hN, ?_⟩
    have hsum := @calculate_usable_memory_of_chain fuel2 s3 [brk0, brk0 + 10 + H] hchain
      (by simpa using hfuel2)
    rw [hsum]
    simp only [freeSum, hA, hN]
    simp only [ne_eq, not_true_eq_false, if_false, one_ne_zero, not_false_eq_true, if_true,
      Nat.zero_add, Nat.add_zero]
    rw [Nat.mod_eq_of_lt]
    rw [h64]
    exact Nat.lt_of_le_of_lt (Nat.sub_le _ _) (by decide)
  · intro hc
    obtain ⟨hA, _, hch⟩ := hwhole (by show (100 : Nat) ≤ 10 + H + 4; omega)
    have hchain : Chain (hdr s3) s3.global_base [brk0] :=
      hch [brk0] (by rw [hg2]; exact ⟨rfl, hbrk0, _, hm2, rfl⟩)
        (fun a ha => Or.inl (List.mem_singleton.mp ha))
    refine ⟨hchain, hA, ?_⟩
    have hsum := @calculate_usable_memory_of_chain fuel2 s3 [brk0] hchain (by simp; omega)
    rw [hsum]
    simp [freeSum, hA]

/-- Witness for C12: with `H = 24` the block of 100 bytes is split and 66 bytes stay usable; with
`H = 90` it is handed out whole and nothing stays usable. -/
theorem best_fit_scenario_split_or_whole_witness :
    (∃ s1 s2 s3, best_fit_alloc 24 1 (emptyArena 4096 65536) 100 = .ok (4096 + 24, s1) ∧
      best_fit_free 24 s1 (4096 + 24) = .ok s2 ∧
      best_fit_alloc 24 1 s2 10 = .ok (4096 + 24, s3) ∧
      Chain (hdr s3) s3.global_base [4096, 4096 + 10 + 24] ∧
      calculate_usable_memory 2 s3 = .ok (100 - 10 - 24)) ∧
    (∃ s1 s2 s3, best_fit_alloc 90 1 (emptyArena 4096 65536) 100 = .ok (4096 + 90, s1) ∧
      best_fit_free 90 s1 (4096 + 90) = .ok s2 ∧
      best_fit_alloc 90 1 s2 10 = .ok (4096 + 90, s3) ∧
      Chain (hdr s3) s3.global_base [4096] ∧ calculate_usable_memory 2 s3 = .ok 0) := by
  constructor
  · obtain ⟨s1, s2, s3, h1, h2, h3, hsplit, _⟩ :=
      best_fit_scenario_split_or_whole 24 4096 65536 1 2 (by decide) (by decide) (by decide)
        (by decide) (by decide) (by decide) (by decide)
    obtain ⟨c1, _, _, c4⟩ := hsplit (by decide)
    exact ⟨s1, s2, s3, h1, h2, h3, c1, c4⟩
  · obtain ⟨s1, s2, s3, h1, h2, h3, _, hwhole⟩ :=
      best_fit_scenario_split_or_whole 90 4096 65536 1 2 (by decide) (by decide) (by decide)
        (by decide) (by decide) (by decide) (by decide)
    obtain ⟨c1, _, c3⟩ := hwhole (by decide)
    exact ⟨s1, s2, s3, h1, h2, h3, c1, c3⟩

/-! ## Where the searches look -/

theorem Seg.next_mem {m : View} :
    ∀ (l : List Nat) (p : Nat), Seg m p l 0 → ∀ a ∈ l, ∀ b, m a = some b →
      b.next = 0 ∨ b.next ∈ l := by
  intro l
  induction l with
  | nil => intro p _ a ha; exact absurd ha (List.not_mem_nil a)
  | cons x l ih =>
    intro p h a ha b hb
    obtain ⟨_, _, bx, hbx, hrest⟩ := h
    rcases List.mem_cons.mp ha with hax | hal
    · subst hax
      rw [hbx] at hb
      cases hb
      cases l with
      | nil => exact Or.inl hrest
      | cons y l2 => exact Or.inr (by rw [hrest.1]; simp)
    · rcases ih _ hrest a hal b hb with h0 | h1
      · exact Or.inl h0
      · exact Or.inr (List.mem_cons_of_mem _ h1)

/-- The blocks of a chain are closed under `next`, and the head is one of them. -/
theorem Chain.closed {s : State} {l : List Nat} (hchain : Chain (hdr s) s.global_base l) :
    (∀ a next, a ∈ l → get_next s a = .ok next → next = 0 ∨ next ∈ l) ∧
      (s.global_base = 0 ∨ s.global_base ∈ l) := by
  constructor
  · intro a next ha hn
    obtain ⟨b, hb⟩ := Seg.mem_some l _ _ hchain a ha
    rw [get_next_of_hdr hb] at hn
    have := Res.ok.inj hn
    rw [← this]
    exact Seg.next_mem l _ hchain a ha b hb
  · cases l with
    | nil => exact Or.inl hchain
    | cons x l2 => exact Or.inr (by rw [hchain.1]; simp)

theorem is_fit_ne_zero {s : State} {a size : Nat} {fit : Bool} (h : is_fit s a size = .ok fit) :
    a ≠ 0 := by
  unfold is_fit at h
  obtain ⟨f, hf, _⟩ := Res.bind_eq_ok h
  have hm := load_mapped hf
  unfold mapped PAGE_SIZE at hm
  omega

theorem find_first_fit_loop_in {s : State} {size : Nat} {P : Nat → Prop}
    (hcl : ∀ a next, P a → get_next s a = .ok next → next = 0 ∨ P next) :
    ∀ (fuel current p : Nat), current = 0 ∨ P current →
      find_first_fit_loop s size fuel current = .ok p → p ≠ 0 → P p := by
  intro fuel
  induction fuel with
  | zero =>
    intro current p _ h hp
    unfold find_first_fit_loop at h
    split at h
    · cases h; exact absurd rfl hp
    · cases h
  | succ n ih =>
    intro current p hc h hp
    unfold find_first_fit_loop at h
    split at h
    · cases h; exact absurd rfl hp
    · rename_i hne
      have hPc : P current := hc.resolve_left hne
      obtain ⟨fit, hfit, h1⟩ := Res.bind_eq_ok h
      cases fit with
      | true =>
        simp only [if_true] at h1
        cases h1
        exact hPc
      | false =>
        simp only [Bool.false_eq_true, if_false] at h1
        obtain ⟨next, hnext, h2⟩ := Res.bind_eq_ok h1
        exact ih _ _ (hcl _ _ hPc hnext) h2 hp

theorem find_worst_fit_loop_in {s : State} {size : Nat} {P : Nat → Prop}
    (hcl : ∀ a next, P a → get_next s a = .ok next → next = 0 ∨ P next) :
    ∀ (fuel current w p : Nat), current = 0 ∨ P current → w = 0 ∨ P w →
      find_worst_fit_loop s size fuel current w = .ok p → p ≠ 0 → P p := by
  intro fuel
  induction fuel with
  | zero =>
    intro current w p _ hw h hp
    unfold find_worst_fit_loop at h
    split at h
    · cases h; exact hw.resolve_left hp
    · cases h
  | succ n ih =>
    intro current w p hc hw h hp
    unfold find_worst_fit_loop at h
    split at h
    · cases h; exact hw.resolve_left hp
    · rename_i hne
      have hPc : P current := hc.resolve_left hne
      obtain ⟨fit, hfit, h1⟩ := Res.bind_eq_ok h
      obtain ⟨w1, hw1, h2⟩ := Res.bind_eq_ok h1
      obtain ⟨next, hnext, h3⟩ := Res.bind_eq_ok h2
      refine ih _ _ _ (hcl _ _ hPc hnext) ?_ h3 hp
      cases fit with
      | true =>
        simp only [if_true] at hw1
        split at hw1
        · cases hw1; exact Or.inr hPc
        · obtain ⟨cs, _, h4⟩ := Res.bind_eq_ok hw1
          obtain ⟨ws, _, h5⟩ := Res.bind_eq_ok h4
          cases h5
          by_cases hgt : cs > ws
          · rw [if_pos hgt]; exact Or.inr hPc
          · rw [if_neg hgt]; exact hw
      | false =>
        simp only [Bool.false_eq_true, if_false] at hw1
        cases hw1
        exact hw

theorem find_best_fit_loop_in {s : State} {size : Nat} {P : Nat → Prop}
    (hcl : ∀ a next, P a → get_next s a = .ok next → next = 0 ∨ P next) :
    ∀ (fuel current w last p q : Nat), current = 0 ∨ P current → w = 0 ∨ P w → P last →
      find_best_fit_loop s size fuel current w last = .ok (p, q) → (p = 0 ∨ P p) ∧ P q := by
  intro fuel
  induction fuel with
  | zero =>
    intro current w last p q _ hw hl h
    unfold find_best_fit_loop at h
    split at h
    · cases h; exact ⟨hw, hl⟩
    · cases h
  | succ n ih =>
    intro current w last p q hc hw hl h
    unfold find_best_fit_loop at h
    split at h
    · cases h; exact ⟨hw, hl⟩
    · rename_i hne
      have hPc : P current := hc.resolve_left hne
      obtain ⟨fit, hfit, h1⟩ := Res.bind_eq_ok h
      obtain ⟨w1, hw1, h2⟩ := Res.bind_eq_ok h1
      obtain ⟨next, hnext, h3⟩ := Res.bind_eq_ok h2
      refine ih _ _ _ _ _ (hcl _ _ hPc hnext) ?_ hPc h3
      cases fit with
      | true =>
        simp only [if_true] at hw1
        split at hw1
        · cases hw1; exact Or.inr hPc
        · obtain ⟨cs, _, h4⟩ := Res.bind_eq_ok hw1
          obtain ⟨ws, _, h5⟩ := Res.bind_eq_ok h4
          cases h5
          by_cases hgt : cs < ws
          · rw [if_pos hgt]; exact Or.inr hPc
          · rw [if_neg hgt]; exact hw
      | false =>
        simp only [Bool.false_eq_true, if_false] at hw1
        cases hw1
        exact hw

theorem find_next_fit_loop_in {s : State} {start size : Nat} {P : Nat → Prop}
    (hcl : ∀ a next, P a → get_next s a = .ok next → next = 0 ∨ P next)
    (hg : s.global_base = 0 ∨ P s.global_base) :
    ∀ (fuel current p : Nat), current = 0 ∨ P current →
      find_next_fit_loop s start size fuel current = .ok p → p ≠ 0 → P p := by
  intro fuel
  induction fuel with
  | zero =>
    intro current p _ h hp
    unfold find_next_fit_loop at h
    cases h
  | succ n ih =>
    intro current p hc h hp
    unfold find_next_fit_loop at h
    obtain ⟨fit, hfit, h1⟩ := Res.bind_eq_ok h
    have hne := is_fit_ne_zero hfit
    have hPa : P (if current = 0 then s.global_base else current) := by
      by_cases hc0 : current = 0
      · rw [if_pos hc0] at hne ⊢
        exact hg.resolve_left hne
      · rw [if_neg hc0]
        exact hc.resolve_left hc0
    cases fit with
    | true =>
      simp only [if_true] at h1
      cases h1
      exact hPa
    | false =>
      simp only [Bool.false_eq_true, if_false] at h1
      obtain ⟨next, hnext, h2⟩ := Res.bind_eq_ok h1
      split at h2
      · exact ih _ _ (hcl _ _ hPa hnext) h2 hp
      · cases h2; exact absurd rfl hp

theorem find_next_fit_in {fuel : Nat} {s s1 : State} {size p : Nat} {P : Nat → Prop}
    (hcl : ∀ a next, P a → get_next s a = .ok next → next = 0 ∨ P next)
    (hg : s.global_base = 0 ∨ P s.global_base) (hcur : s.last_alloc = 0 ∨ P s.last_alloc)
    (h : find_next_fit fuel s size = .ok (p, s1)) (hp : p ≠ 0) : P p := by
  unfold find_next_fit at h
  obtain ⟨start, hstart, h1⟩ := Res.bind_eq_ok h
  obtain ⟨found, hfound, h2⟩ := Res.bind_eq_ok h1
  have hs : start = 0 ∨ P start := by
    by_cases hl : s.last_alloc ≠ 0
    · rw [if_pos hl] at hstart
      exact hcl _ _ (hcur.resolve_left hl) hstart
    · rw [if_neg hl] at hstart
      have := Res.ok.inj hstart
      rw [← this]
      exact hg
  split at h2
  · cases h2; exact absurd rfl hp
  · cases h2
    exact find_next_fit_loop_in hcl hg fuel start p hs hfound hp

/-- The block that the search of a strategy finds is a block of the chain, when the cursor of
next fit is unset or on a block of the chain. -/
theorem Strategy.searchHits_mem (st : Strategy) {fuel : Nat} {s : State} {r B : Nat}
    {l : List Nat} (hchain : Chain (hdr s) s.global_base l)
    (hcur : st = .NextFit → s.last_alloc = 0 ∨ s.last_alloc ∈ l)
    (hhit : st.searchHits fuel s r B) : B ∈ l := by
  obtain ⟨hcl, hg⟩ := Chain.closed hchain
  cases st
  · obtain ⟨hg0, ⟨last, hfind⟩, hB⟩ := hhit
    exact ((find_best_fit_loop_in (P := fun x => x ∈ l) hcl fuel s.global_base 0 s.global_base
      B last hg (Or.inl rfl) (hg.resolve_left hg0) hfind).1).resolve_left hB
  · obtain ⟨hfind, hB⟩ := hhit
    exact find_first_fit_loop_in (P := fun x => x ∈ l) hcl fuel s.global_base B hg hfind hB
  · obtain ⟨hfind, hB⟩ := hhit
    exact find_worst_fit_loop_in (P := fun x => x ∈ l) hcl fuel s.global_base 0 B hg
      (Or.inl rfl) hfind hB
  · obtain ⟨⟨s1, hfind⟩, hB⟩ := hhit
    exact find_next_fit_in (P := fun x => x ∈ l) hcl hg (hcur rfl) hfind hB

/-- Writing the `free` field of a block of a chain whose headers do not overlap. -/
theorem mark_chain {s : State} {l : List Nat} {B : Nat} {b : block_meta} (g la v : Nat)
    (hv : v < 2 ^ 32) (hapart : Apart l) (hBl : B ∈ l) (hb : hdr s B = some b) :
    hdr ⟨g, la, wr s.mem (B + 8) 4 v, s.heap_start, s.brk, s.limit⟩ B =
        some ⟨b.size, v, b.next⟩ ∧
      (∀ a, a + 24 ≤ B + 8 ∨ B + 12 ≤ a →
        hdr ⟨g, la, wr s.mem (B + 8) 4 v, s.heap_start, s.brk, s.limit⟩ a = hdr s a) ∧
      (∀ a ∈ l, a ≠ B →
        hdr ⟨g, la, wr s.mem (B + 8) 4 v, s.heap_start, s.brk, s.limit⟩ a = hdr s a) ∧
      ∀ p q, Seg (hdr s) p l q →
        Seg (hdr ⟨g, la, wr s.mem (B + 8) 4 v, s.heap_start, s.brk, s.limit⟩) p l q := by
  have h1 := hdr_wr_free s g la hb hv
  have h2 : ∀ a, a + 24 ≤ B + 8 ∨ B + 12 ≤ a →
      hdr ⟨g, la, wr s.mem (B + 8) 4 v, s.heap_start, s.brk, s.limit⟩ a = hdr s a :=
    fun a ha => hdr_wr_disjoint s g la v (by omega)
  have h3 : ∀ a ∈ l, a ≠ B →
      hdr ⟨g, la, wr s.mem (B + 8) 4 v, s.heap_start, s.brk, s.limit⟩ a = hdr s a := by
    intro a ha hne
    have := hapart a ha B hBl hne
    exact h2 a (by omega)
  refine ⟨h1, h2, h3, fun p q hseg => ?_⟩
  refine Seg.congr l p q (fun x hx bx hbx => ?_) hseg
  by_cases hxB : x = B
  · subst hxB
    rw [hb] at hbx
    cases hbx
    exact ⟨_, h1, rfl⟩
  · exact ⟨bx, by rw [h3 x hx hxB]; exact hbx, rfl⟩

/-! ## C19: what free changes -/

/-- C19 (counterexample): with `H = 24`, the calls `best_fit_alloc(100)`, `best_fit_free`,
`next_fit_alloc(100)`, `first_fit_alloc(2 ^ 64 - 140)` (which passes `-116` to `sbrk` and leaves
the break at 4104) and `next_fit_alloc(100)` on the empty arena build the chain of the blocks at
4096 and 4104, whose headers are 8 bytes apart, both of size 100.  Then `first_fit_free(4120)`,
the free of the payload of the block at 4096 (a pointer that `next_fit_alloc` returned), writes
`free = 1` into bytes 4104..4107, which hold the low bytes of the size of the block at 4104: the
payload size of another block changes from 100 to 1. -/
theorem free_changes_size_of_overlapping_block :
    ∃ s1 s2 s3 s4 s5 s6, best_fit_alloc 24 1 (emptyArena 4096 65536) 100 = .ok (4120, s1) ∧
      best_fit_free 24 s1 4120 = .ok s2 ∧ next_fit_alloc 24 1 s2 100 = .ok (4120, s3) ∧
      first_fit_alloc 24 1 s3 (2 ^ 64 - 140) = .ok (4244, s4) ∧ s4.brk = 4104 ∧
      next_fit_alloc 24 1 s4 100 = .ok (4128, s5) ∧
      Chain (hdr s5) s5.global_base [4096, 4104] ∧ sub64 4120 24 ∈ [4096, 4104] ∧
      hdr s5 4096 = some ⟨100, 100, 4104⟩ ∧ hdr s5 4104 = some ⟨100, 4104, 0⟩ ∧
      first_fit_free 24 s5 4120 = .ok s6 ∧
      hdr s6 4096 = some ⟨100, 1, 4104⟩ ∧ hdr s6 4104 = some ⟨1, 4104, 0⟩ := by
  refine ⟨_, _, _, _, _, _, rfl, rfl, rfl, rfl, by decide, rfl, ?_, by decide, by decide,
    by decide, rfl, by decide, by decide⟩
  exact ⟨rfl, by decide, ⟨100, 100, 4104⟩, by decide, rfl, by decide, ⟨100, 4104, 0⟩,
    by decide, rfl⟩

/-- C19 (amended): for each of the four free functions and every non-null `ptr` whose block (at
`ptr - H`) is in the chain, when the headers of the chain do not overlap (any two are at least
`sizeof(block_meta) = 24` bytes apart): free(ptr) succeeds and writes only the four bytes of that
block's `free` field, which becomes 1; that block's `size` and `next`, every other header of the
chain, every header that does not contain those four bytes, `global_base`, `last_alloc` and the
break are unchanged, and the chain is the same list of blocks in the same order, whether or not
the neighbours of the freed block are free (nothing is merged). -/
theorem free_changes_only_the_flag (st : Strategy) (H : Nat) (s : State) (ptr : Nat)
    (l : List Nat) (hp : ptr ≠ 0) (hchain : Chain (hdr s) s.global_base l) (hapart : Apart l)
    (hmem : sub64 ptr H ∈ l) :
    ∃ s1 b, st.free H s ptr = .ok s1 ∧ hdr s (sub64 ptr H) = some b ∧
      s1.mem = wr s.mem (sub64 ptr H + 8) 4 1 ∧
      hdr s1 (sub64 ptr H) = some ⟨b.size, 1, b.next⟩ ∧
      (∀ a ∈ l, a ≠ sub64 ptr H → hdr s1 a = hdr s a) ∧
      (∀ a, a + 24 ≤ sub64 ptr H + 8 ∨ sub64 ptr H + 12 ≤ a → hdr s1 a = hdr s a) ∧
      s1.global_base = s.global_base ∧ s1.last_alloc = s.last_alloc ∧ s1.brk = s.brk ∧
      s1.heap_start = s.heap_start ∧ s1.limit = s.limit ∧
      Chain (hdr s1) s1.global_base l := by
  obtain ⟨b, hb⟩ := Seg.mem_some l _ _ hchain _ hmem
  obtain ⟨h1, h2, h3, h4⟩ :=
    mark_chain s.global_base s.last_alloc 1 (by decide) hapart hmem hb
  refine ⟨⟨s.global_base, s.last_alloc, wr s.mem (sub64 ptr H + 8) 4 1, s.heap_start, s.brk,
    s.limit⟩, b, ?_, hb, rfl, h1, h3, h2, rfl, rfl, rfl, rfl, rfl, h4 _ _ hchain⟩
  rw [st.free_eq H s hp]
  exact set_free_ok 1 hb

/-- Witness for C19: freeing the used block at 4184 of the sample arena, whose two neighbours
are free. -/
theorem free_changes_only_the_flag_witness :
    ∃ s1, Strategy.NextFit.free 24 sampleArena 4208 = .ok s1 ∧
      hdr s1 4184 = some ⟨32, 1, 4240⟩ ∧ hdr s1 4096 = hdr sampleArena 4096 ∧
      hdr s1 4240 = hdr sampleArena 4240 ∧ Chain (hdr s1) s1.global_base [4096, 4184, 4240] := by
  obtain ⟨s1, b, hrun, hb, _, h1, h3, _, _, _, _, _, _, hch⟩ :=
    free_changes_only_the_flag .NextFit 24 sampleArena 4208 [4096, 4184, 4240] (by decide)
      ⟨rfl, by decide, ⟨64, 1, 4184⟩, by decide, rfl, by decide, ⟨32, 0, 4240⟩, by decide, rfl,
        by decide, ⟨16, 1, 0⟩, by decide, rfl⟩
      (by unfold Apart; decide) (by decide)
  have hb2 : b = ⟨32, 0, 4240⟩ := Option.some.inj (hb.symm.trans (by decide))
  subst hb2
  exact ⟨s1, hrun, h1, h3 4096 (by decide) (by decide), h3 4240 (by decide) (by decide), hch⟩

/-! ## C20: a hit without split -/

/-- C20 (counterexample): with `H = 24`, the calls `best_fit_alloc(100)`, `best_fit_free`,
`next_fit_alloc(100)`, `first_fit_alloc(2 ^ 64 - 140)` (which passes `-116` to `sbrk` and leaves
the break at 4104) and `next_fit_alloc(100)` on the empty arena build the chain of the blocks at
4096 and 4104, whose headers are 8 bytes apart, both marked free with size 100.  Then
`first_fit_alloc(50)` hits the block at 4096, and its write of `free = 0` into bytes 4104..4107
clears the size of the block at 4104: the payload size of a block changes from 100 to 0. -/
theorem hit_changes_size_of_overlapping_block :
    ∃ s1 s2 s3 s4 s5 s6, best_fit_alloc 24 1 (emptyArena 4096 65536) 100 = .ok (4120, s1) ∧
      best_fit_free 24 s1 4120 = .ok s2 ∧ next_fit_alloc 24 1 s2 100 = .ok (4120, s3) ∧
      first_fit_alloc 24 1 s3 (2 ^ 64 - 140) = .ok (4244, s4) ∧ s4.brk = 4104 ∧
      next_fit_alloc 24 1 s4 100 = .ok (4128, s5) ∧
      Chain (hdr s5) s5.global_base [4096, 4104] ∧
      hdr s5 4096 = some ⟨100, 100, 4104⟩ ∧ hdr s5 4104 = some ⟨100, 4104, 0⟩ ∧
      Strategy.FirstFit.searchHits 1 s5 50 4096 ∧
      first_fit_alloc 24 1 s5 50 = .ok (4120, s6) ∧
      hdr s6 4096 = some ⟨100, 0, 4104⟩ ∧ hdr s6 4104 = some ⟨0, 4104, 0⟩ := by
  refine ⟨_, _, _, _, _, _, rfl, rfl, rfl, rfl, by decide, rfl, ?_, by decide, by decide,
    ⟨rfl, by decide⟩, rfl, by decide, by decide⟩
  exact ⟨rfl, by decide, ⟨100, 100, 4104⟩, by decide, rfl, by decide, ⟨100, 4104, 0⟩,
    by decide, rfl⟩

/-- C20 (amended): for first fit, next fit and worst fit, every `r > 0` and every state whose
chain headers do not overlap (any two are at least `sizeof(block_meta) = 24` bytes apart) and
whose cursor, for next fit, is unset or on a block of the chain: when the search of allocate(r)
finds the block `B`, that block is a block of the chain, free with `size >= r`, the call returns
its payload `B + H`, and the state afterwards differs from the state before only in the four
bytes of that block's `free` field, now 0, and, for next fit, in `last_alloc`, now `B`: every
`size` and `next`, every other header of the chain, the break and `global_base` are unchanged
(the block is handed out whole, nothing is split), and the chain is the same list of blocks in
the same order. -/
theorem alloc_hit_hands_out_whole_block (st : Strategy) (H fuel : Nat) (s : State) (r B : Nat)
    (l : List Nat) (hst : st ≠ .BestFit) (hr : 0 < r) (hhit : st.searchHits fuel s r B)
    (hchain : Chain (hdr s) s.global_base l) (hapart : Apart l)
    (hcur : st = .NextFit → s.last_alloc = 0 ∨ s.last_alloc ∈ l) :
    ∃ b s1, B ∈ l ∧ hdr s B = some b ∧ b.free ≠ 0 ∧ r ≤ b.size ∧
      st.alloc H fuel s r = .ok ((B + H) % SIZE_MOD, s1) ∧
      s1 = ⟨s.global_base, if st = .NextFit then B else s.last_alloc, wr s.mem (B + 8) 4 0,
        s.heap_start, s.brk, s.limit⟩ ∧
      hdr s1 B = some ⟨b.size, 0, b.next⟩ ∧
      (∀ a ∈ l, a ≠ B → hdr s1 a = hdr s a) ∧
      (∀ a, a + 24 ≤ B + 8 ∨ B + 12 ≤ a → hdr s1 a = hdr s a) ∧
      Chain (hdr s1) s1.global_base l := by
  have hBl : B ∈ l := st.searchHits_mem hchain hcur hhit
  obtain ⟨b, hb⟩ := Seg.mem_some l _ _ hchain _ hBl
  obtain ⟨h1, h2, h3, h4⟩ :=
    mark_chain s.global_base (if st = .NextFit then B else s.last_alloc) 0 (by decide) hapart
      hBl hb
  have hfit : ∀ {x : State}, is_fit s B r = .ok true → b.free ≠ 0 ∧ r ≤ b.size := by
    intro _ hf
    rw [is_fit_of_hdr r hb] at hf
    exact of_decide_eq_true (Res.ok.inj hf)
  cases st
  · exact absurd rfl hst
  · obtain ⟨hfind, hB⟩ := hhit
    have hf := hfit (x := s) (find_first_fit_loop_hit _ _ _ _ _ hfind hB)
    refine ⟨b, _, hBl, hb, hf.1, hf.2, ?_, rfl, h1, h3, h2, h4 _ _ hchain⟩
    show first_fit_alloc H fuel s r = _
    unfold first_fit_alloc
    rw [if_neg (by omega), hfind]
    simp only [Res.bind_ok, if_neg hB]
    rw [set_free_ok 0 hb]
    rfl
  · obtain ⟨hfind, hB⟩ := hhit
    have hf := hfit (x := s)
      (find_worst_fit_loop_hit _ _ _ _ _ _ hfind hB (fun h0 => absurd rfl h0))
    refine ⟨b, _, hBl, hb, hf.1, hf.2, ?_, rfl, h1, h3, h2, h4 _ _ hchain⟩
    show worst_fit_alloc H fuel s r = _
    unfold worst_fit_alloc
    rw [if_neg (by omega), hfind]
    simp only [Res.bind_ok, if_neg hB]
    rw [set_free_ok 0 hb]
    rfl
  · obtain ⟨⟨s1, hfind⟩, hB⟩ := hhit
    obtain ⟨hfit1, hs1⟩ := find_next_fit_hit hfind hB
    have hf := hfit (x := s) hfit1
    subst hs1
    refine ⟨b, _, hBl, hb, hf.1, hf.2, ?_, rfl, h1, h3, h2, h4 _ _ hchain⟩
    show next_fit_alloc H fuel s r = _
    unfold next_fit_alloc
    rw [if_neg (by omega), hfind]
    simp only [Res.bind_ok, if_neg hB]
    have hb1 : hdr { s with last_alloc := B } B = some b :=
      (congrFun (hdr_congr rfl rfl rfl) B).trans hb
    rw [set_free_ok 0 hb1]
    rfl

/-- Witness for C20: worst fit on the sample arena hands out the whole block of 64 bytes at 4096
for a request of 10 bytes. -/
theorem alloc_hit_hands_out_whole_block_witness :
    ∃ s1, Strategy.WorstFit.alloc 24 3 sampleArena 10 = .ok ((4096 + 24) % SIZE_MOD, s1) ∧
      hdr s1 4096 = some ⟨64, 0, 4184⟩ ∧ hdr s1 4184 = hdr sampleArena 4184 ∧
      hdr s1 4240 = hdr sampleArena 4240 ∧ Chain (hdr s1) s1.global_base [4096, 4184, 4240] := by
  obtain ⟨b, s1, _, hb, _, _, hrun, _, h1, h3, _, hch⟩ :=
    alloc_hit_hands_out_whole_block .WorstFit 24 3 sampleArena 10 4096 [4096, 4184, 4240]
      (by decide) (by decide) ⟨rfl, by decide⟩
      ⟨rfl, by decide, ⟨64, 1, 4184⟩, by decide, rfl, by decide, ⟨32, 0, 4240⟩, by decide, rfl,
        by decide, ⟨16, 1, 0⟩, by decide, rfl⟩
      (by unfold Apart; decide) (fun h => absurd h (by decide))
  have hb2 : b = ⟨64, 1, 4184⟩ := Option.some.inj (hb.symm.trans (by decide))
  subst hb2
  exact ⟨s1, hrun, h1, h3 4184 (by decide) (by decide), h3 4240 (by decide) (by decide), hch⟩

/-! ## C21: the byte count passed to `sbrk` -/

theorem Strategy.request_space_fail (st : Strategy) {H : Nat} {s : State} {last size : Nat}
    (hfail : (sbrk s (to_intptr ((size + H) % SIZE_MOD))).1 = none) :
    st.request_space H s last size = .ok (0, s) := by
  cases st
  · exact request_space_best_fit_fail hfail
  · exact request_space_first_fit_fail hfail
  · exact request_space_worst_fit_fail hfail
  · exact request_space_next_fit_fail hfail

theorem Strategy.request_space_null (st : Strategy) {H : Nat} {s s1 : State} {last size : Nat}
    (h : st.request_space H s last size = .ok (0, s1)) :
    s1 = s ∧ (sbrk s (to_intptr ((size + H) % SIZE_MOD))).1 = none := by
  cases st
  · exact request_space_best_fit_null h
  · exact request_space_first_fit_null h
  · exact request_space_first_fit_null (show request_space_first_fit H s last size = _ from h)
  · exact request_space_next_fit_null h

/-- What a successful growth routine has obtained from `sbrk`. -/
theorem Strategy.request_space_sbrk (st : Strategy) {H : Nat} {s s1 : State}
    {last size blk : Nat} (h : st.request_space H s last size = .ok (blk, s1)) (hb : blk ≠ 0) :
    ∃ sb, sbrk s (to_intptr ((size + H) % SIZE_MOD)) = (some blk, sb) ∧ s1.brk = sb.brk ∧
      (last = 0 ∨ last + 24 ≤ s.brk → get_size s1 blk = .ok (size % SIZE_MOD)) := by
  cases st
  · obtain ⟨sb, s2, s3, s4, hsb, h2, h3, h4, h5⟩ := request_space_best_fit_inv h hb
    refine ⟨sb, hsb, ?_, fun _ => (request_space_best_fit_header h hb).2.1⟩
    rw [(store_frame h5).2.2.2.1, (store_frame h4).2.2.2.1, (store_frame h3).2.2.2.1]
    rcases h2 with ⟨_, h2⟩ | ⟨_, h2⟩
    · exact (store_frame h2).2.2.2.1
    · rw [h2]
  · obtain ⟨sb, s2, s3, s4, hsb, h2, h3, h4, h5⟩ := request_space_first_fit_inv h hb
    refine ⟨sb, hsb, ?_, fun hl =>
      ((request_space_first_fit_header h hb).2.2.2 (by omega)).1⟩
    have e : s4.brk = sb.brk := by
      rw [(store_frame h4).2.2.2.1, (store_frame h3).2.2.2.1, (store_frame h2).2.2.2.1]
    rcases h5 with ⟨_, h5⟩ | ⟨_, h5⟩
    · rw [(store_frame h5).2.2.2.1, e]
    · rw [h5, e]
  · have h0 : request_space_first_fit H s last size = .ok (blk, s1) := h
    obtain ⟨sb, s2, s3, s4, hsb, h2, h3, h4, h5⟩ := request_space_first_fit_inv h0 hb
    refine ⟨sb, hsb, ?_, fun hl =>
      ((request_space_first_fit_header h0 hb).2.2.2 (by omega)).1⟩
    have e : s4.brk = sb.brk := by
      rw [(store_frame h4).2.2.2.1, (store_frame h3).2.2.2.1, (store_frame h2).2.2.2.1]
    rcases h5 with ⟨_, h5⟩ | ⟨_, h5⟩
    · rw [(store_frame h5).2.2.2.1, e]
    · rw [h5, e]
  · obtain ⟨sb, s2, s3, s4, hsb, h2, h3, h4, h5⟩ := request_space_next_fit_inv h hb
    refine ⟨sb, hsb, ?_, fun hl =>
      ((request_space_next_fit_header h hb).2.2.2 (by omega)).1⟩
    have e : s4.brk = sb.brk := by
      rw [(store_frame h4).2.2.2.1, (store_frame h3).2.2.2.1, (store_frame h2).2.2.2.1]
    rcases h5 with ⟨_, s5, h5, h6⟩ | ⟨_, h5⟩
    · rw [h6]
      show s5.brk = _
      rw [(store_frame h5).2.2.2.1, e]
    · rw [h5]
      exact e

/-- C21 (counterexample): with `H = 24`, (1) for a request of `r = 2 ^ 64 - 1` bytes the sum
`size + sizeof(block_meta)` wraps modulo `2 ^ 64` and the byte count passed to `sbrk` is 23: each
of the four growth routines succeeds on the empty arena and records the size `2 ^ 64 - 1` in the
new header, while the break moves by only 23 bytes, less than one header; (2) for a request of
`r = 2 ^ 64 - 100` bytes the sum `2 ^ 64 - 76` does not wrap, but it is converted to
`intptr_t`, the parameter type of `sbrk`, and the byte count passed is `-76`: after
`best_fit_alloc(100)` on the empty arena (break at 4220) `request_space_first_fit` succeeds,
records the size `2 ^ 64 - 100` in the header at 4220 and moves the break down to 4144. -/
theorem growth_request_wraps_or_turns_negative :
    to_intptr ((2 ^ 64 - 1 + 24) % SIZE_MOD) = 23 ∧
    (∃ s1, request_space_first_fit 24 (emptyArena 4096 65536) 0 (2 ^ 64 - 1) = .ok (4096, s1) ∧
      get_size s1 4096 = .ok (2 ^ 64 - 1) ∧ s1.brk = (emptyArena 4096 65536).brk + 23) ∧
    (∃ s1, request_space_worst_fit 24 (emptyArena 4096 65536) 0 (2 ^ 64 - 1) = .ok (4096, s1) ∧
      get_size s1 4096 = .ok (2 ^ 64 - 1) ∧ s1.brk = (emptyArena 4096 65536).brk + 23) ∧
    (∃ s1, request_space_next_fit 24 (emptyArena 4096 65536) 0 (2 ^ 64 - 1) = .ok (4096, s1) ∧
      get_size s1 4096 = .ok (2 ^ 64 - 1) ∧ s1.brk = (emptyArena 4096 65536).brk + 23) ∧
    (∃ s1, request_space_best_fit 24 (emptyArena 4096 65536) 0 (2 ^ 64 - 1) = .ok (4096, s1) ∧
      get_size s1 4096 = .ok (2 ^ 64 - 1) ∧ s1.brk = (emptyArena 4096 65536).brk + 23) ∧
    (23 : Nat) < 24 ∧ (23 : Nat) ≠ (2 ^ 64 - 1) + 24 ∧
    to_intptr ((2 ^ 64 - 100 + 24) % SIZE_MOD) = -76 ∧ 2 ^ 64 - 100 + 24 < SIZE_MOD ∧
    ∃ s1 s2, best_fit_alloc 24 1 (emptyArena 4096 65536) 100 = .ok (4120, s1) ∧
      s1.brk = 4220 ∧ request_space_first_fit 24 s1 0 (2 ^ 64 - 100) = .ok (4220, s2) ∧
      s2.brk = 4144 ∧ get_size s2 4220 = .ok (2 ^ 64 - 100) := by
  refine ⟨by decide, ⟨_, rfl, by decide, by decide⟩, ⟨_, rfl, by decide, by decide⟩,
    ⟨_, rfl, by decide, by decide⟩, ⟨_, rfl, by decide, by decide⟩, by decide, by decide,
    by decide, by decide, _, _, rfl, by decide, rfl, by decide, by decide⟩

/-- C21 (amended): for each of the four growth routines and every request `r` such that
`r + H` is representable in `intptr_t`, the parameter type of `sbrk` (`r + H < 2 ^ 63`), the
byte count passed to `sbrk` is exactly `r + H`: the routine fails, changing nothing, exactly when
`sbrk` denies `r + H` bytes, and when it returns a block, that block starts at the old break, the
break has moved up by exactly `r + H`, and the new header records the size `r` (when the break
lies past the header of `last`). -/
theorem growth_request_exact_without_wrap (st : Strategy) (H : Nat) (s : State)
    (last r : Nat) (hno : r + H < 2 ^ 63) :
    to_intptr ((r + H) % SIZE_MOD) = ((r + H : Nat) : Int) ∧
      ((sbrk s ((r + H : Nat) : Int)).1 = none → st.request_space H s last r = .ok (0, s)) ∧
      (∀ s1, st.request_space H s last r = .ok (0, s1) →
        (sbrk s ((r + H : Nat) : Int)).1 = none ∧ s1 = s) ∧
      ∀ blk s1, st.request_space H s last r = .ok (blk, s1) → blk ≠ 0 →
        blk = s.brk ∧ s1.brk = s.brk + (r + H) ∧ s.brk + (r + H) ≤ s.limit ∧
          (last = 0 ∨ last + 24 ≤ s.brk → get_size s1 blk = .ok r) := by
  have hmod : (r + H) % SIZE_MOD = r + H := Nat.mod_eq_of_lt (by unfold SIZE_MOD; omega)
  have hint : to_intptr ((r + H) % SIZE_MOD) = ((r + H : Nat) : Int) := by
    rw [hmod]; exact to_intptr_of_lt hno
  have hr64 : r % SIZE_MOD = r := Nat.mod_eq_of_lt (by unfold SIZE_MOD; omega)
  refine ⟨hint, fun hfail => st.request_space_fail (by rw [hint]; exact hfail), ?_, ?_⟩
  · intro s1 h
    have := st.request_space_null h
    rw [hint] at this
    exact ⟨this.2, this.1⟩
  · intro blk s1 h hb
    obtain ⟨sb, hsb, hbrk, hsize⟩ := st.request_space_sbrk h hb
    rw [hint] at hsb
    obtain ⟨hblk, _, hle, _, hnew, _⟩ := sbrk_some hsb
    rw [hr64] at hsize
    refine ⟨hblk, ?_, ?_, hsize⟩
    · rw [hbrk]; omega
    · omega

/-- Witness for C21: a request of 64 bytes with `H = 24` on the empty arena moves the break by
88 bytes. -/
theorem growth_request_exact_without_wrap_witness :
    ∃ s1, Strategy.NextFit.request_space 24 (emptyArena 4096 65536) 0 64 = .ok (4096, s1) ∧
      s1.brk = 4096 + (64 + 24) ∧ get_size s1 4096 = .ok 64 := by
  obtain ⟨_, h2, _, h4⟩ :=
    (growth_request_exact_without_wrap .NextFit 24 (emptyArena 4096 65536) 0 64
      (by decide)).2.2.2 4096 _ rfl (by decide)
  exact ⟨_, rfl, h2, h4 (Or.inl rfl)⟩

/-! ## C22: where a returned block comes from -/

theorem Layout.apart {H : Nat} {s : State} {bl : List Nat} (hlay : Layout H s bl) (hH : 24 ≤ H)
    {a a2 : Nat} (ha : a ∈ bl) (ha2 : a2 ∈ bl) (hne : a ≠ a2) : a + 24 ≤ a2 ∨ a2 + 24 ≤ a := by
  obtain ⟨_, _, _, _, hdis⟩ := hlay
  rcases Nat.lt_or_gt_of_ne hne with hlt | hgt
  · have := hdis a ha a2 ha2 hlt
    omega
  · have := hdis a2 ha2 a ha hgt
    omega

theorem Layout.below {H : Nat} {s : State} {bl : List Nat} (hlay : Layout H s bl) (hH : 24 ≤ H)
    {a : Nat} (ha : a ∈ bl) : ∃ b, hdr s a = some b ∧ a + H + b.size ≤ s.brk ∧ a + 24 ≤ s.brk := by
  obtain ⟨b, hb, hle⟩ := hlay.2.2.2.1 a ha
  exact ⟨b, hb, hle, by omega⟩

theorem Layout.extent {H : Nat} {s : State} {bl : List Nat} (hlay : Layout H s bl)
    {a : Nat} {b : block_meta} (ha : a ∈ bl) (hb : hdr s a = some b) :
    mapped s a (H + b.size) := by
  obtain ⟨b2, hb2, hle⟩ := hlay.2.2.2.1 a ha
  rw [hb] at hb2
  cases hb2
  have hm := (hdr_eq_some hb).1
  have hpa := le_page_align s.brk
  have h64 := hlay.2.2.1
  unfold mapped at hm ⊢
  omega

/-- Growth keeps the `size` and `free` fields of every header below the break that is the header
of `last` or does not overlap it. -/
theorem Strategy.request_space_kept (st : Strategy) {H : Nat} {s s1 : State}
    {last size blk : Nat} (h : st.request_space H s last size = .ok (blk, s1)) (hb : blk ≠ 0)
    (hno : size + H < 2 ^ 63) :
    blk = s.brk ∧ s.brk + (size + H) < SIZE_MOD ∧
      ∀ x bx, hdr s x = some bx → x + 24 ≤ s.brk →
        (last = 0 ∨ x = last ∨ x + 24 ≤ last ∨ last + 24 ≤ x) →
        ∃ b1, hdr s1 x = some b1 ∧ b1.size = bx.size ∧ b1.free = bx.free := by
  have hmod : (size + H) % SIZE_MOD = size + H := Nat.mod_eq_of_lt (by unfold SIZE_MOD; omega)
  have hint : to_intptr ((size + H) % SIZE_MOD) = ((size + H : Nat) : Int) := by
    rw [hmod]; exact to_intptr_of_lt hno
  -- the three writes of the new header and the link of `last`, in either order
  have first : ∀ {t : State}, request_space_first_fit H s last size = .ok (blk, t) →
      blk = s.brk ∧ s.brk + (size + H) < SIZE_MOD ∧
      ∀ x bx, hdr s x = some bx → x + 24 ≤ s.brk →
        (last = 0 ∨ x = last ∨ x + 24 ≤ last ∨ last + 24 ≤ x) →
        ∃ b1, hdr t x = some b1 ∧ b1.size = bx.size ∧ b1.free = bx.free := by
    intro t ht
    obtain ⟨sb, s2, s3, s4, hsb, h2, h3, h4, h5⟩ := request_space_first_fit_inv ht hb
    rw [hint] at hsb
    obtain ⟨hblk, _, _, hlt, _⟩ := sbrk_some hsb
    have h64 : s.brk + (size + H) < SIZE_MOD := by omega
    refine ⟨hblk, h64, fun x bx hx hxb hxl => ?_⟩
    have e4 : hdr s4 x = some bx := by
      rw [hdr_set_next_other h4 (by omega), hdr_set_free_other h3 (by omega),
        hdr_set_size_other h2 (by omega)]
      exact sbrk_hdr hsb (by omega) hx
    rcases h5 with ⟨hl, h5⟩ | ⟨hl, h5⟩
    · by_cases hxe : x = last
      · subst hxe
        exact ⟨_, hdr_set_next h5 e4 (by omega), rfl, rfl⟩
      · exact ⟨bx, by rw [hdr_set_next_other h5 (by omega)]; exact e4, rfl, rfl⟩
    · subst h5
      exact ⟨bx, e4, rfl, rfl⟩
  cases st
  · obtain ⟨sb, s2, s3, s4, hsb, h2, h3, h4, h5⟩ := request_space_best_fit_inv h hb
    rw [hint] at hsb
    obtain ⟨hblk, _, _, hlt, _⟩ := sbrk_some hsb
    have h64 : s.brk + (size + H) < SIZE_MOD := by omega
    refine ⟨hblk, h64, fun x bx hx hxb hxl => ?_⟩
    have eb : hdr sb x = some bx := sbrk_hdr hsb (by omega) hx
    have e2 : ∃ b1, hdr s2 x = some b1 ∧ b1.size = bx.size ∧ b1.free = bx.free := by
      rcases h2 with ⟨hl, h2⟩ | ⟨hl, h2⟩
      · by_cases hxe : x = last
        · subst hxe
          exact ⟨_, hdr_set_next h2 eb (by omega), rfl, rfl⟩
        · exact ⟨bx, by rw [hdr_set_next_other h2 (by omega)]; exact eb, rfl, rfl⟩
      · subst h2
        exact ⟨bx, eb, rfl, rfl⟩
    obtain ⟨b1, hb1, e⟩ := e2
    refine ⟨b1, ?_, e⟩
    rw [hdr_set_free_other h5 (by omega), hdr_set_next_other h4 (by omega),
      hdr_set_size_other h3 (by omega)]
    exact hb1
  · exact first h
  · exact first h
  · obtain ⟨sb, s2, s3, s4, hsb, h2, h3, h4, h5⟩ := request_space_next_fit_inv h hb
    rw [hint] at hsb
    obtain ⟨hblk, _, _, hlt, _⟩ := sbrk_some hsb
    have h64 : s.brk + (size + H) < SIZE_MOD := by omega
    refine ⟨hblk, h64, fun x bx hx hxb hxl => ?_⟩
    have e4 : hdr s4 x = some bx := by
      rw [hdr_set_next_other h4 (by omega), hdr_set_free_other h3 (by omega),
        hdr_set_size_other h2 (by omega)]
      exact sbrk_hdr hsb (by omega) hx
    rcases h5 with ⟨hl, s5, h5, h6⟩ | ⟨hl, h6⟩
    · subst h6
      rw [show hdr (⟨s5.global_base, blk, s5.mem, s5.heap_start, s5.brk, s5.limit⟩ : State) =
        hdr s5 from hdr_congr rfl rfl rfl]
      by_cases hxe : x = last
      · subst hxe
        exact ⟨_, hdr_set_next h5 e4 (by omega), rfl, rfl⟩
      · exact ⟨bx, by rw [hdr_set_next_other h5 (by omega)]; exact e4, rfl, rfl⟩
    · subst h6
      rw [show hdr (⟨blk, blk, s4.mem, s4.heap_start, s4.brk, s4.limit⟩ : State) =
        hdr s4 from hdr_congr rfl rfl rfl]
      exact ⟨bx, e4, rfl, rfl⟩

/-- Growth on a heap laid out without overlap: the new block is at the old break, which is not a
block of the heap, and every block of the heap keeps its `free` field. -/
theorem Strategy.grow_flags (st : Strategy) {H : Nat} {s s2 : State} {last r blk : Nat}
    {bl : List Nat} (hH : 24 ≤ H) (hno : r + H < 2 ^ 63) (hlay : Layout H s bl)
    (hlast : last = 0 ∨ last ∈ bl)
    (h : st.request_space H s last r = .ok (blk, s2)) (hb : blk ≠ 0) :
    blk = s.brk ∧ blk ∉ bl ∧ (blk + H) % SIZE_MOD = blk + H ∧
      ∀ a ∈ bl, ∃ b b1, hdr s a = some b ∧ hdr s2 a = some b1 ∧ b1.free = b.free := by
  obtain ⟨hblk, h64, hkept⟩ := st.request_space_kept h hb hno
  refine ⟨hblk, ?_, Nat.mod_eq_of_lt (by omega), fun a ha => ?_⟩
  · intro hin
    obtain ⟨_, _, _, hlt⟩ := hlay.below hH hin
    omega
  · obtain ⟨b, hab, _, hlt⟩ := hlay.below hH ha
    have hsep : last = 0 ∨ a = last ∨ a + 24 ≤ last ∨ last + 24 ≤ a := by
      rcases hlast with h0 | hl
      · exact Or.inl h0
      · by_cases hal : a = last
        · exact Or.inr (Or.inl hal)
        · exact Or.inr (Or.inr (hlay.apart hH ha hl hal))
    obtain ⟨b1, hb1, _, hf⟩ := hkept a b hab hlt hsep
    exact ⟨b, b1, hab, hb1, hf⟩

/-- A hit without split on a heap laid out without overlap: every other block of the heap keeps
its header. -/
theorem hit_flags {H : Nat} {s t s1 : State} {B : Nat} {bl : List Nat} (hH : 24 ≤ H)
    (hlay : Layout H s bl) (hB : B ∈ bl) (ht : hdr t = hdr s)
    (hset : set_free t B 0 = .ok s1) :
    (B + H) % SIZE_MOD = B + H ∧
      ∀ a ∈ bl, a ≠ B → ∃ b b1, hdr s a = some b ∧ hdr s1 a = some b1 ∧ b1.free = b.free := by
  obtain ⟨_, _, hle, _⟩ := hlay.below hH hB
  have h64 := hlay.2.2.1
  refine ⟨Nat.mod_eq_of_lt (by omega), fun a ha hne => ?_⟩
  obtain ⟨b, hab, _, _⟩ := hlay.below hH ha
  have := hlay.apart hH ha hB hne
  exact ⟨b, b, hab, by rw [hdr_set_free_other hset (by omega), ht]; exact hab, rfl⟩

theorem fits_of_is_fit {s : State} {B r : Nat} {b : block_meta} (hb : hdr s B = some b)
    (hfit : is_fit s B r = .ok true) : Fits (hdr s) r B := by
  rw [is_fit_of_hdr r hb] at hfit
  have := of_decide_eq_true (Res.ok.inj hfit)
  exact ⟨b, hb, this.1, this.2⟩

theorem first_fit_alloc_origin {H fuel : Nat} {s s1 : State} {r p : Nat} {l bl : List Nat}
    (hr : 0 < r) (hH : 24 ≤ H) (hno : r + H < 2 ^ 63) (hlay : Layout H s bl)
    (hchain : Chain (hdr s) s.global_base l) (hsub : ∀ a ∈ l, a ∈ bl)
    (h : first_fit_alloc H fuel s r = .ok (p, s1)) (hp : p ≠ 0) :
    ∃ B, p = B + H ∧ ((B ∈ l ∧ Fits (hdr s) r B) ∨ (B ∉ bl ∧ B = s.brk)) ∧
      ∀ a ∈ bl, a ≠ B → ∃ b b1, hdr s a = some b ∧ hdr s1 a = some b1 ∧ b1.free = b.free := by
  unfold first_fit_alloc at h
  rw [if_neg (by omega)] at h
  obtain ⟨block, hfind, h1⟩ := Res.bind_eq_ok h
  by_cases hb : block = 0
  · rw [if_pos hb] at h1
    obtain ⟨⟨blk, s2⟩, hreq, h2⟩ := Res.bind_eq_ok h1
    by_cases hz : blk = 0
    · simp only [hz, if_true] at h2
      cases h2
      exact absurd rfl hp
    · simp only [hz, if_false] at h2
      cases h2
      obtain ⟨hblk, hnot, hptr, hflags⟩ :=
        Strategy.grow_flags .FirstFit hH hno hlay (Or.inl rfl) hreq hz
      exact ⟨blk, hptr, Or.inr ⟨hnot, hblk⟩, fun a ha _ => hflags a ha⟩
  · rw [if_neg hb] at h1
    obtain ⟨s2, hset, h2⟩ := Res.bind_eq_ok h1
    cases h2
    have hBl : block ∈ l :=
      Strategy.searchHits_mem .FirstFit hchain (fun h0 => absurd h0 (by decide)) ⟨hfind, hb⟩
    obtain ⟨b, hbB⟩ := Seg.mem_some l _ _ hchain _ hBl
    obtain ⟨hptr, hflags⟩ := hit_flags hH hlay (hsub _ hBl) rfl hset
    exact ⟨block, hptr,
      Or.inl ⟨hBl, fits_of_is_fit hbB (find_first_fit_loop_hit _ _ _ _ _ hfind hb)⟩, hflags⟩

theorem worst_fit_alloc_origin {H fuel : Nat} {s s1 : State} {r p : Nat} {l bl : List Nat}
    (hr : 0 < r) (hH : 24 ≤ H) (hno : r + H < 2 ^ 63) (hlay : Layout H s bl)
    (hchain : Chain (hdr s) s.global_base l) (hsub : ∀ a ∈ l, a ∈ bl)
    (h : worst_fit_alloc H fuel s r = .ok (p, s1)) (hp : p ≠ 0) :
    ∃ B, p = B + H ∧ ((B ∈ l ∧ Fits (hdr s) r B) ∨ (B ∉ bl ∧ B = s.brk)) ∧
      ∀ a ∈ bl, a ≠ B → ∃ b b1, hdr s a = some b ∧ hdr s1 a = some b1 ∧ b1.free = b.free := by
  unfold worst_fit_alloc at h
  rw [if_neg (by omega)] at h
  obtain ⟨block, hfind, h1⟩ := Res.bind_eq_ok h
  by_cases hb : block = 0
  · rw [if_pos hb] at h1
    obtain ⟨⟨blk, s2⟩, hreq, h2⟩ := Res.bind_eq_ok h1
    by_cases hz : blk = 0
    · simp only [hz, if_true] at h2
      cases h2
      exact absurd rfl hp
    · simp only [hz, if_false] at h2
      cases h2
      obtain ⟨hblk, hnot, hptr, hflags⟩ :=
        Strategy.grow_flags .WorstFit hH hno hlay (Or.inl rfl) hreq hz
      exact ⟨blk, hptr, Or.inr ⟨hnot, hblk⟩, fun a ha _ => hflags a ha⟩
  · rw [if_neg hb] at h1
    obtain ⟨s2, hset, h2⟩ := Res.bind_eq_ok h1
    cases h2
    have hBl : block ∈ l :=
      Strategy.searchHits_mem .WorstFit hchain (fun h0 => absurd h0 (by decide)) ⟨hfind, hb⟩
    obtain ⟨b, hbB⟩ := Seg.mem_some l _ _ hchain _ hBl
    obtain ⟨hptr, hflags⟩ := hit_flags hH hlay (hsub _ hBl) rfl hset
    exact ⟨block, hptr,
      Or.inl ⟨hBl, fits_of_is_fit hbB
        (find_worst_fit_loop_hit _ _ _ _ _ _ hfind hb (fun h0 => absurd rfl h0))⟩, hflags⟩

theorem next_fit_alloc_origin {H fuel : Nat} {s s1 : State} {r p : Nat} {l bl : List Nat}
    (hr : 0 < r) (hH : 24 ≤ H) (hno : r + H < 2 ^ 63) (hlay : Layout H s bl)
    (hchain : Chain (hdr s) s.global_base l) (hsub : ∀ a ∈ l, a ∈ bl)
    (hcur : s.last_alloc = 0 ∨ s.last_alloc ∈ l)
    (h : next_fit_alloc H fuel s r = .ok (p, s1)) (hp : p ≠ 0) :
    ∃ B, p = B + H ∧ ((B ∈ l ∧ Fits (hdr s) r B) ∨ (B ∉ bl ∧ B = s.brk)) ∧
      ∀ a ∈ bl, a ≠ B → ∃ b b1, hdr s a = some b ∧ hdr s1 a = some b1 ∧ b1.free = b.free := by
  unfold next_fit_alloc at h
  rw [if_neg (by omega)] at h
  obtain ⟨⟨block, sf⟩, hfind, h1⟩ := Res.bind_eq_ok h
  by_cases hb : block = 0
  · subst hb
    have hsf := find_next_fit_miss hfind
    subst hsf
    simp only [if_true] at h1
    obtain ⟨⟨blk, s2⟩, hreq, h2⟩ := Res.bind_eq_ok h1
    by_cases hz : blk = 0
    · simp only [hz, if_true] at h2
      cases h2
      exact absurd rfl hp
    · simp only [hz, if_false] at h2
      cases h2
      obtain ⟨hblk, hnot, hptr, hflags⟩ :=
        Strategy.grow_flags .NextFit hH hno hlay (hcur.imp id (hsub _)) hreq hz
      exact ⟨blk, hptr, Or.inr ⟨hnot, hblk⟩, fun a ha _ => hflags a ha⟩
  · simp only [hb, if_false] at h1
    obtain ⟨s2, hset, h2⟩ := Res.bind_eq_ok h1
    cases h2
    have hBl : block ∈ l :=
      Strategy.searchHits_mem .NextFit hchain (fun _ => hcur) ⟨⟨_, hfind⟩, hb⟩
    obtain ⟨hfit, rfl⟩ := find_next_fit_hit hfind hb
    obtain ⟨b, hbB⟩ := Seg.mem_some l _ _ hchain _ hBl
    obtain ⟨hptr, hflags⟩ :=
      hit_flags (t := { s with last_alloc := block }) hH hlay (hsub _ hBl)
        (hdr_congr rfl rfl rfl) hset
    exact ⟨block, hptr, Or.inl ⟨hBl, fits_of_is_fit hbB hfit⟩, hflags⟩

theorem best_fit_alloc_origin {H fuel : Nat} {s s1 : State} {r p : Nat} {l bl : List Nat}
    (hr : 0 < r) (hH : 24 ≤ H) (hno : r + H < 2 ^ 63) (hlay : Layout H s bl)
    (hchain : Chain (hdr s) s.global_base l) (hsub : ∀ a ∈ l, a ∈ bl)
    (h : best_fit_alloc H fuel s r = .ok (p, s1)) (hp : p ≠ 0) :
    ∃ B, p = B + H ∧ ((B ∈ l ∧ Fits (hdr s) r B) ∨ (B ∉ bl ∧ B = s.brk)) ∧
      ∀ a ∈ bl, a ≠ B → ∃ b b1, hdr s a = some b ∧ hdr s1 a = some b1 ∧ b1.free = b.free := by
  have horig := h
  unfold best_fit_alloc at h
  rw [if_neg (by omega)] at h
  by_cases hg : s.global_base = 0
  · rw [if_pos hg] at h
    obtain ⟨⟨blk, s2⟩, hreq, h2⟩ := Res.bind_eq_ok h
    by_cases hz : blk = 0
    · simp only [hz, if_true] at h2
      cases h2
      exact absurd rfl hp
    · simp only [hz, if_false] at h2
      cases h2
      obtain ⟨hblk, hnot, hptr, hflags⟩ :=
        Strategy.grow_flags .BestFit hH hno hlay (Or.inl rfl) hreq hz
      refine ⟨blk, hptr, Or.inr ⟨hnot, hblk⟩, fun a ha _ => ?_⟩
      obtain ⟨b, b1, e1, e2, e3⟩ := hflags a ha
      exact ⟨b, b1, e1, (congrFun (hdr_congr rfl rfl rfl) a).trans e2, e3⟩
  · rw [if_neg hg] at h
    obtain ⟨⟨block, last⟩, hfind, h1⟩ := Res.bind_eq_ok h
    obtain ⟨hcl, hgl⟩ := Chain.closed hchain
    have hin := find_best_fit_loop_in (P := fun x => x ∈ l) hcl fuel s.global_base 0
      s.global_base block last hgl (Or.inl rfl) (hgl.resolve_left hg) hfind
    by_cases hb : block = 0
    · subst hb
      simp only [if_true] at h1
      obtain ⟨⟨blk, s2⟩, hreq, h2⟩ := Res.bind_eq_ok h1
      by_cases hz : blk = 0
      · simp only [hz, if_true] at h2
        cases h2
        exact absurd rfl hp
      · simp only [hz, if_false] at h2
        cases h2
        obtain ⟨hblk, hnot, hptr, hflags⟩ :=
          Strategy.grow_flags .BestFit hH hno hlay (Or.inr (hsub _ hin.2)) hreq hz
        exact ⟨blk, hptr, Or.inr ⟨hnot, hblk⟩, fun a ha _ => hflags a ha⟩
    · have hBl : block ∈ l := hin.1.resolve_left hb
      obtain ⟨b, hbB⟩ := Seg.mem_some l _ _ hchain _ hBl
      have hfit := find_best_fit_loop_hit s r fuel s.global_base 0 s.global_base block last
        hfind hb (fun h0 => absurd rfl h0)
      obtain ⟨t, hrun, _, _, _, hsplit, hwhole⟩ :=
        best_fit_hit_view H fuel s r block last b hr hH hg hfind hb hbB
          (by unfold SIZE_MOD; omega) (hlay.extent (hsub _ hBl) hbB)
      rw [hrun] at horig
      cases horig
      refine ⟨block, rfl, Or.inl ⟨hBl, fits_of_is_fit hbB hfit⟩, fun a ha hne => ?_⟩
      obtain ⟨ba, hab, _, _⟩ := hlay.below hH ha
      have hsep : a + 24 ≤ block ∨ block + H + b.size ≤ a := by
        obtain ⟨_, _, _, _, hdis⟩ := hlay
        rcases Nat.lt_or_gt_of_ne hne with hlt | hgt
        · have := hdis a ha block (hsub _ hBl) hlt
          omega
        · have := hdis block (hsub _ hBl) a ha hgt
          rw [sizeAt_of_eq hbB] at this
          exact Or.inr this
      refine ⟨ba, ba, hab, ?_, rfl⟩
      by_cases hc : b.size > r + H + 4
      · rw [(hsplit hc).2.2.1 a hsep]
        exact hab
      · rw [(hwhole (by omega)).2.1 a (by omega)]
        exact hab

theorem Strategy.alloc_origin (st : Strategy) {H fuel : Nat} {s s1 : State} {r p : Nat}
    {l bl : List Nat} (hr : 0 < r) (hH : 24 ≤ H) (hno : r + H < 2 ^ 63) (hlay : Layout H s bl)
    (hchain : Chain (hdr s) s.global_base l) (hsub : ∀ a ∈ l, a ∈ bl)
    (hcur : st = .NextFit → s.last_alloc = 0 ∨ s.last_alloc ∈ l)
    (h : st.alloc H fuel s r = .ok (p, s1)) (hp : p ≠ 0) :
    ∃ B, p = B + H ∧ ((B ∈ l ∧ Fits (hdr s) r B) ∨ (B ∉ bl ∧ B = s.brk)) ∧
      ∀ a ∈ bl, a ≠ B → ∃ b b1, hdr s a = some b ∧ hdr s1 a = some b1 ∧ b1.free = b.free := by
  cases st
  · exact best_fit_alloc_origin hr hH hno hlay hchain hsub h hp
  · exact first_fit_alloc_origin hr hH hno hlay hchain hsub h hp
  · exact worst_fit_alloc_origin hr hH hno hlay hchain hsub h hp
  · exact next_fit_alloc_origin hr hH hno hlay hchain hsub (hcur rfl) h hp

/-- C22 (counterexample): with `H = 24`, `best_fit_alloc(2 ^ 64 - 16)` on the empty arena passes
`8` to `sbrk` (`size + sizeof(block_meta)` wraps), so the break stops at 4104, inside the header
of the block at 4096, which is in the chain and marked used.  `best_fit_alloc(100)` then misses
and is given the block at 4104, whose payload 4128 it returns: the write of `block->size = 100`
into bytes 4104..4111 overwrites the `free` field of the block at 4096, so the call changes the
`free` flag of a block other than the returned one, from used to free. -/
theorem growth_marks_used_block_free :
    ∃ s1 s2, best_fit_alloc 24 1 (emptyArena 4096 65536) (2 ^ 64 - 16) = .ok (4120, s1) ∧
      Chain (hdr s1) s1.global_base [4096] ∧
      hdr s1 4096 = some ⟨2 ^ 64 - 16, 0, 0⟩ ∧ s1.brk = 4104 ∧
      best_fit_alloc 24 1 s1 100 = .ok (4128, s2) ∧ sub64 4128 24 = 4104 ∧
      hdr s2 4104 = some ⟨100, 0, 0⟩ ∧ hdr s2 4096 = some ⟨2 ^ 64 - 16, 100, 0⟩ := by
  refine ⟨_, _, rfl, ?_, by decide, by decide, rfl, by decide, by decide, by decide⟩
  exact ⟨rfl, by decide, ⟨2 ^ 64 - 16, 0, 0⟩, by decide, rfl⟩

/-- C22 (amended): for each of the four strategies, every `r > 0` with `r + H` representable in
`intptr_t` (`r + H < 2 ^ 63`, `H >= 24`), and every state in which the blocks `bl` of the arena,
headers and payloads, lie below the break without overlap, the chain consists of blocks of `bl`
and the cursor, for next fit, is unset or on a block of the chain: the block `B` whose payload
`p = B + H` allocate(r) returns was, immediately before the call, either a block of the chain
marked free with `size >= r`, or no block of the arena at all (the old break, freshly obtained
from `sbrk`); it is never a block that was marked used before the call, and every block other
than the returned one keeps its `free` field. -/
theorem alloc_returns_free_or_fresh_block (st : Strategy) (H fuel : Nat) (s s1 : State)
    (r p : Nat) (l bl : List Nat) (hr : 0 < r) (hH : 24 ≤ H) (hno : r + H < 2 ^ 63)
    (hlay : Layout H s bl) (hchain : Chain (hdr s) s.global_base l) (hsub : ∀ a ∈ l, a ∈ bl)
    (hcur : st = .NextFit → s.last_alloc = 0 ∨ s.last_alloc ∈ l)
    (h : st.alloc H fuel s r = .ok (p, s1)) (hp : p ≠ 0) :
    ∃ B, p = B + H ∧ ((B ∈ l ∧ Fits (hdr s) r B) ∨ (B ∉ bl ∧ B = s.brk)) ∧
      (¬ ∃ b, B ∈ bl ∧ hdr s B = some b ∧ b.free = 0) ∧
      ∀ a ∈ bl, a ≠ B → ∃ b b1, hdr s a = some b ∧ hdr s1 a = some b1 ∧ b1.free = b.free := by
  obtain ⟨B, hpB, horigin, hflags⟩ := st.alloc_origin hr hH hno hlay hchain hsub hcur h hp
  refine ⟨B, hpB, horigin, ?_, hflags⟩
  rintro ⟨b, hBbl, hb, hused⟩
  rcases horigin with ⟨_, b2, hb2, hfree, _⟩ | ⟨hnot, _⟩
  · rw [hb] at hb2
    cases hb2
    exact hfree hused
  · exact hnot hBbl

/-- Witness for C22: next fit on the sample arena (a free block of 64 bytes, a used block of 32
bytes, a free block of 16 bytes), request of 10 bytes: the block at 4096 is handed out and the
other two keep their flags. -/
theorem alloc_returns_free_or_fresh_block_witness :
    Layout 24 sampleArena [4096, 4184, 4240] ∧
    ∃ s1, next_fit_alloc 24 1 sampleArena 10 = .ok (4120, s1) ∧
      ∃ B, 4120 = B + 24 ∧
        ((B ∈ [4096, 4184, 4240] ∧ Fits (hdr sampleArena) 10 B) ∨
          (B ∉ [4096, 4184, 4240] ∧ B = sampleArena.brk)) ∧
        (¬ ∃ b, B ∈ [4096, 4184, 4240] ∧ hdr sampleArena B = some b ∧ b.free = 0) ∧
        ∀ a ∈ [4096, 4184, 4240], a ≠ B →
          ∃ b b1, hdr sampleArena a = some b ∧ hdr s1 a = some b1 ∧ b1.free = b.free := by
  have hlay : Layout 24 sampleArena [4096, 4184, 4240] := by
    refine ⟨by decide, by decide, by decide, ?_, ?_⟩
    · intro a ha
      simp only [List.mem_cons, List.mem_singleton, List.not_mem_nil, or_false] at ha
      rcases ha with rfl | rfl | rfl
      · exact ⟨⟨64, 1, 4184⟩, by decide, by decide⟩
      · exact ⟨⟨32, 0, 4240⟩, by decide, by decide⟩
      · exact ⟨⟨16, 1, 0⟩, by decide, by decide⟩
    · have e1 : sizeAt (hdr sampleArena) 4096 = 64 := sizeAt_of_eq (b := ⟨64, 1, 4184⟩) (by decide)
      have e2 : sizeAt (hdr sampleArena) 4184 = 32 := sizeAt_of_eq (b := ⟨32, 0, 4240⟩) (by decide)
      have e3 : sizeAt (hdr sampleArena) 4240 = 16 := sizeAt_of_eq (b := ⟨16, 1, 0⟩) (by decide)
      intro a ha a2 ha2 hlt
      simp only [List.mem_cons, List.mem_singleton, List.not_mem_nil, or_false] at ha ha2
      rcases ha with rfl | rfl | rfl <;> rcases ha2 with rfl | rfl | rfl <;> omega
  exact ⟨hlay, _, rfl,
    alloc_returns_free_or_fresh_block .NextFit 24 1 sampleArena _ 10 4120 [4096, 4184, 4240]
      [4096, 4184, 4240] (by decide) (by decide) (by decide) hlay
      ⟨rfl, by decide, ⟨64, 1, 4184⟩, by decide, rfl, by decide, ⟨32, 0, 4240⟩, by decide, rfl,
        by decide, ⟨16, 1, 0⟩, by decide, rfl⟩
      (fun a ha => ha) (fun _ => Or.inl rfl) rfl (by decide)⟩

/-! ## C23: byte conservation under best fit -/

theorem footprint_append (H : Nat) (m : View) (xs ys : List Nat) :
    footprint H m (xs ++ ys) = footprint H m xs + footprint H m ys := by
  induction xs with
  | nil => simp [footprint]
  | cons a xs ih => simp [footprint, ih, Nat.add_assoc]

theorem footprint_congr (H : Nat) {m m1 : View} {l : List Nat}
    (h : ∀ a ∈ l, sizeAt m1 a = sizeAt m a) : footprint H m1 l = footprint H m l := by
  induction l with
  | nil => rfl
  | cons a l ih =>
    simp only [footprint]
    rw [h a (List.mem_cons_self _ _), ih (fun x hx => h x (List.mem_cons_of_mem _ hx))]

theorem sizeAt_congr {m m1 : View} {a : Nat} (h : m1 a = m a) : sizeAt m1 a = sizeAt m a := by
  unfold sizeAt
  rw [h]

theorem best_fit_hit_keeps_footprint {H fuel : Nat} {s : State} {r : Nat} {l : List Nat}
    (hr : 0 < r) (hH : 24 ≤ H) (hno : r + H < 2 ^ 63) (hlay : Layout H s l)
    (hchain : Chain (hdr s) s.global_base l) (hfuel : l.length ≤ fuel)
    (hhit : ∃ a ∈ l, Fits (hdr s) r a) :
    ∃ p s1 l1, best_fit_alloc H fuel s r = .ok (p, s1) ∧ p ≠ 0 ∧
      Chain (hdr s1) s1.global_base l1 ∧ footprint H (hdr s1) l1 = footprint H (hdr s) l := by
  obtain ⟨B, hrun, hinv⟩ :=
    find_best_fit_loop_spec s r l [] fuel s.global_base 0 s.global_base hchain hfuel
      (Or.inl ⟨rfl, fun a ha => absurd ha (List.not_mem_nil a)⟩)
  rw [List.nil_append] at hinv
  rcases hinv with ⟨_, hnone⟩ | ⟨hB, ⟨b, hb, hfree, hfit⟩, pre, post, hd, _⟩
  · obtain ⟨a, ha, hfa⟩ := hhit
    exact absurd hfa (hnone a ha)
  · have hBl : B ∈ l := by rw [hd]; simp
    have hg : s.global_base ≠ 0 := by
      cases l with
      | nil => simp at hd
      | cons h t =>
        rw [hchain.head_eq]
        exact Seg.ne_zero _ _ _ hchain h (List.mem_cons_self _ _)
    have hfind : find_best_fit fuel s s.global_base r = .ok (B, l.getLastD s.global_base) :=
      hrun
    obtain ⟨s1, halloc, hg1, _, _, hsplit, hwhole⟩ :=
      best_fit_hit_view H fuel s r B _ b hr hH hg hfind hB hb
        (by unfold SIZE_MOD; omega) (hlay.extent hBl hb)
    have hnd := Chain.nodup _ _ hchain
    have hothers : ∀ a ∈ pre ++ post, a + 24 ≤ B ∨ B + H + b.size ≤ a := by
      intro a ha
      have hal : a ∈ l := by
        rw [hd]
        rcases List.mem_append.mp ha with h | h
        · exact List.mem_append_left _ h
        · exact List.mem_append_right _ (List.mem_cons_of_mem _ h)
      have hne : a ≠ B := by
        rw [hd] at hnd
        obtain ⟨_, hndpost, hdisj⟩ := List.nodup_append.mp hnd
        rcases List.mem_append.mp ha with h | h
        · exact fun e => hdisj h (e ▸ List.mem_cons_self _ _)
        · exact fun e => (List.nodup_cons.mp hndpost).1 (e ▸ h)
      obtain ⟨_, _, _, _, hdis⟩ := hlay
      rcases Nat.lt_or_gt_of_ne hne with hlt | hgt
      · have := hdis a hal B hBl hlt
        omega
      · have := hdis B hBl a hal hgt
        rw [sizeAt_of_eq hb] at this
        exact Or.inr this
    have hptr : B + H ≠ 0 := by omega
    by_cases hc : b.size > r + H + 4
    · obtain ⟨hB1, hN1, hfar, hch⟩ := hsplit hc
      refine ⟨B + H, s1, pre ++ B :: (B + r + H) :: post, halloc, hptr,
        hch pre post (hd ▸ hchain) hothers, ?_⟩
      rw [hd, footprint_append, footprint_append]
      simp only [footprint]
      rw [footprint_congr H (fun a ha =>
          sizeAt_congr (hfar a (hothers a (List.mem_append_left _ ha)))),
        footprint_congr H (fun a ha =>
          sizeAt_congr (hfar a (hothers a (List.mem_append_right _ ha)))),
        sizeAt_of_eq hB1, sizeAt_of_eq hN1, sizeAt_of_eq hb]
      show _ + (H + r + (H + (b.size - r - H) + _)) = _
      omega
    · obtain ⟨hB1, hfar, hch⟩ := hwhole (by omega)
      have hap : ∀ a ∈ l, a = B ∨ a + 24 ≤ B ∨ B + 24 ≤ a := by
        intro a ha
        by_cases hne : a = B
        · exact Or.inl hne
        · exact Or.inr (hlay.apart hH ha hBl hne)
      refine ⟨B + H, s1, l, halloc, hptr, hch l hchain hap, ?_⟩
      refine footprint_congr H (fun a ha => ?_)
      rcases hap a ha with h | h
      · subst h
        rw [sizeAt_of_eq hB1, sizeAt_of_eq hb]
      · exact sizeAt_congr (hfar a h)

theorem best_fit_growth_adds_footprint {H fuel : Nat} {s : State} {r : Nat} {l : List Nat}
    (hr : 0 < r) (hH : 24 ≤ H) (hno : r + H < 2 ^ 63) (hlay : Layout H s l)
    (hchain : Chain (hdr s) s.global_base l) (hfuel : l.length ≤ fuel)
    (hmiss : ∀ a ∈ l, ¬ Fits (hdr s) r a)
    (hgrow : s.brk + (r + H) ≤ s.limit) (hlim : s.brk + (r + H) < SIZE_MOD) :
    ∃ s1, best_fit_alloc H fuel s r = .ok (s.brk + H, s1) ∧
      Chain (hdr s1) s1.global_base (l ++ [s.brk]) ∧
      footprint H (hdr s1) (l ++ [s.brk]) = footprint H (hdr s) l + (H + r) := by
  obtain ⟨s1, hrun, hch, hm, _, _, _, _, _, _, hkeep, _⟩ :=
    best_fit_alloc_miss_appends hr hH hno hchain hfuel hmiss hlay.1 hlay.2.1 hgrow hlim
      (fun a ha => by obtain ⟨_, _, _, h⟩ := hlay.below hH ha; exact h)
      (fun a ha a2 ha2 hne => hlay.apart hH ha ha2 hne)
  refine ⟨s1, hrun, hch, ?_⟩
  rw [footprint_append, footprint_congr H (m := hdr s) (fun a ha => ?_)]
  · simp [footprint, sizeAt_of_eq hm]
  · obtain ⟨b, hb, _⟩ := hlay.below hH ha
    obtain ⟨b1, hb1, hsz, _⟩ := hkeep a ha b hb
    rw [sizeAt_of_eq hb1, sizeAt_of_eq hb, hsz]

theorem best_fit_free_keeps_footprint {H : Nat} {s s1 : State} {ptr : Nat} {l : List Nat}
    (hH : 24 ≤ H) (hlay : Layout H s l) (hptr : ptr = 0 ∨ sub64 ptr H ∈ l)
    (h : best_fit_free H s ptr = .ok s1) (hchain : Chain (hdr s) s.global_base l) :
    Chain (hdr s1) s1.global_base l ∧ footprint H (hdr s1) l = footprint H (hdr s) l := by
  by_cases hp : ptr = 0
  · subst hp
    have : best_fit_free H s 0 = .ok s := rfl
    rw [this] at h
    cases h
    exact ⟨hchain, rfl⟩
  · have hmem := hptr.resolve_left hp
    obtain ⟨b, hb⟩ := Seg.mem_some l _ _ hchain _ hmem
    have hrun : best_fit_free H s ptr = set_free s (sub64 ptr H) 1 :=
      Strategy.free_eq .BestFit H s hp
    rw [hrun, set_free_ok 1 hb] at h
    cases h
    obtain ⟨h1, _, h3, h4⟩ :=
      mark_chain s.global_base s.last_alloc 1 (by decide)
        (fun a ha a2 ha2 hne => hlay.apart hH ha ha2 hne) hmem hb
    refine ⟨h4 _ _ hchain, footprint_congr H (fun a ha => ?_)⟩
    by_cases hne : a = sub64 ptr H
    · rw [hne]
      exact (sizeAt_of_eq h1).trans (sizeAt_of_eq hb).symm
    · exact sizeAt_congr (h3 a ha hne)

/-- C23 (counterexample): with `H = 24`, `best_fit_alloc(2 ^ 64 - 16)` on the empty arena passes
`8` to `sbrk` (`size + sizeof(block_meta)` wraps), so the break stops at 4104, inside the header
of the used block at 4096; the chain is that block, with footprint `2 ^ 64 + 8`.
`best_fit_alloc(100)` then misses, growth succeeds and the payload 4128 of the new block at 4104
is returned, but the write of `block->free = 0` into bytes 4112..4115 clears the `next` link of
the block at 4096 that `last->next = block` had just set: the chain afterwards is still the
single block at 4096, the new block is not in it, and the footprint of the chain is unchanged
instead of larger by `H + r = 124`. -/
theorem best_fit_growth_keeps_footprint_when_break_in_header :
    ∃ s1 s2, best_fit_alloc 24 1 (emptyArena 4096 65536) (2 ^ 64 - 16) = .ok (4120, s1) ∧
      Chain (hdr s1) s1.global_base [4096] ∧ s1.brk = 4104 ∧
      footprint 24 (hdr s1) [4096] = 2 ^ 64 + 8 ∧
      find_best_fit 1 s1 s1.global_base 100 = .ok (0, 4096) ∧
      best_fit_alloc 24 1 s1 100 = .ok (4128, s2) ∧ s2.brk = 4104 + (100 + 24) ∧
      hdr s2 4096 = some ⟨2 ^ 64 - 16, 100, 0⟩ ∧
      Chain (hdr s2) s2.global_base [4096] ∧ ¬ Chain (hdr s2) s2.global_base [4096, 4104] ∧
      footprint 24 (hdr s2) [4096] = 2 ^ 64 + 8 ∧
      footprint 24 (hdr s2) [4096] ≠ footprint 24 (hdr s1) [4096] + (24 + 100) := by
  have e1 : ∀ s1 : State, hdr s1 4096 = some ⟨2 ^ 64 - 16, 0, 0⟩ →
      footprint 24 (hdr s1) [4096] = 2 ^ 64 + 8 := by
    intro s1 h
    simp only [footprint]
    rw [sizeAt_of_eq h]
    decide
  have e2 : ∀ s2 : State, hdr s2 4096 = some ⟨2 ^ 64 - 16, 100, 0⟩ →
      footprint 24 (hdr s2) [4096] = 2 ^ 64 + 8 := by
    intro s2 h
    simp only [footprint]
    rw [sizeAt_of_eq h]
    decide
  refine ⟨_, _, rfl, ?_, by decide, e1 _ (by decide), rfl, rfl, by decide, by decide, ?_, ?_,
    e2 _ (by decide), ?_⟩
  · exact ⟨rfl, by decide, ⟨2 ^ 64 - 16, 0, 0⟩, by decide, rfl⟩
  · exact ⟨rfl, by decide, ⟨2 ^ 64 - 16, 100, 0⟩, by decide, rfl⟩
  · rintro ⟨_, _, b, hb, h⟩
    have hb2 : b = ⟨2 ^ 64 - 16, 100, 0⟩ := Option.some.inj (hb.symm.trans (by decide))
    rw [hb2] at h
    exact absurd (show (0 : Nat) = 4104 from h.1) (by decide)
  · rw [e2 _ (by decide), e1 _ (by decide)]
    decide

/-- C23 (amended): byte conservation under best fit, with `footprint` the sum of `H + size` over
the blocks of the chain: for every `r > 0` with `r + H` representable in `intptr_t`
(`r + H < 2 ^ 63`, `H >= 24`) and every state whose chain `l` is finite and whose blocks, headers
and payloads, lie below the break without overlap: a `best_fit_alloc(r)` hit returns a payload
and leaves the footprint of the chain unchanged, whether or not it splits; a miss with
successful growth appends the block at the old break and increases the footprint by exactly
`H + r`; and `best_fit_free` of `NULL` or of the payload of a block of the chain leaves the
chain and its footprint unchanged. -/
theorem best_fit_conserves_bytes (H fuel : Nat) (s : State) (r : Nat) (l : List Nat)
    (hr : 0 < r) (hH : 24 ≤ H) (hno : r + H < 2 ^ 63) (hlay : Layout H s l)
    (hchain : Chain (hdr s) s.global_base l) (hfuel : l.length ≤ fuel) :
    ((∃ a ∈ l, Fits (hdr s) r a) →
      ∃ p s1 l1, best_fit_alloc H fuel s r = .ok (p, s1) ∧ p ≠ 0 ∧
        Chain (hdr s1) s1.global_base l1 ∧ footprint H (hdr s1) l1 = footprint H (hdr s) l) ∧
    ((∀ a ∈ l, ¬ Fits (hdr s) r a) → s.brk + (r + H) ≤ s.limit →
      s.brk + (r + H) < SIZE_MOD →
      ∃ s1, best_fit_alloc H fuel s r = .ok (s.brk + H, s1) ∧
        Chain (hdr s1) s1.global_base (l ++ [s.brk]) ∧
        footprint H (hdr s1) (l ++ [s.brk]) = footprint H (hdr s) l + (H + r)) ∧
    (∀ ptr s1, ptr = 0 ∨ sub64 ptr H ∈ l → best_fit_free H s ptr = .ok s1 →
      Chain (hdr s1) s1.global_base l ∧ footprint H (hdr s1) l = footprint H (hdr s) l) :=
  ⟨fun hhit => best_fit_hit_keeps_footprint hr hH hno hlay hchain hfuel hhit,
    fun hmiss hgrow hlim =>
      best_fit_growth_adds_footprint hr hH hno hlay hchain hfuel hmiss hgrow hlim,
    fun _ _ hptr h => best_fit_free_keeps_footprint hH hlay hptr h hchain⟩

/-- Witness for C23: a request of 10 bytes against the single free block of 100 bytes, `H = 24`:
the split leaves the footprint at 124 bytes. -/
theorem best_fit_conserves_bytes_witness :
    Layout 24 freedArena [4096] ∧ footprint 24 (hdr freedArena) [4096] = 124 ∧
      ∃ p s1 l1, best_fit_alloc 24 1 freedArena 10 = .ok (p, s1) ∧ p ≠ 0 ∧
        Chain (hdr s1) s1.global_base l1 ∧
        footprint 24 (hdr s1) l1 = footprint 24 (hdr freedArena) [4096] := by
  have hb : hdr freedArena 4096 = some ⟨100, 1, 0⟩ := by decide
  have hlay : Layout 24 freedArena [4096] := by
    refine ⟨by decide, by decide, by decide, ?_, ?_⟩
    · intro a ha
      rw [List.mem_singleton.mp ha]
      exact ⟨_, hb, by decide⟩
    · intro a ha a2 ha2 hlt
      rw [List.mem_singleton.mp ha, List.mem_singleton.mp ha2] at hlt
      exact absurd hlt (by decide)
  refine ⟨hlay, ?_, ?_⟩
  · simp only [footprint]
    rw [sizeAt_of_eq hb]
    decide
  · exact (best_fit_conserves_bytes 24 1 freedArena 10 [4096] (by decide) (by decide)
      (by decide) hlay ⟨rfl, by decide, ⟨100, 1, 0⟩, hb, rfl⟩ (by decide)).1
      ⟨4096, by simp, ⟨100, 1, 0⟩, hb, by decide, by decide⟩

end MemoryAllocator
